import Mathlib

/-!
Verification of musical-leds-controller: the note stack, the effect templates,
the LED controller protocol, the dispatch of MIDI events and the timeline.

A shallow embedding of `midi.go` and `led.go`.

* Unsigned machine integers (`uint8`, `uint16`, `uint32`, `uint64`) are natural
  numbers; wrap-around is written `% 2 ^ w` where the Go operation can overflow
  or where a conversion truncates.
* A Go slice is a `List`; an index or slice expression that Go would reject with
  a run-time panic yields `none`.
* A Go string is the list of its characters.  The program looks at the bytes of
  a string in three places only: the prefix test against `"0x"`, the slice
  `s[2:]` behind that test, and the digit switch of `strconv.ParseUint`, which
  sends every byte of a character outside ASCII to its `default` branch, where
  the character itself is sent here.
* The serial port is a log of the frames handed to `Write`, together with an
  oracle telling which `Write` calls return an error.
* A MIDI message is what `GetNoteOn` and `GetNoteOff` of `gomidi` make of it: a
  note-on or a note-off with channel, key and velocity, or another message.
  The tempo map of the file is the function `TimeAt`.
* `slices.SortFunc`, `strconv.ParseInt`, `strconv.Itoa` and `strings.HasPrefix`
  follow the Go standard library.
* Sleeping, printing and the reading of files are left out.
-/

namespace MusicalLeds

/-! ## Note stack (`midi.go`) -/

/-- One held note of a key: `type noteStatus struct`. -/
structure noteStatus where
  channel : Nat
  effect : Nat
  deriving DecidableEq, Repr, Inhabited

/-- The table `type noteStacker [128][]noteStatus`: one slice per MIDI key. -/
abbrev noteStacker := Fin 128 → List noteStatus

/-- The zero value of `noteStacker`: every key holds the nil slice. -/
def noteStacker.empty : noteStacker := fun _ => []

/-- The loop `for i, status := range n[key]` shared by `Play` and `Release`.
`todo` counts the iterations still to run, `i` is the loop index, `s` the
current content of the backing array.  The element read at index `i` and the
element read at `i + 1` are bounds-checked as in Go. -/
def shiftLoop (channel : Nat) : Nat → Nat → Bool → List noteStatus →
    Option (Bool × List noteStatus)
  | 0, _, found, s => some (found, s)
  | todo + 1, i, found, s =>
    match s[i]? with
    | none => none
    | some status =>
      let found := found || (status.channel == channel)
      if found && decide ((i : Int) < (s.length : Int) - 1) then
        match s[i + 1]? with
        | none => none
        | some next => shiftLoop channel todo (i + 1) found (s.set i next)
      else
        shiftLoop channel todo (i + 1) found s

/-- The method `func (n *noteStacker) Play(key, channel uint8, effect uint32) uint32`.
Returns the result together with the new table; `none` is a run-time panic. -/
def noteStacker.Play (n : noteStacker) (key channel effect : Nat) :
    Option (Nat × noteStacker) :=
  if h : key < 128 then
    match shiftLoop channel (n ⟨key, h⟩).length 0 false (n ⟨key, h⟩) with
    | none => none
    | some (found, s) =>
      if found then
        if (0 : Int) ≤ (s.length : Int) - 1 then
          some (effect, Function.update n ⟨key, h⟩
            (s.set (s.length - 1) { channel := channel, effect := effect }))
        else none
      else
        some (effect, Function.update n ⟨key, h⟩
          (s ++ [{ channel := channel, effect := effect }]))
  else none

/-- The tail of `Release`: the effect of the last entry, or `0`. -/
def lastEffect (s : List noteStatus) : Option Nat :=
  if s.length > 0 then
    match s[s.length - 1]? with
    | none => none
    | some status => some status.effect
  else some 0

/-- The method `func (n *noteStacker) Release(key, channel uint8) uint32`. -/
def noteStacker.Release (n : noteStacker) (key channel : Nat) :
    Option (Nat × noteStacker) :=
  if h : key < 128 then
    match shiftLoop channel (n ⟨key, h⟩).length 0 false (n ⟨key, h⟩) with
    | none => none
    | some (found, s) =>
      let cut : Option (List noteStatus) :=
        if found then
          if (0 : Int) ≤ (s.length : Int) - 1 then some (s.take (s.length - 1)) else none
        else some s
      match cut with
      | none => none
      | some s' =>
        match lastEffect s' with
        | none => none
        | some r => some (r, Function.update n ⟨key, h⟩ s')
  else none

/-- The states the note stack can be in: the empty table and whatever `Play`
and `Release` make of a reachable table. -/
inductive Reachable : noteStacker → Prop
  | empty : Reachable noteStacker.empty
  | play {n n' : noteStacker} {key channel effect r : Nat} :
      Reachable n → n.Play key channel effect = some (r, n') → Reachable n'
  | release {n n' : noteStacker} {key channel r : Nat} :
      Reachable n → n.Release key channel = some (r, n') → Reachable n'

/-- The channels of a key's list, oldest first. -/
def channels (s : List noteStatus) : List Nat := s.map noteStatus.channel

/-- The list without the entries of `channel`, the others in their old order. -/
def without (channel : Nat) (s : List noteStatus) : List noteStatus :=
  s.filter (fun st => st.channel ≠ channel)

/-- The list without its first entry of `channel`. -/
def dropFirst (channel : Nat) : List noteStatus → List noteStatus
  | [] => []
  | st :: rest => if st.channel = channel then rest else st :: dropFirst channel rest

/-- A table in which key 60 is held by channel 2 (effect 7) and, more recently,
by channel 1 (effect 5); every other key is silent. -/
def heldChord : noteStacker :=
  fun k => if k.val = 60 then [{ channel := 2, effect := 7 }, { channel := 1, effect := 5 }] else []

/-! ## Effect templates (`midi.go`, with `strings.HasPrefix` and `strconv.ParseInt`) -/

/-- The errors of `strconv`: `ErrSyntax`, `ErrRange`, and the two argument errors. -/
inductive NumError where
  | ErrSyntax
  | ErrRange
  | ErrBase
  | ErrBitSize
  deriving DecidableEq, Repr

/-- Go `strings.HasPrefix`: `len(s) >= len(prefix) && s[:len(prefix)] == prefix`. -/
def HasPrefix (s pre : List Char) : Bool :=
  decide (s.length ≥ pre.length) && (s.take pre.length == pre)

/-- The slice expression `s[i:]`, which panics when `i > len(s)`. -/
def sliceFrom (s : List Char) (i : Nat) : Option (List Char) :=
  if i ≤ s.length then some (s.drop i) else none

/-- Go `strconv.lower`: `c | ('x' - 'X')`. -/
def lower (c : Nat) : Nat := c ||| ('x'.toNat - 'X'.toNat)

/-- The digit switch of `strconv.ParseUint` for a base other than 0: the value
of the character, or `none` for the `default` branch.  A character outside
ASCII falls into the `default` branch, as each of its UTF-8 bytes does. -/
def digitVal (c : Nat) : Option Nat :=
  if '0'.toNat ≤ c ∧ c ≤ '9'.toNat then some (c - '0'.toNat)
  else if 'a'.toNat ≤ lower c ∧ lower c ≤ 'z'.toNat then some (lower c - 'a'.toNat + 10)
  else none

/-- The digit switch followed by the test `d >= byte(base)` for base 16: the
digits the parser accepts. -/
def hexOfDigitVal (n : Nat) : Option Nat :=
  (digitVal n).bind (fun d => if d < 16 then some d else none)

/-- The digit loop of `strconv.ParseUint`; `n` is the `uint64` accumulator.
The result is Go's pair `(value, err)`. -/
def parseUintLoop (base maxVal cutoff : Nat) : List Char → Nat → Nat × Option NumError
  | [], n => (n, none)
  | c :: rest, n =>
    match digitVal c.toNat with
    | none => (0, some NumError.ErrSyntax)
    | some d =>
      if d ≥ base then (0, some NumError.ErrSyntax)
      else if n ≥ cutoff then (maxVal, some NumError.ErrRange)
      else
        let n0 := (n * base) % 2 ^ 64
        let n1 := (n0 + d) % 2 ^ 64
        if n1 < n0 ∨ n1 > maxVal then (maxVal, some NumError.ErrRange)
        else parseUintLoop base maxVal cutoff rest n1

/-- Go `strconv.ParseUint(s, base, bitSize)` for an explicit base `2..36`
(the prefix and underscore handling of base 0 is not reached from this
program, which passes base 16; base 0 is reported as `ErrBase` here). -/
def ParseUint (s : List Char) (base bitSize : Nat) : Nat × Option NumError :=
  if s = [] then (0, some NumError.ErrSyntax)
  else if ¬ (2 ≤ base ∧ base ≤ 36) then (0, some NumError.ErrBase)
  else if bitSize > 64 then (0, some NumError.ErrBitSize)
  else
    let bits := if bitSize = 0 then 64 else bitSize
    let cutoff := (2 ^ 64 - 1) / base + 1
    let maxVal := ((1 <<< bits) % 2 ^ 64 + 2 ^ 64 - 1) % 2 ^ 64
    parseUintLoop base maxVal cutoff s 0

/-- Two's complement reading of a value as `int64`. -/
def wrapInt64 (z : Int) : Int := (z + 2 ^ 63) % 2 ^ 64 - 2 ^ 63

/-- Go `strconv.ParseInt(s, base, bitSize)`: the pair `(value, err)`. -/
def ParseInt (s : List Char) (base bitSize : Nat) : Int × Option NumError :=
  match s with
  | [] => (0, some NumError.ErrSyntax)
  | c :: rest =>
    let neg := decide (c = '-')
    let body := if c = '+' then rest else if c = '-' then rest else c :: rest
    match ParseUint body base 64 with
    | (_, some NumError.ErrSyntax) => (0, some NumError.ErrSyntax)
    | (_, some NumError.ErrBase) => (0, some NumError.ErrBase)
    | (_, some NumError.ErrBitSize) => (0, some NumError.ErrBitSize)
    | (un, _) =>
      let bits := if bitSize = 0 then 64 else bitSize
      let cutoff := (1 <<< (bits - 1)) % 2 ^ 64
      if !neg && decide (un ≥ cutoff) then
        (wrapInt64 ((cutoff : Int) - 1), some NumError.ErrRange)
      else if neg && decide (un > cutoff) then
        (wrapInt64 (-(wrapInt64 cutoff)), some NumError.ErrRange)
      else
        let n := wrapInt64 un
        (if neg then wrapInt64 (-n) else n, none)

/-- The conversion `uint32(x)` of an `int64`. -/
def toUint32 (z : Int) : Nat := (z % 2 ^ 32).toNat

/-- The colour arithmetic of `stringToEffect` on `uint32` operands. -/
def scaleColor (color velocity : Nat) : Nat :=
  (((((color &&& 0xFF0000) * velocity) % 2 ^ 32) >>> 7) &&& 0xFF0000) |||
  (((((color &&& 0x00FF00) * velocity) % 2 ^ 32) >>> 7) &&& 0x00FF00) |||
  (((((color &&& 0x0000FF) * velocity) % 2 ^ 32) >>> 7) &&& 0x0000FF)

/-- The function `func stringToEffect(s string, velocity uint8) uint32`;
`none` is a run-time panic of the slice expression `s[2:]`. -/
def stringToEffect (s : String) (velocity : Nat) : Option Nat :=
  if HasPrefix s.data "0x".data then
    match sliceFrom s.data 2 with
    | none => none
    | some rest =>
      match ParseInt rest 16 32 with
      | (_, some _) => some 0
      | (colorInt64, none) => some (scaleColor (toUint32 colorInt64) velocity)
  else some 0

/-! ### The template forms named by the specification -/

/-- The value of a hexadecimal digit, read off the digit tables; `none` for
any other character. -/
def specHexValue (c : Char) : Option Nat :=
  if c ∈ "0123456789abcdef".data then some ("0123456789abcdef".data.indexOf c)
  else if c ∈ "0123456789ABCDEF".data then some ("0123456789ABCDEF".data.indexOf c)
  else none

/-- The number written by a string of hexadecimal digits, most significant
first, continuing from the value `acc` of the digits already read; `none` when
a character is not a hexadecimal digit. -/
def specHexFrom : Nat → List Char → Option Nat
  | acc, [] => some acc
  | acc, c :: rest =>
    match specHexValue c with
    | none => none
    | some d => specHexFrom (16 * acc + d) rest

/-- The literal hex colour form `0xRRGGBB`: `"0x"` followed by exactly six
hexadecimal digits.  The result is the colour `R * 65536 + G * 256 + B`. -/
def specHexColour (s : String) : Option Nat :=
  match s.data with
  | '0' :: 'x' :: digits => if digits.length = 6 then specHexFrom 0 digits else none
  | _ => none

/-- The number written by one or more hexadecimal digits. -/
def specHexNumber (digits : List Char) : Option Nat :=
  if digits = [] then none else specHexFrom 0 digits

/-- A base-16 integer that fits in a signed 32-bit value: an optional sign
`+` or `-`, then one or more hexadecimal digits, with value in
`-2^31 .. 2^31 - 1`. -/
def specHexInt32 (s : List Char) : Option Int :=
  match s with
  | [] => none
  | c :: rest =>
    if c = '+' then
      (specHexNumber rest).bind (fun m => if m < 2 ^ 31 then some (m : Int) else none)
    else if c = '-' then
      (specHexNumber rest).bind (fun m => if m ≤ 2 ^ 31 then some (-(m : Int)) else none)
    else
      (specHexNumber (c :: rest)).bind (fun m => if m < 2 ^ 31 then some (m : Int) else none)

/-- The integer of a template `"0x"` followed by a base-16 integer that fits
in a signed 32-bit value; `none` for every other template. -/
def specTemplateInt (s : String) : Option Int :=
  match s.data with
  | '0' :: 'x' :: rest => specHexInt32 rest
  | _ => none

/-! ## LED controller (`led.go`) -/

/-- A zone of the lighting configuration: `type ZoneConfig struct`. -/
structure ZoneConfig where
  Name : String
  On : Nat
  Off : Nat
  deriving DecidableEq, Repr

/-- A strip of the lighting configuration: `type StripConfig struct`. -/
structure StripConfig where
  Zones : List ZoneConfig
  deriving DecidableEq, Repr

/-- The lighting configuration: `type Config struct`. -/
structure Config where
  Strips : List StripConfig
  deriving DecidableEq, Repr

/-- A zone address: `type ZoneIndex struct`, two `uint8` fields. -/
structure ZoneIndex where
  Strip : Nat
  Zone : Nat
  deriving DecidableEq, Repr

/-- The serial port: `calls` are the frames handed to `Write` so far, oldest
first; `fails k` tells whether the `k`-th call of `Write` returns an error. -/
structure Port where
  fails : Nat → Bool
  calls : List (List Nat)

/-- One call `port.Write(frame)`: the port afterwards and whether `err != nil`. -/
def Port.Write (p : Port) (frame : List Nat) : Port × Bool :=
  ({ p with calls := p.calls ++ [frame] }, p.fails p.calls.length)

/-- The port returns no error for its next `n` calls of `Write`. -/
def Port.accepts (p : Port) (n : Nat) : Prop :=
  ∀ k, p.calls.length ≤ k → k < p.calls.length + n → p.fails k = false

/-- The controller: `type LEDController struct`; the map `zoneCache` is a
partial function on names. -/
structure LEDController where
  port : Port
  zoneCache : String → Option ZoneIndex

/-- The map literal `map[string]ZoneIndex{}`. -/
def emptyCache : String → Option ZoneIndex := fun _ => none

/-- The map assignment `cache[name] = idx`. -/
def cacheSet (cache : String → Option ZoneIndex) (name : String) (idx : ZoneIndex) :
    String → Option ZoneIndex :=
  fun k => if k = name then some idx else cache k

/-- The inner loop of `Configure`, `for zoneNum, zone := range strip.Zones`,
from index `zoneNum` on.  The result is the controller and whether the loop
left `Configure` with an error. -/
def configureZones (stripNum : Nat) : Nat → List ZoneConfig → LEDController →
    LEDController × Bool
  | _, [], c => (c, false)
  | zoneNum, zone :: rest, c =>
    if zone.Name = "" then configureZones stripNum (zoneNum + 1) rest c
    else
      let idx : ZoneIndex := { Strip := stripNum % 256, Zone := zoneNum % 256 }
      let c1 : LEDController := { c with zoneCache := cacheSet c.zoneCache zone.Name idx }
      let afterOff : LEDController × Bool :=
        if zone.Off > 0 then
          let w := c1.port.Write
            ['D'.toNat, stripNum % 256, zoneNum % 256, (zone.Off >>> 8) % 256,
              (zone.Off &&& 0xFF) % 256]
          ({ c1 with port := w.1 }, w.2)
        else (c1, false)
      if afterOff.2 then (afterOff.1, true)
      else
        let w := afterOff.1.port.Write
          ['L'.toNat, stripNum % 256, zoneNum % 256, (zone.On >>> 8) % 256,
            (zone.On &&& 0xFF) % 256]
        let c2 : LEDController := { afterOff.1 with port := w.1 }
        if w.2 then (c2, true)
        else configureZones stripNum (zoneNum + 1) rest c2

/-- The outer loop of `Configure`, `for stripNum, strip := range config.Strips`,
from index `stripNum` on. -/
def configureStrips : Nat → List StripConfig → LEDController → LEDController × Bool
  | _, [], c => (c, false)
  | stripNum, strip :: rest, c =>
    let r := configureZones stripNum 0 strip.Zones c
    if r.2 then (r.1, true)
    else configureStrips (stripNum + 1) rest r.1

/-- The method `func (c *LEDController) Configure(config *Config) error`. -/
def LEDController.Configure (c : LEDController) (config : Config) : LEDController × Bool :=
  let c0 : LEDController := { c with zoneCache := emptyCache }
  let w := c0.port.Write ['R'.toNat]
  let c1 : LEDController := { c0 with port := w.1 }
  if w.2 then (c1, true)
  else configureStrips 0 config.Strips c1

/-- The method `func (c *LEDController) SetZoneEffectRaw(strip, zone uint8, effect uint32) error`. -/
def LEDController.SetZoneEffectRaw (c : LEDController) (strip zone effect : Nat) :
    LEDController × Bool :=
  let w := c.port.Write
    ['E'.toNat, strip, zone, (effect >>> 24) % 256, ((effect >>> 16) &&& 0xFF) % 256,
      ((effect >>> 8) &&& 0xFF) % 256, (effect &&& 0xFF) % 256]
  ({ c with port := w.1 }, w.2)

/-- The method `func (c *LEDController) SetZoneEffect(zoneName string, effect uint32) error`. -/
def LEDController.SetZoneEffect (c : LEDController) (zoneName : String) (effect : Nat) :
    LEDController × Bool :=
  match c.zoneCache zoneName with
  | some zone =>
    let r := c.SetZoneEffectRaw zone.Strip zone.Zone effect
    if r.2 then (r.1, true) else (r.1, false)
  | none => (c, false)

/-! ### The configuration as the specification reads it -/

/-- The zone at position `j` of strip `i`, if there is one. -/
def zoneAt (config : Config) (i j : Nat) : Option ZoneConfig :=
  match config.Strips[i]? with
  | none => none
  | some strip => strip.Zones[j]?

/-- The non-empty names of a list of zones, in order. -/
def zoneNamesOf (zones : List ZoneConfig) : List String :=
  (zones.map ZoneConfig.Name).filter (fun n => n ≠ "")

/-- The non-empty zone names of a list of strips, in strip order and zone order. -/
def stripNamesOf : List StripConfig → List String
  | [] => []
  | strip :: rest => zoneNamesOf strip.Zones ++ stripNamesOf rest

/-- The non-empty zone names of a configuration. -/
def zoneNames (config : Config) : List String := stripNamesOf config.Strips

/-- The frames of the zones of strip `i` from position `j` on: a zone without
a name has none; a named zone has its `'D'` frame when its off level is not
zero, immediately followed by its `'L'` frame. -/
def specZoneFrames (i : Nat) : Nat → List ZoneConfig → List (List Nat)
  | _, [] => []
  | j, zone :: rest =>
    (if zone.Name = "" then []
     else
      (if zone.Off > 0 then [[68, i % 256, j % 256, zone.Off / 256 % 256, zone.Off % 256]]
       else []) ++
      [[76, i % 256, j % 256, zone.On / 256 % 256, zone.On % 256]]) ++
    specZoneFrames i (j + 1) rest

/-- The frames of the strips from index `i` on, strip after strip. -/
def specStripFrames : Nat → List StripConfig → List (List Nat)
  | _, [] => []
  | i, strip :: rest => specZoneFrames i 0 strip.Zones ++ specStripFrames (i + 1) rest

/-- The registry after the zones of strip `i` from position `j` on have been
entered into `cache`, one after the other. -/
def zonesCache (i : Nat) : Nat → List ZoneConfig → (String → Option ZoneIndex) →
    String → Option ZoneIndex
  | _, [], cache => cache
  | j, zone :: rest, cache =>
    if zone.Name = "" then zonesCache i (j + 1) rest cache
    else zonesCache i (j + 1) rest
      (cacheSet cache zone.Name { Strip := i % 256, Zone := j % 256 })

/-- The registry after the strips from index `i` on have been entered. -/
def stripsCache : Nat → List StripConfig → (String → Option ZoneIndex) →
    String → Option ZoneIndex
  | _, [], cache => cache
  | i, strip :: rest, cache => stripsCache (i + 1) rest (zonesCache i 0 strip.Zones cache)

/-- Whether every `'D'` frame of a frame sequence comes before every `'L'` frame. -/
def offFramesFirst (frames : List (List Nat)) : Bool :=
  (frames.dropWhile (fun f => f.head? != some 'L'.toNat)).all
    (fun f => f.head? != some 'D'.toNat)

/-- A controller on a port that accepts every write, with one stale entry in
its registry. -/
def idleController : LEDController :=
  { port := { fails := fun _ => false, calls := [] },
    zoneCache := fun n => if n = "old" then some { Strip := 9, Zone := 9 } else none }

/-- A controller on a port that accepts five writes and refuses every later
one. -/
def lateController : LEDController :=
  { port := { fails := fun k => decide (5 ≤ k), calls := [] }, zoneCache := emptyCache }

/-- A controller on a port that refuses every write. -/
def refusingController : LEDController :=
  { port := { fails := fun _ => true, calls := [] }, zoneCache := emptyCache }

/-- One strip whose zones at positions 0 and 2 have no name. -/
def gapConfig : Config :=
  { Strips := [{ Zones := [{ Name := "", On := 1, Off := 1 },
                           { Name := "mid", On := 0x0102, Off := 0 },
                           { Name := "", On := 2, Off := 2 }] }] }

/-- One strip with two named zones, both with a nonzero off level. -/
def pairConfig : Config :=
  { Strips := [{ Zones := [{ Name := "a", On := 9, Off := 1 },
                           { Name := "b", On := 9, Off := 1 }] }] }

/-! ## Note names (`midi.go`, with `strconv.Itoa`) -/

/-- The table `var noteNames = [12]string{...}`. -/
def noteNames : List String :=
  ["A", "A#", "B", "C", "C#", "D", "D#", "E", "F", "F#", "G", "G#"]

/-- Go `strconv.Itoa`: the decimal digits, with a minus sign in front of a
negative number. -/
def Itoa (i : Int) : String :=
  if i < 0 then "-" ++ Nat.repr i.natAbs else Nat.repr i.toNat

/-- The function `func noteName(key uint8) string`.  Behind the guard
`key < 21` the two `uint8` subtractions do not wrap, and the index
`subOctave` is below 12, the length of the table. -/
def noteName (key : Nat) : String :=
  if key < 21 then ""
  else
    let subOctave := (key - 21) % 12
    let octave := (key - 12) / 12
    noteNames.getD subOctave "" ++ Itoa (octave : Int)

/-- Reading a note name back: the pitch class in front of the first digit
gives the place in the octave, the digits give the octave. -/
def keyOfNoteName (s : String) : Nat :=
  let sub := noteNames.indexOf (String.mk (s.data.takeWhile (fun c => !c.isDigit)))
  let octave := (s.data.dropWhile (fun c => !c.isDigit)).foldl
    (fun n c => 10 * n + (c.toNat - '0'.toNat)) 0
  21 + 12 * (octave - (if sub < 3 then 0 else 1)) + sub

/-! ## Dispatch of one event (`midi.go`, with the messages of `gomidi`) -/

/-- A MIDI message as `send` and `Play` look at it: `GetNoteOn` succeeds on
`noteOn`, `GetNoteOff` on `noteOff`, and both hand out channel, key and
velocity; `Type().Is(midi.NoteOnMsg)` and `Type().Is(midi.NoteOffMsg)` hold
for these two and for no `other` message. -/
inductive Message where
  | noteOn (channel key velocity : Nat)
  | noteOff (channel key velocity : Nat)
  | other
  deriving DecidableEq, Repr

/-- The song mapping: `type SongMapping struct`, two maps. -/
structure SongMapping where
  Keys : String → Option String
  Channels : Nat → Option String

/-- An event of a track: `smf.Event`, a delta time and a message. -/
structure Event where
  Delta : Nat
  Message : Message
  deriving DecidableEq, Repr

/-- The MIDI file: `smf.SMF`, as far as `Play` uses it.  `TimeAt` stands for
the method of that name, which reads the tempo map of the file. -/
structure SMF where
  Tracks : List (List Event)
  TimeAt : Int → Int

/-- The player: `type LightPlayer struct`; a nil `controller` is `none`. -/
structure LightPlayer where
  controller : Option LEDController
  mapping : SongMapping
  midiFile : SMF
  noteStatuses : noteStacker

/-- The call `l.controller.SetZoneEffect(zoneName, effect)` behind the test
`ok && l.controller != nil`: the player afterwards and whether `send` returns
an error here. -/
def LightPlayer.forward (l : LightPlayer) (zone : Option String) (effect : Nat) :
    LightPlayer × Bool :=
  match zone, l.controller with
  | some zoneName, some c =>
    let r := c.SetZoneEffect zoneName effect
    if r.2 then ({ l with controller := some r.1 }, true)
    else ({ l with controller := some r.1 }, false)
  | _, _ => (l, false)

/-- The method `func (l *LightPlayer) send(message smf.Message) error`: the
player afterwards and whether the result is an error; `none` is a run-time
panic.  The debug printing behind `os.Getenv("DEBUG")` and the printing of the
error are left out. -/
def LightPlayer.send (l : LightPlayer) (message : Message) : Option (LightPlayer × Bool) :=
  match message with
  | Message.noteOn channel key velocity =>
    match l.mapping.Channels channel with
    | some effectString =>
      match stringToEffect effectString velocity with
      | none => none
      | some effect =>
        let zone := l.mapping.Keys (noteName key)
        match l.noteStatuses.Play key channel effect with
        | none => none
        | some (effect, stack) => some (LightPlayer.forward { l with noteStatuses := stack } zone effect)
    | none => some (l, false)
  | Message.noteOff channel key _ =>
    let zone := l.mapping.Keys (noteName key)
    match l.noteStatuses.Release key channel with
    | none => none
    | some (effect, stack) => some (LightPlayer.forward { l with noteStatuses := stack } zone effect)
  | Message.other => some (l, false)

/-- The Set-effect frame of the wire protocol for a zone address and a 32-bit
effect, most significant byte first. -/
def specEffectFrame (a : ZoneIndex) (effect : Nat) : List Nat :=
  [69, a.Strip, a.Zone, effect / 2 ^ 24 % 256, effect / 2 ^ 16 % 256, effect / 2 ^ 8 % 256,
    effect % 256]

/-- A player whose song mapping knows the note `C4` and no channel at all, on
the controller configured from `gapConfig`. -/
def strayPlayer : LightPlayer :=
  { controller := some (idleController.Configure gapConfig).1,
    mapping := { Keys := fun n => if n = "C4" then some "mid" else none,
                 Channels := fun _ => none },
    midiFile := { Tracks := [], TimeAt := fun t => t },
    noteStatuses := noteStacker.empty }

/-- A player whose song mapping knows the note `C4` and the channels 0 and 1,
on the controller configured from `gapConfig`. -/
def chordPlayer : LightPlayer :=
  { controller := some (idleController.Configure gapConfig).1,
    mapping := { Keys := fun n => if n = "C4" then some "mid" else none,
                 Channels := fun c => if c = 0 then some "0xFF0000" else
                   if c = 1 then some "0x00FF00" else none },
    midiFile := { Tracks := [], TimeAt := fun t => t },
    noteStatuses := noteStacker.empty }

/-! ### The frames of `Configure` position by position -/

/-- The frames of the zone at position `j` of strip `i`: none for a zone
without a name; otherwise the five bytes `'D', i, j, off >> 8, off & 0xFF` when
the off level is not zero, immediately followed by the five bytes
`'L', i, j, on >> 8, on & 0xFF`. -/
def specFramesOfZone (i j : Nat) (zone : ZoneConfig) : List (List Nat) :=
  if zone.Name = "" then []
  else
    (if zone.Off > 0 then [['D'.toNat, i, j, zone.Off >>> 8, zone.Off &&& 0xFF]] else []) ++
    [['L'.toNat, i, j, zone.On >>> 8, zone.On &&& 0xFF]]

/-- Everything `Configure` writes: the one-byte Reset frame, then the frames of
the zones, visited in strip order and within a strip in zone order. -/
def specConfigureFrames (config : Config) : List (List Nat) :=
  ['R'.toNat] ::
    config.Strips.enum.flatMap (fun p => p.2.Zones.enum.flatMap (fun q => specFramesOfZone p.1 q.1 q.2))

/-- Two strips; the levels of the zones use both bytes. -/
def twoStripConfig : Config :=
  { Strips := [{ Zones := [{ Name := "a", On := 0x0102, Off := 0x0304 },
                           { Name := "", On := 5, Off := 6 },
                           { Name := "b", On := 0xFFFF, Off := 0 }] },
               { Zones := [{ Name := "", On := 1, Off := 1 },
                           { Name := "c", On := 7, Off := 0x0800 }] }] }

/-! ## Sorting (`slices.SortFunc` of the Go standard library)

The pattern-defeating quicksort behind `slices.SortFunc`.  A slice is a list,
`a` and `b` bound the part `data[a:b]` being sorted, and every loop carries a
counter that bounds its iterations. -/

section Sorting

variable {α : Type}

/-- The test `cmp(data[i], data[j]) < 0`. -/
def lessAt (cmp : α → α → Int) (data : List α) (i j : Nat) : Bool :=
  match data[i]?, data[j]? with
  | some x, some y => decide (cmp x y < 0)
  | _, _ => false

/-- The assignment `data[i], data[j] = data[j], data[i]`. -/
def swapAt (data : List α) (i j : Nat) : List α :=
  match data[i]?, data[j]? with
  | some x, some y => (data.set i y).set j x
  | _, _ => data

/-- The inner loop of `insertionSortCmpFunc`:
`for j := i; j > a && cmp(data[j], data[j-1]) < 0; j--`. -/
def insertDown (cmp : α → α → Int) (a : Nat) : Nat → List α → List α
  | 0, data => data
  | j + 1, data =>
    if a < j + 1 ∧ lessAt cmp data (j + 1) j = true then
      insertDown cmp a j (swapAt data (j + 1) j)
    else data

/-- The outer loop of `insertionSortCmpFunc`: `for i := a + 1; i < b; i++`. -/
def insertionLoop (cmp : α → α → Int) (a b : Nat) : Nat → Nat → List α → List α
  | 0, _, data => data
  | todo + 1, i, data =>
    if i < b then insertionLoop cmp a b todo (i + 1) (insertDown cmp a i data) else data

/-- Go `insertionSortCmpFunc(data, a, b, cmp)`. -/
def insertionSortCmpFunc (cmp : α → α → Int) (data : List α) (a b : Nat) : List α :=
  insertionLoop cmp a b (b - a) (a + 1) data

/-- Go `siftDownCmpFunc(data, lo, hi, first, cmp)`, from `root` on. -/
def siftDownCmpFunc (cmp : α → α → Int) (hi first : Nat) : Nat → Nat → List α → List α
  | 0, _, data => data
  | todo + 1, root, data =>
    let child := 2 * root + 1
    if child ≥ hi then data
    else
      let child' :=
        if child + 1 < hi ∧ lessAt cmp data (first + child) (first + child + 1) = true
        then child + 1 else child
      if !(lessAt cmp data (first + root) (first + child')) then data
      else siftDownCmpFunc cmp hi first todo child' (swapAt data (first + root) (first + child'))

/-- The first loop of `heapSortCmpFunc`: `for i := (hi - 1) / 2; i >= 0; i--`. -/
def heapBuild (cmp : α → α → Int) (hi first : Nat) : Nat → List α → List α
  | 0, data => siftDownCmpFunc cmp hi first hi 0 data
  | i + 1, data => heapBuild cmp hi first i (siftDownCmpFunc cmp hi first hi (i + 1) data)

/-- The second loop of `heapSortCmpFunc`: `for i := hi - 1; i >= 0; i--`, with
`n = i + 1`. -/
def heapPop (cmp : α → α → Int) (first : Nat) : Nat → List α → List α
  | 0, data => data
  | i + 1, data =>
    heapPop cmp first i (siftDownCmpFunc cmp i first i 0 (swapAt data first (first + i)))

/-- Go `heapSortCmpFunc(data, a, b, cmp)`. -/
def heapSortCmpFunc (cmp : α → α → Int) (data : List α) (a b : Nat) : List α :=
  heapPop cmp a (b - a) (heapBuild cmp (b - a) a ((b - a - 1) / 2) data)

/-- Go `bits.Len` on a 64-bit word: the number of bits of `x`. -/
def bitsLen : Nat → Nat → Nat
  | 0, _ => 0
  | todo + 1, x => if x = 0 then 0 else 1 + bitsLen todo (x / 2)

/-- Go `(*xorshift).Next` on a `uint64`. -/
def xorshiftNext (r : Nat) : Nat :=
  let r1 := r ^^^ ((r <<< 13) % 2 ^ 64)
  let r2 := r1 ^^^ (r1 >>> 7)
  r2 ^^^ ((r2 <<< 17) % 2 ^ 64)

/-- The loop of `breakPatternsCmpFunc`: `for i := 0; i < 3; i++`, with
`todo = 3 - i`; round `i` exchanges `data[idx + i]` and `data[a + other]`. -/
def breakLoop (a length modulus idx : Nat) : Nat → Nat → List α → List α
  | 0, _, data => data
  | todo + 1, random, data =>
    let random' := xorshiftNext random
    let other := random' &&& (modulus - 1)
    let other' := if other ≥ length then other - length else other
    breakLoop a length modulus idx todo random' (swapAt data (idx + (2 - todo)) (a + other'))

/-- Go `breakPatternsCmpFunc(data, a, b, cmp)`. -/
def breakPatternsCmpFunc (data : List α) (a b : Nat) : List α :=
  let length := b - a
  if length ≥ 8 then
    breakLoop a length (2 ^ bitsLen 64 length) (a + (length / 4) * 2 - 1) 3 length data
  else data

/-- Go `order2CmpFunc`: the two indices in order, and the swap counter. -/
def order2CmpFunc (cmp : α → α → Int) (data : List α) (a b swaps : Nat) : Nat × Nat × Nat :=
  if lessAt cmp data b a then (b, a, swaps + 1) else (a, b, swaps)

/-- Go `medianCmpFunc`: the index of the median of three, and the swap counter. -/
def medianCmpFunc (cmp : α → α → Int) (data : List α) (a b c swaps : Nat) : Nat × Nat :=
  let r1 := order2CmpFunc cmp data a b swaps
  let r2 := order2CmpFunc cmp data r1.2.1 c r1.2.2
  let r3 := order2CmpFunc cmp data r1.1 r2.1 r2.2.2
  (r3.2.1, r3.2.2)

/-- Go `medianAdjacentCmpFunc`. -/
def medianAdjacentCmpFunc (cmp : α → α → Int) (data : List α) (a swaps : Nat) : Nat × Nat :=
  medianCmpFunc cmp data (a - 1) a (a + 1) swaps

/-- The hint of `choosePivotCmpFunc`: `type sortedHint int`. -/
inductive sortedHint where
  | unknownHint
  | increasingHint
  | decreasingHint
  deriving DecidableEq, Repr

/-- Go `choosePivotCmpFunc(data, a, b, cmp)`: the pivot index and the hint. -/
def choosePivotCmpFunc (cmp : α → α → Int) (data : List α) (a b : Nat) : Nat × sortedHint :=
  let l := b - a
  let i := a + l / 4 * 1
  let j := a + l / 4 * 2
  let k := a + l / 4 * 3
  let r : Nat × Nat :=
    if l ≥ 8 then
      if l ≥ 50 then
        let ri := medianAdjacentCmpFunc cmp data i 0
        let rj := medianAdjacentCmpFunc cmp data j ri.2
        let rk := medianAdjacentCmpFunc cmp data k rj.2
        medianCmpFunc cmp data ri.1 rj.1 rk.1 rk.2
      else medianCmpFunc cmp data i j k 0
    else (j, 0)
  if r.2 = 0 then (r.1, sortedHint.increasingHint)
  else if r.2 = 4 * 3 then (r.1, sortedHint.decreasingHint)
  else (r.1, sortedHint.unknownHint)

/-- The loop of `reverseRangeCmpFunc`: `for i < j`. -/
def reverseLoop : Nat → Nat → Nat → List α → List α
  | 0, _, _, data => data
  | todo + 1, i, j, data =>
    if i < j then reverseLoop todo (i + 1) (j - 1) (swapAt data i j) else data

/-- Go `reverseRangeCmpFunc(data, a, b, cmp)`. -/
def reverseRangeCmpFunc (data : List α) (a b : Nat) : List α :=
  reverseLoop (b - a) a (b - 1) data

/-- The scan `for i < b && !(cmp(data[i], data[i-1]) < 0) { i++ }`. -/
def scanOrdered (cmp : α → α → Int) (data : List α) (b : Nat) : Nat → Nat → Nat
  | 0, i => i
  | todo + 1, i =>
    if i < b ∧ lessAt cmp data i (i - 1) = false then scanOrdered cmp data b todo (i + 1) else i

/-- The loop `for j := i - 1; j >= 1; j--` of `partialInsertionSortCmpFunc`. -/
def shiftSmaller (cmp : α → α → Int) : Nat → List α → List α
  | 0, data => data
  | j + 1, data =>
    if !(lessAt cmp data (j + 1) j) then data
    else shiftSmaller cmp j (swapAt data (j + 1) j)

/-- The loop `for j := i + 1; j < b; j++` of `partialInsertionSortCmpFunc`. -/
def shiftGreater (cmp : α → α → Int) (b : Nat) : Nat → Nat → List α → List α
  | 0, _, data => data
  | todo + 1, j, data =>
    if j < b then
      if !(lessAt cmp data j (j - 1)) then data
      else shiftGreater cmp b todo (j + 1) (swapAt data j (j - 1))
    else data

/-- The loop `for j := 0; j < maxSteps; j++` of `partialInsertionSortCmpFunc`,
with `steps = maxSteps - j`: the slice and whether it is sorted. -/
def partialInsertionLoop (cmp : α → α → Int) (a b : Nat) : Nat → Nat → List α → List α × Bool
  | 0, _, data => (data, false)
  | steps + 1, i, data =>
    let i' := scanOrdered cmp data b (b - i) i
    if i' = b then (data, true)
    else if b - a < 50 then (data, false)
    else
      let d1 := swapAt data i' (i' - 1)
      let d2 := if i' - a ≥ 2 then shiftSmaller cmp (i' - 1) d1 else d1
      let d3 := if b - i' ≥ 2 then shiftGreater cmp b (b - i') (i' + 1) d2 else d2
      partialInsertionLoop cmp a b steps i' d3

/-- Go `partialInsertionSortCmpFunc(data, a, b, cmp)`. -/
def partialInsertionSortCmpFunc (cmp : α → α → Int) (data : List α) (a b : Nat) :
    List α × Bool :=
  partialInsertionLoop cmp a b 5 (a + 1) data

/-- The scan `for i <= j && cmp(data[i], data[a]) < 0 { i++ }`. -/
def scanLess (cmp : α → α → Int) (data : List α) (a j : Nat) : Nat → Nat → Nat
  | 0, i => i
  | todo + 1, i =>
    if i ≤ j ∧ lessAt cmp data i a = true then scanLess cmp data a j todo (i + 1) else i

/-- The scan `for i <= j && !(cmp(data[j], data[a]) < 0) { j-- }`; the result
is `j + 1`, so that 0 stands for `j = -1`. -/
def scanNotLess (cmp : α → α → Int) (data : List α) (a i : Nat) : Nat → Nat
  | 0 => 0
  | j + 1 =>
    if i ≤ j ∧ lessAt cmp data j a = false then scanNotLess cmp data a i j else j + 1

/-- The `for` loop of `partitionCmpFunc`; `jn` is `j + 1`.  The result is the
slice and the final `j + 1`. -/
def partitionLoop (cmp : α → α → Int) (a : Nat) : Nat → Nat → Nat → List α → List α × Nat
  | 0, _, jn, data => (data, jn)
  | todo + 1, i, jn, data =>
    let i' := scanLess cmp data a (jn - 1) (jn - i) i
    let jn' := if i' < jn then scanNotLess cmp data a i' jn else jn
    if i' ≥ jn' then (data, jn')
    else partitionLoop cmp a todo (i' + 1) (jn' - 1) (swapAt data i' (jn' - 1))

/-- Go `partitionCmpFunc(data, a, b, pivot, cmp)`: the slice, the new pivot
index and whether the slice was already partitioned. -/
def partitionCmpFunc (cmp : α → α → Int) (data : List α) (a b pivot : Nat) :
    List α × Nat × Bool :=
  let d0 := swapAt data a pivot
  let i := scanLess cmp d0 a (b - 1) (b - a) (a + 1)
  let jn := if i < b then scanNotLess cmp d0 a i b else b
  if i ≥ jn then (swapAt d0 (jn - 1) a, jn - 1, true)
  else
    let d1 := swapAt d0 i (jn - 1)
    let r := partitionLoop cmp a (b - a) (i + 1) (jn - 1) d1
    (swapAt r.1 (r.2 - 1) a, r.2 - 1, false)

/-- The scan `for i <= j && !(cmp(data[a], data[i]) < 0) { i++ }`. -/
def scanNotGreater (cmp : α → α → Int) (data : List α) (a j : Nat) : Nat → Nat → Nat
  | 0, i => i
  | todo + 1, i =>
    if i ≤ j ∧ lessAt cmp data a i = false then scanNotGreater cmp data a j todo (i + 1) else i

/-- The scan `for i <= j && cmp(data[a], data[j]) < 0 { j-- }`; the result is
`j + 1`. -/
def scanGreater (cmp : α → α → Int) (data : List α) (a i : Nat) : Nat → Nat
  | 0 => 0
  | j + 1 =>
    if i ≤ j ∧ lessAt cmp data a j = true then scanGreater cmp data a i j else j + 1

/-- The `for` loop of `partitionEqualCmpFunc`; `jn` is `j + 1`.  The result is
the slice and the final `i`. -/
def partitionEqualLoop (cmp : α → α → Int) (a : Nat) :
    Nat → Nat → Nat → List α → List α × Nat
  | 0, i, _, data => (data, i)
  | todo + 1, i, jn, data =>
    let i' := scanNotGreater cmp data a (jn - 1) (jn - i) i
    let jn' := if i' < jn then scanGreater cmp data a i' jn else jn
    if i' ≥ jn' then (data, i')
    else partitionEqualLoop cmp a todo (i' + 1) (jn' - 1) (swapAt data i' (jn' - 1))

/-- Go `partitionEqualCmpFunc(data, a, b, pivot, cmp)`: the slice and the new
start. -/
def partitionEqualCmpFunc (cmp : α → α → Int) (data : List α) (a b pivot : Nat) :
    List α × Nat :=
  partitionEqualLoop cmp a (b - a + 1) (a + 1) b (swapAt data a pivot)

/-- Go `pdqsortCmpFunc(data, a, b, limit, cmp)`.  One step of `todo` is one
round of the `for` loop or one recursive call; `wasBalanced` and
`wasPartitioned` are the two local flags. -/
def pdqsortCmpFunc (cmp : α → α → Int) :
    Nat → List α → Nat → Nat → Nat → Bool → Bool → List α
  | 0, data, _, _, _, _, _ => data
  | todo + 1, data, a, b, limit, wasBalanced, wasPartitioned =>
    let length := b - a
    if length ≤ 12 then insertionSortCmpFunc cmp data a b
    else if limit = 0 then heapSortCmpFunc cmp data a b
    else
      let d1 := if !wasBalanced then breakPatternsCmpFunc data a b else data
      let limit1 := if !wasBalanced then limit - 1 else limit
      let ph := choosePivotCmpFunc cmp d1 a b
      let d2 := if ph.2 = sortedHint.decreasingHint then reverseRangeCmpFunc d1 a b else d1
      let pivot := if ph.2 = sortedHint.decreasingHint then (b - 1) - (ph.1 - a) else ph.1
      let hint :=
        if ph.2 = sortedHint.decreasingHint then sortedHint.increasingHint else ph.2
      let tryPartial := wasBalanced && wasPartitioned && decide (hint = sortedHint.increasingHint)
      let pr := if tryPartial then partialInsertionSortCmpFunc cmp d2 a b else (d2, false)
      if pr.2 then pr.1
      else
        let d3 := pr.1
        if 0 < a ∧ lessAt cmp d3 (a - 1) pivot = false then
          let pe := partitionEqualCmpFunc cmp d3 a b pivot
          pdqsortCmpFunc cmp todo pe.1 pe.2 b limit1 wasBalanced wasPartitioned
        else
          let pt := partitionCmpFunc cmp d3 a b pivot
          let mid := pt.2.1
          let leftLen := mid - a
          let rightLen := b - mid
          let balanceThreshold := length / 8
          if leftLen < rightLen then
            pdqsortCmpFunc cmp todo (pdqsortCmpFunc cmp todo pt.1 a mid limit1 true true)
              (mid + 1) b limit1 (decide (leftLen ≥ balanceThreshold)) pt.2.2
          else
            pdqsortCmpFunc cmp todo (pdqsortCmpFunc cmp todo pt.1 (mid + 1) b limit1 true true)
              a mid limit1 (decide (rightLen ≥ balanceThreshold)) pt.2.2

/-- Go `slices.SortFunc(x, cmp)`:
`pdqsortCmpFunc(x, 0, len(x), bits.Len(uint(len(x))), cmp)`. -/
def SortFunc (x : List α) (cmp : α → α → Int) : List α :=
  pdqsortCmpFunc cmp (x.length + 1) x 0 x.length (bitsLen 64 x.length) true true

end Sorting

/-! ## Playback (`midi.go`, `LightPlayer.Play`) -/

/-- An event of the timeline: `smf.TrackEvent`. -/
structure TrackEvent where
  Event : Event
  TrackNo : Nat
  AbsTicks : Int
  AbsMicroSeconds : Int
  deriving DecidableEq, Repr

/-- The test `event.Message.Type().Is(midi.NoteOnMsg) ||
event.Message.Type().Is(midi.NoteOffMsg)`. -/
def isNoteMessage (m : Message) : Bool :=
  match m with
  | Message.noteOn _ _ _ => true
  | Message.noteOff _ _ _ => true
  | Message.other => false

/-- The loop `for _, event := range track` of `Play`, entered with the running
`absTicks`: the events appended to `noteEvents`.  The addition is an `int64`
addition. -/
def flattenTrack (timeAt : Int → Int) (trackNum : Nat) : Int → List Event → List TrackEvent
  | _, [] => []
  | absTicks, event :: rest =>
    let absTicks' := wrapInt64 (absTicks + (event.Delta : Int))
    if !(isNoteMessage event.Message) then flattenTrack timeAt trackNum absTicks' rest
    else
      { Event := event, TrackNo := trackNum, AbsTicks := absTicks',
        AbsMicroSeconds := timeAt absTicks' } :: flattenTrack timeAt trackNum absTicks' rest

/-- The loop `for trackNum, track := range l.midiFile.Tracks` of `Play`, from
index `trackNum` on. -/
def flattenTracks (timeAt : Int → Int) : Nat → List (List Event) → List TrackEvent
  | _, [] => []
  | trackNum, track :: rest =>
    flattenTrack timeAt trackNum 0 track ++ flattenTracks timeAt (trackNum + 1) rest

/-- The comparison function handed to `slices.SortFunc` in `Play`. -/
def compareTicks (a b : TrackEvent) : Int :=
  if a.AbsTicks > b.AbsTicks then 1
  else if a.AbsTicks < b.AbsTicks then -1
  else 0

/-- The slice `noteEvents` of `Play` before it is sorted. -/
def LightPlayer.noteEvents (l : LightPlayer) : List TrackEvent :=
  flattenTracks l.midiFile.TimeAt 0 l.midiFile.Tracks

/-- The slice `noteEvents` of `Play` after `slices.SortFunc`: the timeline. -/
def LightPlayer.timeline (l : LightPlayer) : List TrackEvent :=
  SortFunc l.noteEvents compareTicks

/-- The loop `for _, noteEvent := range noteEvents` of `Play`.  The sleep in
front of every `send` is left out; the result of `send` is dropped, as in the
source. -/
def LightPlayer.dispatch : List TrackEvent → LightPlayer → Option LightPlayer
  | [], l => some l
  | noteEvent :: rest, l =>
    match l.send noteEvent.Event.Message with
    | none => none
    | some r => LightPlayer.dispatch rest r.1

/-- The method `func (l *LightPlayer) Play()`; `none` is a run-time panic. -/
def LightPlayer.Play (l : LightPlayer) : Option LightPlayer :=
  LightPlayer.dispatch l.timeline l

/-- The player on a port that answers its writes by `fails` instead. -/
def LightPlayer.onPort (l : LightPlayer) (fails : Nat → Bool) : LightPlayer :=
  { l with
    controller :=
      l.controller.map (fun c => { c with port := { c.port with fails := fails } }) }

/-- The frames handed to the port so far. -/
def LightPlayer.frames (l : LightPlayer) : List (List Nat) :=
  match l.controller with
  | some c => c.port.calls
  | none => []

/-! ### The timeline as the specification reads it -/

/-- The sum of the delta times of a list of events. -/
def sumDeltas (events : List Event) : Nat := (events.map Event.Delta).sum

/-- The timeline event of the message at position `p` of a track, if that
message is a note-on or a note-off: its tick is the sum of the deltas of the
messages of the track up to and including itself. -/
def specEventAt (timeAt : Int → Int) (trackNo : Nat) (track : List Event) (p : Nat) :
    Option TrackEvent :=
  match track[p]? with
  | none => none
  | some event =>
    if isNoteMessage event.Message then
      some { Event := event, TrackNo := trackNo,
             AbsTicks := (sumDeltas (track.take (p + 1)) : Int),
             AbsMicroSeconds := timeAt (sumDeltas (track.take (p + 1)) : Int) }
    else none

/-- The note events of one track, in the order of the track. -/
def specTrackEvents (timeAt : Int → Int) (trackNo : Nat) (track : List Event) :
    List TrackEvent :=
  (List.range track.length).filterMap (specEventAt timeAt trackNo track)

/-- The note events of a file: track after track. -/
def specNoteEvents (file : SMF) : List TrackEvent :=
  file.Tracks.enum.flatMap (fun p => specTrackEvents file.TimeAt p.1 p.2)

/-- A file with two notes on channel 0, ten ticks apart, played by
`chordPlayer` on a port that accepted the two writes of its configuration and
refuses every write after them. -/
def refusedPlayer : LightPlayer :=
  { (chordPlayer.onPort (fun k => decide (2 ≤ k))) with
    midiFile := { Tracks := [[{ Delta := 0, Message := Message.noteOn 0 60 64 },
                              { Delta := 10, Message := Message.noteOff 0 60 0 }]],
                  TimeAt := fun t => 1000 * t } }

/-- A file with thirteen note events: the twelve of track 0 all fall on tick
1, in the order of the keys 60 to 71, and the one of track 1 falls on tick 0. -/
def tiePlayer : LightPlayer :=
  { chordPlayer with
    midiFile :=
      { Tracks := [[{ Delta := 1, Message := Message.noteOn 0 60 100 },
                    { Delta := 0, Message := Message.noteOn 0 61 100 },
                    { Delta := 0, Message := Message.noteOn 0 62 100 },
                    { Delta := 0, Message := Message.noteOn 0 63 100 },
                    { Delta := 0, Message := Message.noteOn 0 64 100 },
                    { Delta := 0, Message := Message.noteOn 0 65 100 },
                    { Delta := 0, Message := Message.noteOn 0 66 100 },
                    { Delta := 0, Message := Message.noteOn 0 67 100 },
                    { Delta := 0, Message := Message.noteOn 0 68 100 },
                    { Delta := 0, Message := Message.noteOn 0 69 100 },
                    { Delta := 0, Message := Message.noteOn 0 70 100 },
                    { Delta := 0, Message := Message.noteOn 0 71 100 }],
                   [{ Delta := 0, Message := Message.noteOn 0 72 100 }]],
        TimeAt := fun t => 1000 * t } }

/-- A file with two tracks whose events interleave in time; track 0 holds a
message that is no note. -/
def duetPlayer : LightPlayer :=
  { chordPlayer with
    midiFile :=
      { Tracks := [[{ Delta := 5, Message := Message.noteOn 0 60 64 },
                    { Delta := 3, Message := Message.other },
                    { Delta := 4, Message := Message.noteOff 0 60 0 }],
                   [{ Delta := 7, Message := Message.noteOn 1 60 127 },
                    { Delta := 9, Message := Message.noteOff 1 60 0 }]],
        TimeAt := fun t => 1000 * t } }

/-! ### What it means for a part of a slice to be sorted -/

/-- The sort key of `data[i]`, and 0 outside the slice. -/
def keyAt {α : Type} (key : α → Int) (data : List α) (i : Nat) : Int :=
  match data[i]? with
  | some x => key x
  | none => 0

/-- The slice `d'` has the length of `d`, carries the same keys outside
`[a, b)`, and every key it carries inside `[a, b)` is a key that `d` carries
inside `[a, b)`. -/
def Within {α : Type} (key : α → Int) (a b : Nat) (d d' : List α) : Prop :=
  d'.length = d.length ∧
  (∀ i, i < a ∨ b ≤ i → keyAt key d' i = keyAt key d i) ∧
  (∀ i, a ≤ i → i < b → ∃ j, a ≤ j ∧ j < b ∧ keyAt key d' i = keyAt key d j)

/-- The keys of `data[a:b]` are in non-decreasing order. -/
def SortedOn {α : Type} (key : α → Int) (a b : Nat) (data : List α) : Prop :=
  ∀ i j, a ≤ i → i ≤ j → j < b → keyAt key data i ≤ keyAt key data j

/-- The element in front of `data[a:b]`, if there is one, is not greater than any
element of `data[a:b]`. -/
def LowerBound {α : Type} (key : α → Int) (a b : Nat) (data : List α) : Prop :=
  0 < a → ∀ x, a ≤ x → x < b → keyAt key data (a - 1) ≤ keyAt key data x

/-- The state of the inner loop of the insertion sort, the moving element
being at `j`: without it `data[a:i+1]` is sorted, and it is not greater than
what stands behind it. -/
def InsertInv {α : Type} (key : α → Int) (a i j : Nat) (d : List α) : Prop :=
  (∀ p q, a ≤ p → p < q → q ≤ i → p ≠ j → q ≠ j → keyAt key d p ≤ keyAt key d q) ∧
  (∀ q, j < q → q ≤ i → keyAt key d j ≤ keyAt key d q)

/-- Heap order in `data[first : first + hi]` from node `r0` on: no child of a
node `p ≥ r0` carries a greater key than `p`. -/
def HeapFrom {α : Type} (key : α → Int) (first hi r0 : Nat) (d : List α) : Prop :=
  ∀ p c, r0 ≤ p → (c = 2 * p + 1 ∨ c = 2 * p + 2) → c < hi →
    keyAt key d (first + c) ≤ keyAt key d (first + p)

/-- The state of `siftDownCmpFunc`, the sinking element being at node `r`: heap
order from `r0` on at every node but `r`, and the children of `r` are not
greater than the parent of `r`. -/
def HeapExcept {α : Type} (key : α → Int) (first hi r0 r : Nat) (d : List α) : Prop :=
  (∀ p c, r0 ≤ p → p ≠ r → (c = 2 * p + 1 ∨ c = 2 * p + 2) → c < hi →
    keyAt key d (first + c) ≤ keyAt key d (first + p)) ∧
  (∀ p c, r0 ≤ p → (r = 2 * p + 1 ∨ r = 2 * p + 2) → (c = 2 * r + 1 ∨ c = 2 * r + 2) → c < hi →
    keyAt key d (first + c) ≤ keyAt key d (first + p))

/-- The state of the loops of `partitionCmpFunc` and `partitionEqualCmpFunc`:
the keys of `data[a+1 : i]` are on the side `L` of the pivot, the keys of
`data[jn : b]` are not. -/
def Parted {α : Type} (key : α → Int) (L : Int → Prop) (a b i jn : Nat) (d : List α) : Prop :=
  (∀ x, a + 1 ≤ x → x < i → L (keyAt key d x)) ∧ (∀ x, jn ≤ x → x < b → ¬ L (keyAt key d x))

/-! ## The shifting loop -/

theorem getElem?_at_split (pre rest : List noteStatus) :
    (pre ++ rest)[pre.length]? = rest[0]? := by
  simp [List.getElem?_append_right]

theorem getElem?_after_split (pre rest : List noteStatus) :
    (pre ++ rest)[pre.length + 1]? = rest[1]? := by
  rw [List.getElem?_append_right (by omega)]
  congr 1
  omega

theorem set_at_split (pre rest : List noteStatus) (x y : noteStatus) :
    (pre ++ x :: rest).set pre.length y = pre ++ y :: rest := by
  induction pre with
  | nil => rfl
  | cons p pre ih => simp [ih]

/-- Once the channel has been found, the loop moves every later entry one place
down and leaves the last entry in place. -/
theorem shiftLoop_found (channel : Nat) (rest pre : List noteStatus) :
    shiftLoop channel rest.length pre.length true (pre ++ rest) =
      some (true, pre ++ rest.drop 1 ++ rest.getLast?.toList) := by
  induction rest generalizing pre with
  | nil => simp [shiftLoop]
  | cons x r ih =>
    cases r with
    | nil =>
      simp [shiftLoop, getElem?_at_split]
    | cons y r =>
      have hlt : ((pre.length : Int) < ((pre ++ x :: y :: r).length : Int) - 1) := by
        simp only [List.length_append, List.length_cons]
        push_cast
        omega
      have hstep := ih (pre ++ [y])
      simp only [List.length_append, List.length_cons, List.length_nil, List.append_assoc,
        List.singleton_append, zero_add] at hstep
      show shiftLoop channel ((y :: r).length + 1) pre.length true (pre ++ x :: y :: r) = _
      rw [shiftLoop]
      simp only [getElem?_at_split, getElem?_after_split,
        List.getElem?_cons_zero, List.getElem?_cons_succ, Bool.true_or, hlt, decide_True,
        Bool.and_self, if_true, set_at_split, List.length_cons, hstep]
      simp [List.getLast?_cons_cons]

/-- Entering an iteration whose entry carries the channel is the same as
entering it with `found` already set. -/
theorem shiftLoop_hit (channel todo i : Nat) (s : List noteStatus) (x : noteStatus)
    (hx : s[i]? = some x) (hc : x.channel = channel) :
    shiftLoop channel (todo + 1) i false s = shiftLoop channel (todo + 1) i true s := by
  rw [shiftLoop, shiftLoop]
  simp [hx, hc]

theorem dropFirst_of_not_mem (channel : Nat) (s : List noteStatus)
    (h : channel ∉ channels s) : dropFirst channel s = s := by
  induction s with
  | nil => rfl
  | cons x r ih =>
    simp only [channels, List.map_cons, List.mem_cons, not_or] at h
    have hx : ¬ x.channel = channel := fun e => h.1 e.symm
    simp only [dropFirst, hx, if_false]
    rw [ih h.2]

/-- The whole loop from any point on, before the channel has been met. -/
theorem shiftLoop_search (channel : Nat) (rest pre : List noteStatus) :
    shiftLoop channel rest.length pre.length false (pre ++ rest) =
      some (if channel ∈ channels rest
        then (true, pre ++ dropFirst channel rest ++ rest.getLast?.toList)
        else (false, pre ++ rest)) := by
  induction rest generalizing pre with
  | nil => simp [shiftLoop, channels]
  | cons x r ih =>
    by_cases hc : x.channel = channel
    · have hmem : channel ∈ channels (x :: r) := by simp [channels, hc]
      show shiftLoop channel (r.length + 1) pre.length false (pre ++ x :: r) = _
      rw [shiftLoop_hit channel r.length pre.length (pre ++ x :: r) x
        (by rw [getElem?_at_split, List.getElem?_cons_zero]) hc]
      have h := shiftLoop_found channel (x :: r) pre
      simp only [List.length_cons] at h
      rw [h, if_pos hmem]
      simp [dropFirst, hc]
    · have hstep := ih (pre ++ [x])
      simp only [List.length_append, List.length_cons, List.length_nil, List.append_assoc,
        List.singleton_append, zero_add] at hstep
      have hne : ¬ channel = x.channel := fun e => hc e.symm
      have hb : (x.channel == channel) = false := by simpa using hc
      show shiftLoop channel (r.length + 1) pre.length false (pre ++ x :: r) = _
      rw [shiftLoop]
      simp only [getElem?_at_split, List.getElem?_cons_zero, Bool.false_or, hb, hc,
        Bool.false_and, hstep, channels, List.map_cons, List.mem_cons, hne, false_or,
        dropFirst, if_false]
      by_cases hm : channel ∈ List.map noteStatus.channel r
      · have hr : r ≠ [] := by
          intro e
          simp [e] at hm
        obtain ⟨y, r', rfl⟩ := List.exists_cons_of_ne_nil hr
        simp [List.getLast?_cons_cons, channels]
      · simp [hm, channels]

/-- The loop as `Play` and `Release` run it on a key's list. -/
theorem shiftLoop_run (channel : Nat) (s : List noteStatus) :
    shiftLoop channel s.length 0 false s =
      some (if channel ∈ channels s
        then (true, dropFirst channel s ++ s.getLast?.toList)
        else (false, s)) := by
  have h := shiftLoop_search channel s []
  simpa using h

/-! ## `Play` and `Release` in closed form -/

theorem getLast?_toList_of_mem (channel : Nat) (s : List noteStatus)
    (h : channel ∈ channels s) : ∃ z, s.getLast?.toList = [z] := by
  cases s with
  | nil => simp [channels] at h
  | cons x r =>
    refine ⟨(x :: r).getLast (by simp), ?_⟩
    rw [List.getLast?_eq_getLast (x :: r) (by simp)]
    rfl

theorem set_last (pre : List noteStatus) (z y : noteStatus) :
    (pre ++ [z]).set ((pre ++ [z]).length - 1) y = pre ++ [y] := by
  have h : (pre ++ [z]).length - 1 = pre.length := by simp
  rw [h, set_at_split]

theorem take_last (pre : List noteStatus) (z : noteStatus) :
    (pre ++ [z]).take ((pre ++ [z]).length - 1) = pre := by
  have h : (pre ++ [z]).length - 1 = pre.length := by simp
  rw [h]
  simp

theorem lastEffect_eq (s : List noteStatus) :
    lastEffect s = some ((s.getLast?.map noteStatus.effect).getD 0) := by
  unfold lastEffect
  rcases List.eq_nil_or_concat s with rfl | ⟨pre, z, rfl⟩
  · simp
  · rw [List.concat_eq_append]
    have h : (pre ++ [z]).length - 1 = pre.length := by simp
    have hpos : (pre ++ [z]).length > 0 := by simp
    rw [if_pos hpos, h, getElem?_at_split]
    simp

/-- What `Play` does, without any assumption on the table: the first entry of
the channel is removed and the new entry is appended. -/
theorem Play_closed (n : noteStacker) (key channel effect : Nat) (hk : key < 128) :
    n.Play key channel effect =
      some (effect, Function.update n ⟨key, hk⟩
        (dropFirst channel (n ⟨key, hk⟩) ++ [{ channel := channel, effect := effect }])) := by
  unfold noteStacker.Play
  rw [dif_pos hk, shiftLoop_run]
  by_cases hm : channel ∈ channels (n ⟨key, hk⟩)
  · obtain ⟨z, hz⟩ := getLast?_toList_of_mem channel _ hm
    have hlen : (0 : Int) ≤ ((dropFirst channel (n ⟨key, hk⟩) ++ [z]).length : Int) - 1 := by
      simp only [List.length_append, List.length_cons, List.length_nil]
      push_cast
      omega
    simp only [if_pos hm, hz, if_true, hlen, set_last]
  · simp only [if_neg hm, dropFirst_of_not_mem channel _ hm]
    simp

/-- What `Release` does, without any assumption on the table. -/
theorem Release_closed (n : noteStacker) (key channel : Nat) (hk : key < 128) :
    n.Release key channel =
      some ((((dropFirst channel (n ⟨key, hk⟩)).getLast?.map noteStatus.effect).getD 0),
        Function.update n ⟨key, hk⟩ (dropFirst channel (n ⟨key, hk⟩))) := by
  unfold noteStacker.Release
  rw [dif_pos hk, shiftLoop_run]
  by_cases hm : channel ∈ channels (n ⟨key, hk⟩)
  · obtain ⟨z, hz⟩ := getLast?_toList_of_mem channel _ hm
    have hlen : (0 : Int) ≤ ((dropFirst channel (n ⟨key, hk⟩) ++ [z]).length : Int) - 1 := by
      simp only [List.length_append, List.length_cons, List.length_nil]
      push_cast
      omega
    simp only [if_pos hm, hz, if_true, hlen, take_last, lastEffect_eq]
  · simp only [if_neg hm, dropFirst_of_not_mem channel _ hm, lastEffect_eq]
    simp

/-! ## Distinct channels -/

theorem without_of_not_mem (channel : Nat) (s : List noteStatus)
    (h : channel ∉ channels s) : without channel s = s := by
  unfold without
  rw [List.filter_eq_self]
  intro a ha
  have : a.channel ≠ channel := by
    intro e
    exact h (e ▸ List.mem_map_of_mem noteStatus.channel ha)
  simpa using this

theorem dropFirst_eq_without (channel : Nat) (s : List noteStatus)
    (h : (channels s).Nodup) : dropFirst channel s = without channel s := by
  induction s with
  | nil => rfl
  | cons x r ih =>
    simp only [channels, List.map_cons, List.nodup_cons] at h
    by_cases hc : x.channel = channel
    · have hnot : channel ∉ channels r := by
        rw [← hc]
        exact h.1
      have hr := without_of_not_mem channel r hnot
      have h1 : dropFirst channel (x :: r) = r := by simp [dropFirst, hc]
      have h2 : without channel (x :: r) = without channel r := by simp [without, hc]
      rw [h1, h2, hr]
    · have h1 : dropFirst channel (x :: r) = x :: dropFirst channel r := by
        simp [dropFirst, hc]
      have h2 : without channel (x :: r) = x :: without channel r := by simp [without, hc]
      rw [h1, h2, ih h.2]

theorem channels_without_sublist (channel : Nat) (s : List noteStatus) :
    (channels (without channel s)).Sublist (channels s) :=
  List.Sublist.map _ (List.filter_sublist s)

theorem not_mem_channels_without (channel : Nat) (s : List noteStatus) :
    channel ∉ channels (without channel s) := by
  simp [channels, without]

theorem nodup_without (channel : Nat) (s : List noteStatus) (h : (channels s).Nodup) :
    (channels (without channel s)).Nodup :=
  h.sublist (channels_without_sublist channel s)

theorem nodup_without_append (channel effect : Nat) (s : List noteStatus)
    (h : (channels s).Nodup) :
    (channels (without channel s ++ [{ channel := channel, effect := effect }])).Nodup := by
  have h1 := nodup_without channel s h
  have h2 := not_mem_channels_without channel s
  unfold channels at *
  rw [List.map_append, List.nodup_append]
  refine ⟨h1, by simp, ?_⟩
  intro a ha hb
  simp only [List.map_cons, List.map_nil, List.mem_singleton] at hb
  exact h2 (hb ▸ ha)

/-- Every key of a reachable table holds pairwise distinct channels. -/
theorem reachable_nodup {n : noteStacker} (h : Reachable n) (k : Fin 128) :
    (channels (n k)).Nodup := by
  induction h generalizing k with
  | empty => simp [noteStacker.empty, channels]
  | @play n n' key channel effect r _ hp ih =>
    by_cases hk : key < 128
    · rw [Play_closed n key channel effect hk] at hp
      simp only [Option.some.injEq, Prod.mk.injEq] at hp
      rw [← hp.2]
      by_cases hkk : k = ⟨key, hk⟩
      · subst hkk
        rw [Function.update_same, dropFirst_eq_without _ _ (ih _)]
        exact nodup_without_append channel effect _ (ih _)
      · rw [Function.update_noteq hkk]
        exact ih k
    · simp [noteStacker.Play, hk] at hp
  | @release n n' key channel r _ hp ih =>
    by_cases hk : key < 128
    · rw [Release_closed n key channel hk] at hp
      simp only [Option.some.injEq, Prod.mk.injEq] at hp
      rw [← hp.2]
      by_cases hkk : k = ⟨key, hk⟩
      · subst hkk
        rw [Function.update_same, dropFirst_eq_without _ _ (ih _)]
        exact nodup_without channel _ (ih _)
      · rw [Function.update_noteq hkk]
        exact ih k
    · simp [noteStacker.Release, hk] at hp

theorem length_dropFirst_of_mem (channel : Nat) (s : List noteStatus)
    (h : channel ∈ channels s) : (dropFirst channel s).length + 1 = s.length := by
  induction s with
  | nil => simp [channels] at h
  | cons x r ih =>
    by_cases hc : x.channel = channel
    · simp [dropFirst, hc]
    · have hr : channel ∈ channels r := by
        simp only [channels, List.map_cons, List.mem_cons] at h
        rcases h with h | h
        · exact absurd h.symm hc
        · exact h
      simp [dropFirst, hc, ih hr]

/-- `Play` on a key with pairwise distinct channels. -/
theorem Play_of_nodup (n : noteStacker) (key channel effect : Nat) (hk : key < 128)
    (hd : (channels (n ⟨key, hk⟩)).Nodup) :
    ∃ n' : noteStacker, n.Play key channel effect = some (effect, n') ∧
      n' ⟨key, hk⟩ =
        without channel (n ⟨key, hk⟩) ++ [{ channel := channel, effect := effect }] := by
  refine ⟨_, Play_closed n key channel effect hk, ?_⟩
  rw [Function.update_same, dropFirst_eq_without channel _ hd]

/-- `Release` on a key with pairwise distinct channels. -/
theorem Release_of_nodup (n : noteStacker) (key channel : Nat) (hk : key < 128)
    (hd : (channels (n ⟨key, hk⟩)).Nodup) :
    ∃ n' : noteStacker,
      n.Release key channel =
        some ((((without channel (n ⟨key, hk⟩)).getLast?.map noteStatus.effect).getD 0), n') ∧
      n' ⟨key, hk⟩ = without channel (n ⟨key, hk⟩) := by
  have h := Release_closed n key channel hk
  rw [dropFirst_eq_without channel _ hd] at h
  exact ⟨_, h, Function.update_same _ _ _⟩

/-! ## The note stack contract -/

/-- C1: for a key below 128 whose list holds pairwise distinct channels, `Play`
returns `effect`, and the key's new list is the old list without the entry of
`channel` (the others in their old order) followed by the entry
`{channel, effect}`.  The length is unchanged when the channel was present and
grows by one when it was absent; replaying the same channel on a key that was
empty leaves a list of length one whose last effect is the second effect. -/
theorem Play_promotes_channel (n : noteStacker) (key channel effect : Nat) (hk : key < 128)
    (hd : (channels (n ⟨key, hk⟩)).Nodup) :
    ∃ n' : noteStacker, n.Play key channel effect = some (effect, n') ∧
      n' ⟨key, hk⟩ =
        without channel (n ⟨key, hk⟩) ++ [{ channel := channel, effect := effect }] ∧
      (channel ∈ channels (n ⟨key, hk⟩) →
        (n' ⟨key, hk⟩).length = (n ⟨key, hk⟩).length) ∧
      (channel ∉ channels (n ⟨key, hk⟩) →
        (n' ⟨key, hk⟩).length = (n ⟨key, hk⟩).length + 1) ∧
      (n ⟨key, hk⟩ = [] → ∀ e2 : Nat, ∃ n'' : noteStacker,
        n'.Play key channel e2 = some (e2, n'') ∧ (n'' ⟨key, hk⟩).length = 1 ∧
        (n'' ⟨key, hk⟩).getLast?.map noteStatus.effect = some e2) := by
  have hw := dropFirst_eq_without channel _ hd
  refine ⟨_, Play_closed n key channel effect hk, ?_, ?_, ?_, ?_⟩
  · rw [Function.update_same, hw]
  · intro hm
    rw [Function.update_same, List.length_append]
    exact length_dropFirst_of_mem channel _ hm
  · intro hm
    rw [Function.update_same, dropFirst_of_not_mem channel _ hm]
    simp
  · intro hnil e2
    refine ⟨_, Play_closed _ key channel e2 hk, ?_, ?_⟩
    · simp [Function.update_same, hnil, dropFirst]
    · simp [Function.update_same, hnil, dropFirst]

/-- C1 at the table `heldChord`: replaying channel 2 on key 60 with effect 9
moves it behind channel 1 and keeps the length. -/
theorem Play_promotes_channel_witness :
    (channels (heldChord ⟨60, by decide⟩)).Nodup ∧
    ∃ n' : noteStacker, heldChord.Play 60 2 9 = some (9, n') ∧
      n' ⟨60, by decide⟩ = [{ channel := 1, effect := 5 }, { channel := 2, effect := 9 }] := by
  have hd : (channels (heldChord ⟨60, by decide⟩)).Nodup := by decide
  obtain ⟨n', h1, h2, _⟩ := Play_promotes_channel heldChord 60 2 9 (by decide) hd
  exact ⟨hd, n', h1, by rw [h2]; decide⟩

/-- C2: for a key below 128 whose list holds pairwise distinct channels,
`Release` leaves the key's list equal to the old list without the entry of
`channel` (the others in their old order) and returns the effect of the last
entry of that new list, or 0 when it is empty.  When the channel has no entry
the list, and with it the whole table, is unchanged. -/
theorem Release_removes_channel (n : noteStacker) (key channel : Nat) (hk : key < 128)
    (hd : (channels (n ⟨key, hk⟩)).Nodup) :
    ∃ (r : Nat) (n' : noteStacker), n.Release key channel = some (r, n') ∧
      n' ⟨key, hk⟩ = without channel (n ⟨key, hk⟩) ∧
      r = (match (n' ⟨key, hk⟩).getLast? with
        | some last => last.effect
        | none => 0) ∧
      (channel ∉ channels (n ⟨key, hk⟩) → n' ⟨key, hk⟩ = n ⟨key, hk⟩ ∧ n' = n) := by
  have hw := dropFirst_eq_without channel _ hd
  refine ⟨_, _, Release_closed n key channel hk, ?_, ?_, ?_⟩
  · rw [Function.update_same, hw]
  · rw [Function.update_same]
    cases (dropFirst channel (n ⟨key, hk⟩)).getLast? <;> rfl
  · intro hm
    rw [dropFirst_of_not_mem channel _ hm, Function.update_eq_self]
    exact ⟨rfl, rfl⟩

/-- C2 at the table `heldChord`: releasing channel 1 on key 60 uncovers
channel 2 with its effect 7. -/
theorem Release_removes_channel_witness :
    (channels (heldChord ⟨60, by decide⟩)).Nodup ∧
    ∃ n' : noteStacker, heldChord.Release 60 1 = some (7, n') ∧
      n' ⟨60, by decide⟩ = [{ channel := 2, effect := 7 }] := by
  have hd : (channels (heldChord ⟨60, by decide⟩)).Nodup := by decide
  obtain ⟨r, n', h1, h2, h3, _⟩ := Release_removes_channel heldChord 60 1 (by decide) hd
  have hl : n' ⟨60, by decide⟩ = [{ channel := 2, effect := 7 }] := by rw [h2]; decide
  rw [hl] at h3
  exact ⟨hd, n', by rw [h1, h3]; rfl, hl⟩

/-- C3: from a reachable table, for a key below 128 and two distinct channels,
`Play(k, c1, e1)`, `Play(k, c2, e2)`, `Release(k, c2)` all return, and the
`Release` call returns `e1`. -/
theorem Release_uncovers_survivor (n : noteStacker) (hr : Reachable n)
    (k c1 c2 e1 e2 : Nat) (hk : k < 128) (hc : c1 ≠ c2) :
    ∃ n1 n2 n3 : noteStacker, n.Play k c1 e1 = some (e1, n1) ∧
      n1.Play k c2 e2 = some (e2, n2) ∧ n2.Release k c2 = some (e1, n3) := by
  obtain ⟨n1, h1, l1⟩ := Play_of_nodup n k c1 e1 hk (reachable_nodup hr _)
  have r1 : Reachable n1 := Reachable.play hr h1
  obtain ⟨n2, h2, l2⟩ := Play_of_nodup n1 k c2 e2 hk (reachable_nodup r1 _)
  have r2 : Reachable n2 := Reachable.play r1 h2
  obtain ⟨n3, h3, _⟩ := Release_of_nodup n2 k c2 hk (reachable_nodup r2 _)
  refine ⟨n1, n2, n3, h1, h2, ?_⟩
  rw [h3, l2, l1]
  have hne : ¬ c1 = c2 := hc
  simp [without, List.filter_append, hne]

/-- C3 from the empty table: key 60, channels 1 and 2, effects 5 and 6. -/
theorem Release_uncovers_survivor_witness :
    ∃ n1 n2 n3 : noteStacker, noteStacker.empty.Play 60 1 5 = some (5, n1) ∧
      n1.Play 60 2 6 = some (6, n2) ∧ n2.Release 60 2 = some (5, n3) :=
  Release_uncovers_survivor noteStacker.empty Reachable.empty 60 1 2 5 6 (by decide) (by decide)

/-- C4: in every table reachable from the empty one by `Play` and `Release`
calls that return (their keys are then below 128), no channel appears twice in
the list of any key. -/
theorem reachable_channels_distinct (n : noteStacker) (hr : Reachable n) (k : Fin 128) :
    (channels (n k)).Nodup :=
  reachable_nodup hr k

/-- C4 at the table reached by playing channels 1, 2 and again 1 on key 60. -/
theorem reachable_channels_distinct_witness :
    ∃ n1 n2 n3 : noteStacker, noteStacker.empty.Play 60 1 5 = some (5, n1) ∧
      n1.Play 60 2 6 = some (6, n2) ∧ n2.Play 60 1 7 = some (7, n3) ∧
      (channels (n3 ⟨60, by decide⟩)).Nodup :=
  ⟨_, _, _, Play_closed _ 60 1 5 (by decide), Play_closed _ 60 2 6 (by decide),
    Play_closed _ 60 1 7 (by decide),
    reachable_channels_distinct _
      (Reachable.play (Reachable.play (Reachable.play Reachable.empty
        (Play_closed _ 60 1 5 (by decide))) (Play_closed _ 60 2 6 (by decide)))
        (Play_closed _ 60 1 7 (by decide))) _⟩

/-! ## Hexadecimal digits -/

theorem le_lower (n : Nat) : n ≤ lower n := by
  apply Nat.le_of_testBit
  intro i h
  simp [lower, Nat.testBit_or, h]

theorem digitVal_of_ge (n : Nat) (h : 128 ≤ n) : digitVal n = none := by
  have hl := le_lower n
  unfold digitVal
  have h1 : ¬ ('0'.toNat ≤ n ∧ n ≤ '9'.toNat) := by
    have : '9'.toNat = 57 := by decide
    omega
  have h2 : ¬ ('a'.toNat ≤ lower n ∧ lower n ≤ 'z'.toNat) := by
    have : 'z'.toNat = 122 := by decide
    omega
  rw [if_neg h1, if_neg h2]

theorem specHexValue_ascii : ∀ n, n < 128 →
    specHexValue (Char.ofNat n) = hexOfDigitVal n := by
  decide

theorem specHexValue_table_ascii :
    (∀ x ∈ "0123456789abcdef".data, x.toNat < 128) ∧
    (∀ x ∈ "0123456789ABCDEF".data, x.toNat < 128) := by
  decide

/-- The digit switch of the parser, cut at base 16, reads the digit tables. -/
theorem specHexValue_eq (c : Char) : specHexValue c = hexOfDigitVal c.toNat := by
  by_cases h : c.toNat < 128
  · have := specHexValue_ascii c.toNat h
    rwa [Char.ofNat_toNat] at this
  · have hd : digitVal c.toNat = none := digitVal_of_ge _ (by omega)
    have h1 : c ∉ "0123456789abcdef".data := fun hm => h (specHexValue_table_ascii.1 c hm)
    have h2 : c ∉ "0123456789ABCDEF".data := fun hm => h (specHexValue_table_ascii.2 c hm)
    simp only [specHexValue, hexOfDigitVal, hd, if_neg h1, if_neg h2, Option.none_bind]

/-! ## The parser against the digit strings -/

theorem specHexFrom_ge (digits : List Char) (acc v : Nat)
    (h : specHexFrom acc digits = some v) : acc ≤ v := by
  induction digits generalizing acc with
  | nil =>
    simp only [specHexFrom, Option.some.injEq] at h
    omega
  | cons c rest ih =>
    unfold specHexFrom at h
    cases hc : specHexValue c with
    | none => simp [hc] at h
    | some d =>
      simp only [hc] at h
      have := ih _ h
      omega

/-- The digit loop of `ParseUint` in base 16 with a 64-bit limit: it returns
the number the digits write when that is below `2^64`, a range error when it is
not, and an error when a character is not a hexadecimal digit. -/
theorem parseUintLoop_hex (digits : List Char) (acc : Nat) (hacc : acc < 2 ^ 64) :
    (∀ v, specHexFrom acc digits = some v → v < 2 ^ 64 →
      parseUintLoop 16 (2 ^ 64 - 1) (2 ^ 60) digits acc = (v, none)) ∧
    (∀ v, specHexFrom acc digits = some v → 2 ^ 64 ≤ v →
      parseUintLoop 16 (2 ^ 64 - 1) (2 ^ 60) digits acc =
        (2 ^ 64 - 1, some NumError.ErrRange)) ∧
    (specHexFrom acc digits = none →
      parseUintLoop 16 (2 ^ 64 - 1) (2 ^ 60) digits acc = (0, some NumError.ErrSyntax) ∨
      parseUintLoop 16 (2 ^ 64 - 1) (2 ^ 60) digits acc =
        (2 ^ 64 - 1, some NumError.ErrRange)) := by
  induction digits generalizing acc with
  | nil =>
    refine ⟨?_, ?_, ?_⟩
    · intro v hv _
      simp only [specHexFrom, Option.some.injEq] at hv
      simp [parseUintLoop, hv]
    · intro v hv hge
      simp only [specHexFrom, Option.some.injEq] at hv
      omega
    · intro hv
      simp [specHexFrom] at hv
  | cons c rest ih =>
    have hspec := specHexValue_eq c
    unfold hexOfDigitVal at hspec
    cases hd : digitVal c.toNat with
    | none =>
      have hnone : specHexFrom acc (c :: rest) = none := by
        simp [specHexFrom, hspec, hd]
      simp [hnone, parseUintLoop, hd]
    | some d =>
      by_cases hbase : d < 16
      · have hval : specHexValue c = some d := by simp [hspec, hd, hbase]
        have hfrom : specHexFrom acc (c :: rest) = specHexFrom (16 * acc + d) rest := by
          simp [specHexFrom, hval]
        by_cases hcut : acc ≥ 2 ^ 60
        · have hloop : parseUintLoop 16 (2 ^ 64 - 1) (2 ^ 60) (c :: rest) acc =
              (2 ^ 64 - 1, some NumError.ErrRange) := by
            have hb : ¬ d ≥ 16 := by omega
            simp only [parseUintLoop, hd, hb, if_false, hcut, if_true]
          rw [hloop, hfrom]
          refine ⟨?_, ?_, ?_⟩
          · intro v hv hlt
            have := specHexFrom_ge _ _ _ hv
            omega
          · intro v _ _
            rfl
          · intro _
            exact Or.inr rfl
        · have hloop : parseUintLoop 16 (2 ^ 64 - 1) (2 ^ 60) (c :: rest) acc =
              parseUintLoop 16 (2 ^ 64 - 1) (2 ^ 60) rest (16 * acc + d) := by
            have hb : ¬ d ≥ 16 := by omega
            have h0 : acc * 16 % 2 ^ 64 = acc * 16 := Nat.mod_eq_of_lt (by omega)
            have h1 : (acc * 16 + d) % 2 ^ 64 = 16 * acc + d := by
              rw [Nat.mod_eq_of_lt (by omega)]
              omega
            have h2 : ¬ (16 * acc + d < acc * 16 ∨ 16 * acc + d > 2 ^ 64 - 1) := by omega
            simp only [parseUintLoop, hd, hb, if_false, hcut, h0, h1, h2]
          rw [hloop, hfrom]
          exact ih (16 * acc + d) (by omega)
      · have hnone : specHexFrom acc (c :: rest) = none := by
          simp [specHexFrom, hspec, hd, hbase]
        have hb : d ≥ 16 := by omega
        simp [hnone, parseUintLoop, hd, hb]

theorem ParseUint_hex (body : List Char) :
    (∀ m, specHexNumber body = some m → m < 2 ^ 64 → ParseUint body 16 64 = (m, none)) ∧
    (∀ m, specHexNumber body = some m → 2 ^ 64 ≤ m →
      ParseUint body 16 64 = (2 ^ 64 - 1, some NumError.ErrRange)) ∧
    (specHexNumber body = none →
      ParseUint body 16 64 = (0, some NumError.ErrSyntax) ∨
      ParseUint body 16 64 = (2 ^ 64 - 1, some NumError.ErrRange)) := by
  by_cases hb : body = []
  · subst hb
    simp [specHexNumber, ParseUint]
  · have hu : ParseUint body 16 64 = parseUintLoop 16 (2 ^ 64 - 1) (2 ^ 60) body 0 := by
      simp only [ParseUint, hb, if_false]
      norm_num [Nat.shiftLeft_eq]
    have hn : specHexNumber body = specHexFrom 0 body := by simp [specHexNumber, hb]
    rw [hu, hn]
    exact parseUintLoop_hex body 0 (by norm_num)

/-- The sign handling and range check of `ParseInt(s, 16, 32)` on top of the
result `(un, e)` of `ParseUint`. -/
theorem ParseInt_body (c : Char) (rest : List Char) (un : Nat) (e : Option NumError)
    (hu : ParseUint (if c = '+' then rest else if c = '-' then rest else c :: rest) 16 64
      = (un, e))
    (he : e = none ∨ e = some NumError.ErrRange) :
    ParseInt (c :: rest) 16 32 =
      if ¬ c = '-' ∧ un ≥ 2 ^ 31 then ((2 : Int) ^ 31 - 1, some NumError.ErrRange)
      else if c = '-' ∧ un > 2 ^ 31 then (-(2 : Int) ^ 31, some NumError.ErrRange)
      else (if c = '-' then wrapInt64 (-(wrapInt64 un)) else wrapInt64 un, none) := by
  have hcut : (1 <<< (32 - 1)) % 2 ^ 64 = 2 ^ 31 := by decide
  have hw1 : wrapInt64 2147483647 = 2147483647 := by decide
  have hw2 : wrapInt64 (-(wrapInt64 2147483648)) = -2147483648 := by decide
  rcases he with rfl | rfl
  · simp only [ParseInt, hu]
    by_cases hneg : c = '-'
    · simp [hneg, hcut, hw1, hw2]
    · simp [hneg, hcut, hw1, hw2]
  · simp only [ParseInt, hu]
    by_cases hneg : c = '-'
    · simp [hneg, hcut, hw1, hw2]
    · simp [hneg, hcut, hw1, hw2]

theorem ParseInt_syntax (c : Char) (rest : List Char) (un : Nat)
    (hu : ParseUint (if c = '+' then rest else if c = '-' then rest else c :: rest) 16 64
      = (un, some NumError.ErrSyntax)) :
    ParseInt (c :: rest) 16 32 = (0, some NumError.ErrSyntax) := by
  simp only [ParseInt, hu]

theorem wrapInt64_of_range (z : Int) (h1 : -(2 : Int) ^ 63 ≤ z) (h2 : z < (2 : Int) ^ 63) :
    wrapInt64 z = z := by
  unfold wrapInt64
  norm_num at h1 h2 ⊢
  omega

/-- `ParseInt(s, 16, 32)` on a string whose part after the sign writes the
number `m`. -/
theorem ParseInt_of_number (c : Char) (rest : List Char) (m : Nat)
    (hm : specHexNumber (if c = '+' then rest else if c = '-' then rest else c :: rest)
      = some m) :
    ParseInt (c :: rest) 16 32 =
      if ¬ c = '-' ∧ m ≥ 2 ^ 31 then ((2 : Int) ^ 31 - 1, some NumError.ErrRange)
      else if c = '-' ∧ m > 2 ^ 31 then (-(2 : Int) ^ 31, some NumError.ErrRange)
      else (if c = '-' then -(m : Int) else (m : Int), none) := by
  obtain ⟨hok, hbig, _⟩ :=
    ParseUint_hex (if c = '+' then rest else if c = '-' then rest else c :: rest)
  by_cases hlt : m < 2 ^ 64
  · rw [ParseInt_body c rest m none (hok m hm hlt) (Or.inl rfl)]
    by_cases h1 : ¬ c = '-' ∧ m ≥ 2 ^ 31
    · rw [if_pos h1, if_pos h1]
    · rw [if_neg h1, if_neg h1]
      by_cases h2 : c = '-' ∧ m > 2 ^ 31
      · rw [if_pos h2, if_pos h2]
      · rw [if_neg h2, if_neg h2]
        have hm31 : m ≤ 2 ^ 31 := by
          by_cases hc : c = '-'
          · have : ¬ m > 2 ^ 31 := fun h => h2 ⟨hc, h⟩
            omega
          · have : ¬ m ≥ 2 ^ 31 := fun h => h1 ⟨hc, h⟩
            omega
        have hw : wrapInt64 (m : Int) = (m : Int) := by
          apply wrapInt64_of_range
          · have : (0 : Int) ≤ (m : Int) := Int.ofNat_nonneg m
            norm_num
            omega
          · norm_num at hm31 ⊢
            omega
        have hw' : wrapInt64 (-(m : Int)) = -(m : Int) := by
          apply wrapInt64_of_range
          · norm_num at hm31 ⊢
            omega
          · have : (0 : Int) ≤ (m : Int) := Int.ofNat_nonneg m
            norm_num
            omega
        rw [hw, hw']
  · have hge : 2 ^ 64 ≤ m := by omega
    rw [ParseInt_body c rest (2 ^ 64 - 1) (some NumError.ErrRange) (hbig m hm hge)
      (Or.inr rfl)]
    have a1 : 2 ^ 64 - 1 ≥ 2 ^ 31 := by norm_num
    have a2 : 2 ^ 64 - 1 > 2 ^ 31 := by norm_num
    have a3 : m ≥ 2 ^ 31 := by omega
    have a4 : m > 2 ^ 31 := by omega
    by_cases hc : c = '-'
    · rw [if_neg (fun h : ¬ c = '-' ∧ 2 ^ 64 - 1 ≥ 2 ^ 31 => h.1 hc),
        if_neg (fun h : ¬ c = '-' ∧ m ≥ 2 ^ 31 => h.1 hc),
        if_pos (show c = '-' ∧ 2 ^ 64 - 1 > 2 ^ 31 from ⟨hc, a2⟩),
        if_pos (show c = '-' ∧ m > 2 ^ 31 from ⟨hc, a4⟩)]
    · rw [if_pos (show ¬ c = '-' ∧ 2 ^ 64 - 1 ≥ 2 ^ 31 from ⟨hc, a1⟩),
        if_pos (show ¬ c = '-' ∧ m ≥ 2 ^ 31 from ⟨hc, a3⟩)]

/-- `ParseInt(s, 16, 32)` reports an error when the part after the sign is
empty or holds a character that is not a hexadecimal digit. -/
theorem ParseInt_of_no_number (c : Char) (rest : List Char)
    (hm : specHexNumber (if c = '+' then rest else if c = '-' then rest else c :: rest)
      = none) :
    ∃ z e, ParseInt (c :: rest) 16 32 = (z, some e) := by
  obtain ⟨_, _, hbad⟩ :=
    ParseUint_hex (if c = '+' then rest else if c = '-' then rest else c :: rest)
  rcases hbad hm with h | h
  · exact ⟨_, _, ParseInt_syntax c rest 0 h⟩
  · rw [ParseInt_body c rest (2 ^ 64 - 1) (some NumError.ErrRange) h (Or.inr rfl)]
    have a1 : 2 ^ 64 - 1 ≥ 2 ^ 31 := by norm_num
    have a2 : 2 ^ 64 - 1 > 2 ^ 31 := by norm_num
    by_cases hc : c = '-'
    · rw [if_neg (fun h : ¬ c = '-' ∧ 2 ^ 64 - 1 ≥ 2 ^ 31 => h.1 hc),
        if_pos (show c = '-' ∧ 2 ^ 64 - 1 > 2 ^ 31 from ⟨hc, a2⟩)]
      exact ⟨_, _, rfl⟩
    · rw [if_pos (show ¬ c = '-' ∧ 2 ^ 64 - 1 ≥ 2 ^ 31 from ⟨hc, a1⟩)]
      exact ⟨_, _, rfl⟩

/-- `ParseInt(s, 16, 32)` succeeds exactly on the base-16 integers that fit in
a signed 32-bit value, and then returns their value. -/
theorem ParseInt_ok (s : List Char) (z : Int) (h : specHexInt32 s = some z) :
    ParseInt s 16 32 = (z, none) := by
  cases s with
  | nil => simp [specHexInt32] at h
  | cons c rest =>
    simp only [specHexInt32] at h
    by_cases hp : c = '+'
    · have hne : ¬ c = '-' := by rw [hp]; decide
      rw [if_pos hp] at h
      cases hn : specHexNumber rest with
      | none => simp [hn] at h
      | some m =>
        simp only [hn, Option.some_bind] at h
        by_cases hlt : m < 2 ^ 31
        · rw [if_pos hlt] at h
          have := ParseInt_of_number c rest m (by rw [if_pos hp]; exact hn)
          rw [this]
          have h1 : ¬ (¬ c = '-' ∧ m ≥ 2 ^ 31) := by omega
          have h2 : ¬ (c = '-' ∧ m > 2 ^ 31) := fun h => hne h.1
          rw [if_neg h1, if_neg h2, if_neg hne]
          simp only [Option.some.injEq] at h
          rw [h]
        · rw [if_neg hlt] at h
          exact absurd h (by simp)
    · rw [if_neg hp] at h
      by_cases hneg : c = '-'
      · rw [if_pos hneg] at h
        cases hn : specHexNumber rest with
        | none => simp [hn] at h
        | some m =>
          simp only [hn, Option.some_bind] at h
          by_cases hle : m ≤ 2 ^ 31
          · rw [if_pos hle] at h
            have := ParseInt_of_number c rest m (by rw [if_neg hp, if_pos hneg]; exact hn)
            rw [this]
            have h1 : ¬ (¬ c = '-' ∧ m ≥ 2 ^ 31) := fun h => h.1 hneg
            have h2 : ¬ (c = '-' ∧ m > 2 ^ 31) := by omega
            rw [if_neg h1, if_neg h2, if_pos hneg]
            simp only [Option.some.injEq] at h
            rw [h]
          · rw [if_neg hle] at h
            exact absurd h (by simp)
      · rw [if_neg hneg] at h
        cases hn : specHexNumber (c :: rest) with
        | none => simp [hn] at h
        | some m =>
          simp only [hn, Option.some_bind] at h
          by_cases hlt : m < 2 ^ 31
          · rw [if_pos hlt] at h
            have := ParseInt_of_number c rest m (by rw [if_neg hp, if_neg hneg]; exact hn)
            rw [this]
            have h1 : ¬ (¬ c = '-' ∧ m ≥ 2 ^ 31) := by omega
            have h2 : ¬ (c = '-' ∧ m > 2 ^ 31) := fun h => hneg h.1
            rw [if_neg h1, if_neg h2, if_neg hneg]
            simp only [Option.some.injEq] at h
            rw [h]
          · rw [if_neg hlt] at h
            exact absurd h (by simp)

/-- `ParseInt(s, 16, 32)` reports an error on every other string. -/
theorem ParseInt_err (s : List Char) (h : specHexInt32 s = none) :
    ∃ z e, ParseInt s 16 32 = (z, some e) := by
  cases s with
  | nil => exact ⟨_, _, rfl⟩
  | cons c rest =>
    simp only [specHexInt32] at h
    cases hn : specHexNumber (if c = '+' then rest else if c = '-' then rest else c :: rest) with
    | none => exact ParseInt_of_no_number c rest hn
    | some m =>
      rw [ParseInt_of_number c rest m hn]
      by_cases hp : c = '+'
      · have hne : ¬ c = '-' := by rw [hp]; decide
        rw [if_pos hp] at hn h
        simp only [hn, Option.some_bind] at h
        have hge : m ≥ 2 ^ 31 := by
          by_contra hlt
          rw [if_pos (by omega)] at h
          exact absurd h (by simp)
        rw [if_pos ⟨hne, hge⟩]
        exact ⟨_, _, rfl⟩
      · rw [if_neg hp] at hn h
        by_cases hneg : c = '-'
        · rw [if_pos hneg] at hn h
          simp only [hn, Option.some_bind] at h
          have hgt : m > 2 ^ 31 := by
            by_contra hle
            rw [if_pos (by omega)] at h
            exact absurd h (by simp)
          have h1 : ¬ (¬ c = '-' ∧ m ≥ 2 ^ 31) := fun h => h.1 hneg
          rw [if_neg h1, if_pos ⟨hneg, hgt⟩]
          exact ⟨_, _, rfl⟩
        · rw [if_neg hneg] at hn h
          simp only [hn, Option.some_bind] at h
          have hge : m ≥ 2 ^ 31 := by
            by_contra hlt
            rw [if_pos (by omega)] at h
            exact absurd h (by simp)
          rw [if_pos ⟨hneg, hge⟩]
          exact ⟨_, _, rfl⟩

/-! ## `stringToEffect` in closed form -/

theorem HasPrefix_0x_iff (s : List Char) :
    HasPrefix s "0x".data = true ↔ ∃ rest, s = '0' :: 'x' :: rest := by
  have hd : "0x".data = ['0', 'x'] := rfl
  rw [hd]
  constructor
  · intro h
    match s, h with
    | a :: b :: rest, h =>
      simp only [HasPrefix, List.length_cons, List.length_nil, List.take_succ_cons,
        List.take_zero, Bool.and_eq_true, decide_eq_true_eq, beq_iff_eq, List.cons.injEq,
        and_true] at h
      exact ⟨rest, by rw [h.2.1, h.2.2]⟩
    | [a], h => simp [HasPrefix] at h
    | [], h => simp [HasPrefix] at h
  · rintro ⟨rest, rfl⟩
    simp [HasPrefix]

theorem specTemplateInt_with_0x (s : String) (rest : List Char)
    (h : s.data = '0' :: 'x' :: rest) : specTemplateInt s = specHexInt32 rest := by
  unfold specTemplateInt
  rw [h]
  rfl

theorem specTemplateInt_without_0x (s : String)
    (h : ¬ ∃ rest, s.data = '0' :: 'x' :: rest) : specTemplateInt s = none := by
  unfold specTemplateInt
  split
  · rename_i rest heq
    exact absurd ⟨rest, heq⟩ h
  · rfl

theorem stringToEffect_with_0x (s : String) (rest : List Char) (velocity : Nat)
    (h : s.data = '0' :: 'x' :: rest) :
    stringToEffect s velocity =
      match ParseInt rest 16 32 with
      | (_, some _) => some 0
      | (colorInt64, none) => some (scaleColor (toUint32 colorInt64) velocity) := by
  have hp : HasPrefix s.data "0x".data = true := (HasPrefix_0x_iff _).2 ⟨rest, h⟩
  unfold stringToEffect
  rw [if_pos hp, h]
  simp [sliceFrom]

theorem stringToEffect_without_0x (s : String) (velocity : Nat)
    (h : ¬ ∃ rest, s.data = '0' :: 'x' :: rest) : stringToEffect s velocity = some 0 := by
  have hp : ¬ HasPrefix s.data "0x".data = true := fun hp => h ((HasPrefix_0x_iff _).1 hp)
  unfold stringToEffect
  rw [if_neg hp]

/-- A template that is `"0x"` followed by a base-16 integer fitting in 32
signed bits is scaled. -/
theorem stringToEffect_of_template (s : String) (velocity : Nat) (z : Int)
    (h : specTemplateInt s = some z) :
    stringToEffect s velocity = some (scaleColor (toUint32 z) velocity) := by
  by_cases hp : ∃ rest, s.data = '0' :: 'x' :: rest
  · obtain ⟨rest, hs⟩ := hp
    rw [specTemplateInt_with_0x s rest hs] at h
    rw [stringToEffect_with_0x s rest velocity hs, ParseInt_ok rest z h]
  · rw [specTemplateInt_without_0x s hp] at h
    exact absurd h (by simp)

/-- Every other template yields 0. -/
theorem stringToEffect_of_other (s : String) (velocity : Nat)
    (h : specTemplateInt s = none) : stringToEffect s velocity = some 0 := by
  by_cases hp : ∃ rest, s.data = '0' :: 'x' :: rest
  · obtain ⟨rest, hs⟩ := hp
    rw [specTemplateInt_with_0x s rest hs] at h
    obtain ⟨z, e, he⟩ := ParseInt_err rest h
    rw [stringToEffect_with_0x s rest velocity hs, he]
  · exact stringToEffect_without_0x s velocity hp

/-! ## The colour arithmetic -/

theorem and_mask (x k j : Nat) :
    x &&& ((2 ^ j - 1) <<< k) = ((x >>> k) % 2 ^ j) <<< k := by
  apply Nat.eq_of_testBit_eq
  intro i
  simp only [Nat.testBit_and, Nat.testBit_shiftLeft, Nat.testBit_two_pow_sub_one,
    Nat.testBit_mod_two_pow, Nat.testBit_shiftRight]
  by_cases hi : k ≤ i
  · have : k + (i - k) = i := by omega
    simp [hi, this, Bool.and_comm]
  · simp [hi]

theorem and_byte2 (x : Nat) : x &&& 0xFF0000 = (x / 65536 % 256) * 65536 := by
  have h := and_mask x 16 8
  simp only [Nat.shiftLeft_eq, Nat.shiftRight_eq_div_pow] at h
  norm_num at h
  exact h

theorem and_byte1 (x : Nat) : x &&& 0x00FF00 = (x / 256 % 256) * 256 := by
  have h := and_mask x 8 8
  simp only [Nat.shiftLeft_eq, Nat.shiftRight_eq_div_pow] at h
  norm_num at h
  exact h

theorem and_byte0 (x : Nat) : x &&& 0x0000FF = x % 256 := by
  have h := and_mask x 0 8
  simp only [Nat.shiftLeft_eq, Nat.shiftRight_eq_div_pow] at h
  norm_num at h
  exact h

theorem or_bytes (a b c : Nat) (hb : b < 256) (hc : c < 256) :
    a * 65536 ||| b * 256 ||| c = a * 65536 + b * 256 + c := by
  have h1 : 2 ^ 16 * a + b * 256 = 2 ^ 16 * a ||| b * 256 :=
    Nat.mul_add_lt_is_or (by omega) a
  have h2 : 2 ^ 8 * (256 * a + b) + c = 2 ^ 8 * (256 * a + b) ||| c :=
    Nat.mul_add_lt_is_or (by omega) _
  have e1 : a * 65536 = 2 ^ 16 * a := by omega
  have e2 : 2 ^ 16 * a + b * 256 = 2 ^ 8 * (256 * a + b) := by omega
  rw [e1, ← h1, e2, ← h2]

/-- The colour arithmetic of `stringToEffect` byte by byte: each of the three
low bytes of the colour is multiplied by the velocity and divided by 128,
truncating, and kept in its own byte; the top byte of the result is zero. -/
theorem scaleColor_bytes (color velocity : Nat) (hv : velocity < 256) :
    scaleColor color velocity =
      ((color / 65536 % 256) * velocity / 128 % 256) * 65536 +
      ((color / 256 % 256) * velocity / 128 % 256) * 256 +
      (color % 256) * velocity / 128 % 256 := by
  have hR : color / 65536 % 256 < 256 := Nat.mod_lt _ (by norm_num)
  have hG : color / 256 % 256 < 256 := Nat.mod_lt _ (by norm_num)
  have hB : color % 256 < 256 := Nat.mod_lt _ (by norm_num)
  have pR : (color / 65536 % 256) * velocity ≤ 255 * 255 :=
    Nat.mul_le_mul (by omega) (by omega)
  have pG : (color / 256 % 256) * velocity ≤ 255 * 255 :=
    Nat.mul_le_mul (by omega) (by omega)
  have pB : (color % 256) * velocity ≤ 255 * 255 :=
    Nat.mul_le_mul (by omega) (by omega)
  unfold scaleColor
  simp only [and_byte2, and_byte1, and_byte0, Nat.shiftRight_eq_div_pow]
  have eR : (color / 65536 % 256) * 65536 * velocity
      = ((color / 65536 % 256) * velocity) * 65536 := by ring
  have eG : (color / 256 % 256) * 256 * velocity
      = ((color / 256 % 256) * velocity) * 256 := by ring
  rw [eR, eG]
  generalize (color / 65536 % 256) * velocity = r at pR ⊢
  generalize (color / 256 % 256) * velocity = g at pG ⊢
  generalize (color % 256) * velocity = b at pB ⊢
  have sR : r * 65536 % 2 ^ 32 / 2 ^ 7 / 65536 % 256 = r / 128 % 256 := by omega
  have sG : g * 256 % 2 ^ 32 / 2 ^ 7 / 256 % 256 = g / 128 % 256 := by omega
  have sB : b % 2 ^ 32 / 2 ^ 7 % 256 = b / 128 % 256 := by omega
  rw [sR, sG, sB]
  exact or_bytes _ _ _ (Nat.mod_lt _ (by norm_num)) (Nat.mod_lt _ (by norm_num))

/-! ## Six-digit colours -/

theorem specHexFrom_lt (digits : List Char) (acc v : Nat)
    (h : specHexFrom acc digits = some v) : v < (acc + 1) * 16 ^ digits.length := by
  induction digits generalizing acc with
  | nil =>
    simp only [specHexFrom, Option.some.injEq] at h
    simp only [List.length_nil, pow_zero, mul_one]
    omega
  | cons c rest ih =>
    unfold specHexFrom at h
    cases hc : specHexValue c with
    | none => simp [hc] at h
    | some d =>
      simp only [hc] at h
      have hd : d < 16 := by
        have := specHexValue_eq c
        rw [hc] at this
        unfold hexOfDigitVal at this
        cases hv : digitVal c.toNat with
        | none => simp [hv] at this
        | some d' =>
          simp only [hv, Option.some_bind] at this
          by_cases hlt : d' < 16
          · rw [if_pos hlt] at this
            simp only [Option.some.injEq] at this
            omega
          · rw [if_neg hlt] at this
            exact absurd this (by simp)
      have h1 := ih _ h
      have h2 : (16 * acc + d + 1) * 16 ^ rest.length ≤ (16 * (acc + 1)) * 16 ^ rest.length :=
        Nat.mul_le_mul_right _ (by omega)
      have h3 : (16 * (acc + 1)) * 16 ^ rest.length = (acc + 1) * 16 ^ (c :: rest).length := by
        rw [List.length_cons, pow_succ]
        ring
      omega

/-- A six-digit colour template is in particular a template holding a base-16
integer that fits in 32 signed bits, and its colour is below `2^24`. -/
theorem specTemplateInt_of_colour (s : String) (color : Nat)
    (h : specHexColour s = some color) :
    specTemplateInt s = some (color : Int) ∧ color < 2 ^ 24 := by
  unfold specHexColour at h
  split at h
  · rename_i digits hs
    by_cases hlen : digits.length = 6
    · rw [if_pos hlen] at h
      have hlt := specHexFrom_lt digits 0 color h
      rw [hlen] at hlt
      norm_num at hlt
      refine ⟨?_, by norm_num; omega⟩
      rw [specTemplateInt_with_0x s digits hs]
      match digits, hlen, h with
      | c :: rest, _, h =>
        have hval : specHexValue c ≠ none := by
          intro hn
          simp [specHexFrom, hn] at h
        have hp : ¬ c = '+' := by
          intro e
          rw [e] at hval
          exact hval (by decide)
        have hm : ¬ c = '-' := by
          intro e
          rw [e] at hval
          exact hval (by decide)
        have hnum : specHexNumber (c :: rest) = some color := by
          simp only [specHexNumber, if_false, h, reduceCtorEq]
        have hlt' : color < 2 ^ 31 := by norm_num; omega
        simp only [specHexInt32, if_neg hp, if_neg hm, hnum, Option.some_bind, if_pos hlt']
    · rw [if_neg hlen] at h
      exact absurd h (by simp)
  · exact absurd h (by simp)

theorem toUint32_of_lt (n : Nat) (h : n < 2 ^ 32) : toUint32 (n : Int) = n := by
  unfold toUint32
  have : ((n : Int) % 2 ^ 32) = (n : Int) := by
    apply Int.emod_eq_of_lt (Int.ofNat_nonneg n)
    exact_mod_cast h
  rw [this]
  exact Int.toNat_ofNat n

/-! ## The effect template contract -/

/-- C5: for a template `"0x"` followed by exactly six hexadecimal digits that
write the colour bytes `R`, `G`, `B`, and a velocity of at most 127,
`stringToEffect` returns `((R*v) >> 7) << 16 | ((G*v) >> 7) << 8 | ((B*v) >> 7)`:
every byte is replaced by `floor(byte * v / 128)`, which stays below 256, so no
byte carries into another and the top byte is zero. -/
theorem stringToEffect_scales_colour (s : String) (R G B v : Nat)
    (hs : specHexColour s = some (R * 65536 + G * 256 + B))
    (hR : R < 256) (hG : G < 256) (hB : B < 256) (hv : v ≤ 127) :
    stringToEffect s v =
      some ((((R * v) >>> 7) <<< 16) ||| (((G * v) >>> 7) <<< 8) ||| ((B * v) >>> 7)) ∧
    ((((R * v) >>> 7) <<< 16) ||| (((G * v) >>> 7) <<< 8) ||| ((B * v) >>> 7)) =
      (R * v / 128) * 65536 + (G * v / 128) * 256 + B * v / 128 ∧
    R * v / 128 < 256 ∧ G * v / 128 < 256 ∧ B * v / 128 < 256 ∧
    (R * v / 128) * 65536 + (G * v / 128) * 256 + B * v / 128 < 2 ^ 24 := by
  obtain ⟨ht, hc⟩ := specTemplateInt_of_colour s _ hs
  have pR : R * v ≤ 255 * 127 := Nat.mul_le_mul (by omega) hv
  have pG : G * v ≤ 255 * 127 := Nat.mul_le_mul (by omega) hv
  have pB : B * v ≤ 255 * 127 := Nat.mul_le_mul (by omega) hv
  have qR : R * v / 128 < 256 := by omega
  have qG : G * v / 128 < 256 := by omega
  have qB : B * v / 128 < 256 := by omega
  have hor : ((((R * v) >>> 7) <<< 16) ||| (((G * v) >>> 7) <<< 8) ||| ((B * v) >>> 7)) =
      (R * v / 128) * 65536 + (G * v / 128) * 256 + B * v / 128 := by
    simp only [Nat.shiftLeft_eq, Nat.shiftRight_eq_div_pow]
    norm_num
    exact or_bytes _ _ _ qG qB
  refine ⟨?_, hor, qR, qG, qB, by norm_num; omega⟩
  rw [hor, stringToEffect_of_template s v _ ht, toUint32_of_lt _ (by norm_num at hc ⊢; omega),
    scaleColor_bytes _ _ (by omega)]
  have e2 : (R * 65536 + G * 256 + B) / 65536 % 256 = R := by omega
  have e1 : (R * 65536 + G * 256 + B) / 256 % 256 = G := by omega
  have e0 : (R * 65536 + G * 256 + B) % 256 = B := by omega
  rw [e2, e1, e0, Nat.mod_eq_of_lt qR, Nat.mod_eq_of_lt qG, Nat.mod_eq_of_lt qB]

/-- C5 at the template `"0xFF0000"` with velocity 64: the effect is `0x7F0000`. -/
theorem stringToEffect_scales_colour_witness :
    specHexColour "0xFF0000" = some (255 * 65536 + 0 * 256 + 0) ∧
    stringToEffect "0xFF0000" 64 = some 0x7F0000 :=
  ⟨by decide,
    (stringToEffect_scales_colour "0xFF0000" 255 0 0 64 (by decide) (by decide) (by decide)
      (by decide) (by decide)).1⟩

/-- C6, as stated, fails: `"0xFFF"`, `"0x1FFFFFF"` and `"0x-1"` are not of the
form `0xRRGGBB`, yet at velocity 127 `stringToEffect` returns `0x000EFD`,
`0xFDFDFD` and `0xFDFDFD` for them, none of which is 0. -/
theorem stringToEffect_other_forms_counterexample :
    (specHexColour "0xFFF" = none ∧ stringToEffect "0xFFF" 127 = some 0x000EFD) ∧
    (specHexColour "0x1FFFFFF" = none ∧ stringToEffect "0x1FFFFFF" 127 = some 0xFDFDFD) ∧
    (specHexColour "0x-1" = none ∧ stringToEffect "0x-1" 127 = some 0xFDFDFD) ∧
    ¬ (∀ (s : String) (v : Nat), specHexColour s = none → stringToEffect s v = some 0) := by
  refine ⟨by decide, by decide, by decide, ?_⟩
  intro h
  exact absurd (h "0xFFF" 127 (by decide)) (by decide)

/-- C6, amended: `stringToEffect` returns 0 for every template that is not
`"0x"` followed by a base-16 integer fitting in a signed 32-bit value (optional
sign, one or more hexadecimal digits, value in `-2^31 .. 2^31 - 1`).  A
template of that form, six digits or not, is scaled: with `u` its value modulo
`2^32` and a velocity below 256, each of the three low bytes of `u` becomes
`floor(byte * velocity / 128) mod 256` and the top byte becomes zero. -/
theorem stringToEffect_zero_outside_hex_integers (s : String) (v : Nat) :
    (specTemplateInt s = none → stringToEffect s v = some 0) ∧
    (∀ z : Int, specTemplateInt s = some z → v < 256 →
      stringToEffect s v =
        some (((toUint32 z / 65536 % 256) * v / 128 % 256) * 65536 +
          ((toUint32 z / 256 % 256) * v / 128 % 256) * 256 +
          (toUint32 z % 256) * v / 128 % 256)) := by
  refine ⟨stringToEffect_of_other s v, ?_⟩
  intro z hz hv
  rw [stringToEffect_of_template s v z hz, scaleColor_bytes _ _ hv]

/-- C6 amended, at `"0x+g"` (not an integer, effect 0) and at `"0x-1"`
(value `-1`, all three bytes `0xFF`, effect `0xFDFDFD` at velocity 127). -/
theorem stringToEffect_zero_outside_hex_integers_witness :
    specTemplateInt "0x+g" = none ∧ stringToEffect "0x+g" 127 = some 0 ∧
    specTemplateInt "0x-1" = some (-1) ∧ stringToEffect "0x-1" 127 = some 0xFDFDFD := by
  refine ⟨by decide, (stringToEffect_zero_outside_hex_integers "0x+g" 127).1 (by decide),
    by decide, ?_⟩
  rw [(stringToEffect_zero_outside_hex_integers "0x-1" 127).2 (-1) (by decide) (by decide)]
  decide

/-- C7: `stringToEffect` returns a value for every string and velocity (the
slice `s[2:]` is in bounds whenever the prefix test passes), and that value is
0 when the string does not start with `"0x"`, when the text after `"0x"` is not
a base-16 integer fitting in a signed 32-bit value, and for the template `"0x"`
with its empty remainder. -/
theorem stringToEffect_total (s : String) (v : Nat) :
    (∃ r : Nat, stringToEffect s v = some r) ∧
    (HasPrefix s.data "0x".data = true → ∃ rest, sliceFrom s.data 2 = some rest) ∧
    ((¬ ∃ rest, s.data = '0' :: 'x' :: rest) → stringToEffect s v = some 0) ∧
    (∀ rest, s.data = '0' :: 'x' :: rest → specHexInt32 rest = none →
      stringToEffect s v = some 0) ∧
    stringToEffect "0x" v = some 0 := by
  refine ⟨?_, ?_, stringToEffect_without_0x s v, ?_, ?_⟩
  · cases h : specTemplateInt s with
    | none => exact ⟨_, stringToEffect_of_other s v h⟩
    | some z => exact ⟨_, stringToEffect_of_template s v z h⟩
  · intro hp
    obtain ⟨rest, hs⟩ := (HasPrefix_0x_iff _).1 hp
    exact ⟨rest, by simp [sliceFrom, hs]⟩
  · intro rest hs hn
    apply stringToEffect_of_other
    rw [specTemplateInt_with_0x s rest hs]
    exact hn
  · exact stringToEffect_of_other "0x" v (by decide)

/-- C7 at `"0x12z"` (a character that is no digit), at `"0x80000000"` (one
above the largest signed 32-bit value) and at `"red"` (no `"0x"` in front). -/
theorem stringToEffect_total_witness :
    stringToEffect "0x12z" 100 = some 0 ∧ stringToEffect "0x80000000" 100 = some 0 ∧
    stringToEffect "red" 100 = some 0 :=
  ⟨(stringToEffect_total "0x12z" 100).2.2.2.1 "12z".data (by decide) (by decide),
    (stringToEffect_total "0x80000000" 100).2.2.2.1 "80000000".data (by decide) (by decide),
    (stringToEffect_total "red" 100).2.2.1 (by simp)⟩

/-! ## `SetZoneEffect` -/

theorem effect_bytes (effect : Nat) (he : effect < 2 ^ 32) :
    (effect >>> 24) % 256 = effect / 2 ^ 24 ∧
    ((effect >>> 16) &&& 0xFF) % 256 = effect / 2 ^ 16 % 256 ∧
    ((effect >>> 8) &&& 0xFF) % 256 = effect / 2 ^ 8 % 256 ∧
    (effect &&& 0xFF) % 256 = effect % 256 := by
  simp only [and_byte0, Nat.shiftRight_eq_div_pow]
  norm_num at he ⊢
  omega

/-- C8: when the name maps to `(strip, zone)`, `SetZoneEffect` hands the port
exactly one frame, the seven bytes `'E', strip, zone, b3, b2, b1, b0` with
`b3 .. b0` the big-endian bytes of the 32-bit effect, and returns what that
write returns; when the name is absent it hands the port nothing, leaves the
controller as it is and returns no error. -/
theorem SetZoneEffect_frame (c : LEDController) (name : String) (effect : Nat)
    (he : effect < 2 ^ 32) :
    (∀ strip zone : Nat, c.zoneCache name = some { Strip := strip, Zone := zone } →
      ∃ b3 b2 b1 b0 : Nat,
        (c.SetZoneEffect name effect).1.port.calls =
          c.port.calls ++ [['E'.toNat, strip, zone, b3, b2, b1, b0]] ∧
        b3 < 256 ∧ b2 < 256 ∧ b1 < 256 ∧ b0 < 256 ∧
        b3 * 2 ^ 24 + b2 * 2 ^ 16 + b1 * 2 ^ 8 + b0 = effect ∧
        (c.SetZoneEffect name effect).2 = c.port.fails c.port.calls.length ∧
        (c.SetZoneEffect name effect).1.zoneCache = c.zoneCache) ∧
    (c.zoneCache name = none →
      (c.SetZoneEffect name effect).1.port.calls = c.port.calls ∧
      (c.SetZoneEffect name effect).2 = false ∧
      (c.SetZoneEffect name effect).1.zoneCache = c.zoneCache) := by
  obtain ⟨e3, e2, e1, e0⟩ := effect_bytes effect he
  constructor
  · intro strip zone hz
    refine ⟨effect / 2 ^ 24, effect / 2 ^ 16 % 256, effect / 2 ^ 8 % 256, effect % 256,
      ?_, ?_, ?_, ?_, ?_, ?_, ?_, ?_⟩
    · simp only [LEDController.SetZoneEffect, hz, LEDController.SetZoneEffectRaw, Port.Write,
        e3, e2, e1, e0]
      split <;> rfl
    · norm_num at he ⊢
      omega
    · omega
    · omega
    · omega
    · norm_num at he ⊢
      omega
    · simp only [LEDController.SetZoneEffect, hz, LEDController.SetZoneEffectRaw, Port.Write]
      split <;> simp_all
    · simp only [LEDController.SetZoneEffect, hz, LEDController.SetZoneEffectRaw, Port.Write]
      split <;> rfl
  · intro hz
    simp only [LEDController.SetZoneEffect, hz, and_self]

/-- C8 on a controller that knows `"mid"` at `(0, 1)`: the effect `0x01020304`
goes out as `'E', 0, 1, 1, 2, 3, 4`, and the unknown name `"nowhere"` writes
nothing. -/
theorem SetZoneEffect_frame_witness :
    ((idleController.Configure gapConfig).1.SetZoneEffect "mid" 0x01020304).1.port.calls =
      (idleController.Configure gapConfig).1.port.calls ++ [[69, 0, 1, 1, 2, 3, 4]] ∧
    ((idleController.Configure gapConfig).1.SetZoneEffect "nowhere" 0x01020304).1.port.calls =
      (idleController.Configure gapConfig).1.port.calls := by
  have h := SetZoneEffect_frame (idleController.Configure gapConfig).1 "mid" 0x01020304
    (by norm_num)
  have h' := SetZoneEffect_frame (idleController.Configure gapConfig).1 "nowhere" 0x01020304
    (by norm_num)
  refine ⟨?_, (h'.2 (by decide)).1⟩
  obtain ⟨b3, b2, b1, b0, hc, h3, h2, h1, h0, hsum, _⟩ := h.1 0 1 (by decide)
  have : b3 = 1 ∧ b2 = 2 ∧ b1 = 3 ∧ b0 = 4 := by
    norm_num at hsum
    omega
  obtain ⟨rfl, rfl, rfl, rfl⟩ := this
  rw [hc]
  rfl

/-! ## `Configure` on a port that accepts its writes -/

theorem level_bytes (x : Nat) :
    (x >>> 8) % 256 = x / 256 % 256 ∧ (x &&& 0xFF) % 256 = x % 256 := by
  simp only [and_byte0, Nat.shiftRight_eq_div_pow]
  norm_num

/-- The inner loop on a port that accepts the writes of the loop: no error,
the frames of the zones are appended to the log and the named zones are
entered into the registry. -/
theorem configureZones_ok (i : Nat) (zones : List ZoneConfig) (j : Nat) (c : LEDController)
    (hf : c.port.accepts (specZoneFrames i j zones).length) :
    configureZones i j zones c =
      ({ port := { fails := c.port.fails, calls := c.port.calls ++ specZoneFrames i j zones },
         zoneCache := zonesCache i j zones c.zoneCache }, false) := by
  unfold Port.accepts at hf
  induction zones generalizing j c with
  | nil => simp [configureZones, specZoneFrames, zonesCache]
  | cons zone rest ih =>
    by_cases hn : zone.Name = ""
    · simp only [specZoneFrames, hn, if_true, List.nil_append] at hf
      simp only [configureZones, specZoneFrames, zonesCache, hn, if_true, List.nil_append]
      exact ih (j + 1) c hf
    · by_cases ho : zone.Off > 0
      · simp only [specZoneFrames, hn, ho, if_false, if_true, List.length_append,
          List.length_cons, List.length_nil] at hf
        have h0 : c.port.fails c.port.calls.length = false :=
          hf _ (Nat.le_refl _) (by omega)
        have h1 : ∀ f : List Nat, c.port.fails (c.port.calls ++ [f]).length = false :=
          fun f => hf _ (by simp) (by simp only [List.length_append, List.length_singleton]; omega)
        simp only [configureZones, specZoneFrames, zonesCache, hn, ho, if_false, if_true,
          Port.Write, h0, h1, Bool.false_eq_true]
        rw [ih (j + 1)]
        · simp [(level_bytes zone.Off).1, (level_bytes zone.Off).2, (level_bytes zone.On).1,
            (level_bytes zone.On).2]
        · intro k hk1 hk2
          apply hf
          · simp only [List.length_append, List.length_singleton] at hk1
            omega
          · simp only [List.length_append, List.length_singleton] at hk2
            omega
      · simp only [specZoneFrames, hn, ho, if_false, List.length_append,
          List.length_cons, List.length_nil, List.nil_append] at hf
        have h0 : c.port.fails c.port.calls.length = false :=
          hf _ (Nat.le_refl _) (by omega)
        simp only [configureZones, specZoneFrames, zonesCache, hn, ho, if_false,
          Port.Write, h0, Bool.false_eq_true]
        rw [ih (j + 1)]
        · simp [(level_bytes zone.On).1, (level_bytes zone.On).2]
        · intro k hk1 hk2
          apply hf
          · simp only [List.length_append, List.length_singleton] at hk1
            omega
          · simp only [List.length_append, List.length_singleton] at hk2
            omega

/-- The outer loop on a port that accepts the writes of the loop. -/
theorem configureStrips_ok (strips : List StripConfig) (i : Nat) (c : LEDController)
    (hf : c.port.accepts (specStripFrames i strips).length) :
    configureStrips i strips c =
      ({ port := { fails := c.port.fails, calls := c.port.calls ++ specStripFrames i strips },
         zoneCache := stripsCache i strips c.zoneCache }, false) := by
  unfold Port.accepts at hf
  induction strips generalizing i c with
  | nil => simp [configureStrips, specStripFrames, stripsCache]
  | cons strip rest ih =>
    simp only [specStripFrames, List.length_append] at hf
    have hz := configureZones_ok i strip.Zones 0 c (fun k h1 h2 => hf k h1 (by omega))
    simp only [configureStrips, specStripFrames, stripsCache, hz, Bool.false_eq_true, if_false]
    rw [ih (i + 1)]
    · simp
    · intro k hk1 hk2
      apply hf
      · simp only [List.length_append] at hk1
        omega
      · simp only [List.length_append] at hk2
        omega

/-- `Configure` on a port that accepts the writes of the call, one for the
Reset frame and one for every frame of a zone: no error; the Reset frame, then
the frames of the zones, are appended to the log; the registry is built from
the empty map. -/
theorem Configure_ok (c : LEDController) (config : Config)
    (hf : c.port.accepts (1 + (specStripFrames 0 config.Strips).length)) :
    c.Configure config =
      ({ port := { fails := c.port.fails,
                   calls := c.port.calls ++ [82] :: specStripFrames 0 config.Strips },
         zoneCache := stripsCache 0 config.Strips emptyCache }, false) := by
  unfold Port.accepts at hf
  have h0 : c.port.fails c.port.calls.length = false := hf _ (Nat.le_refl _) (by omega)
  simp only [LEDController.Configure, Port.Write, h0, Bool.false_eq_true, if_false]
  rw [configureStrips_ok _ 0]
  · simp
  · intro k hk1 hk2
    apply hf
    · simp only [List.length_append, List.length_singleton] at hk1
      omega
    · simp only [List.length_append, List.length_singleton] at hk2
      omega

/-! ## The registry that `Configure` builds -/

theorem zoneNamesOf_cons (zone : ZoneConfig) (rest : List ZoneConfig) :
    zoneNamesOf (zone :: rest) =
      if zone.Name = "" then zoneNamesOf rest else zone.Name :: zoneNamesOf rest := by
  by_cases h : zone.Name = ""
  · simp [zoneNamesOf, h]
  · simp [zoneNamesOf, h]

/-- A name that no zone of the list carries keeps its entry. -/
theorem zonesCache_of_not_mem (i : Nat) (zones : List ZoneConfig) (j : Nat)
    (cache : String → Option ZoneIndex) (n : String) (h : n ∉ zoneNamesOf zones) :
    zonesCache i j zones cache n = cache n := by
  induction zones generalizing j cache with
  | nil => rfl
  | cons zone rest ih =>
    rw [zoneNamesOf_cons] at h
    by_cases hn : zone.Name = ""
    · rw [if_pos hn] at h
      simp only [zonesCache, hn, if_true]
      exact ih (j + 1) cache h
    · rw [if_neg hn] at h
      simp only [List.mem_cons, not_or] at h
      simp only [zonesCache, hn, if_false]
      rw [ih (j + 1) _ h.2]
      simp [cacheSet, h.1]

/-- A named zone of a list with pairwise distinct names ends up at its position. -/
theorem zonesCache_at (i : Nat) (zones : List ZoneConfig) (j : Nat)
    (cache : String → Option ZoneIndex) (hd : (zoneNamesOf zones).Nodup)
    (k : Nat) (z : ZoneConfig) (hz : zones[k]? = some z) (hn : z.Name ≠ "") :
    zonesCache i j zones cache z.Name = some { Strip := i % 256, Zone := (j + k) % 256 } := by
  induction zones generalizing j k cache with
  | nil => simp at hz
  | cons zone rest ih =>
    rw [zoneNamesOf_cons] at hd
    cases k with
    | zero =>
      simp only [List.getElem?_cons_zero, Option.some.injEq] at hz
      subst hz
      rw [if_neg hn, List.nodup_cons] at hd
      simp only [zonesCache, hn, if_false]
      rw [zonesCache_of_not_mem i rest (j + 1) _ _ hd.1]
      simp [cacheSet]
    | succ k =>
      simp only [List.getElem?_cons_succ] at hz
      have e : j + (k + 1) = j + 1 + k := by omega
      rw [e]
      by_cases h0 : zone.Name = ""
      · rw [if_pos h0] at hd
        simp only [zonesCache, h0, if_true]
        exact ih (j + 1) cache hd k hz
      · rw [if_neg h0, List.nodup_cons] at hd
        simp only [zonesCache, h0, if_false]
        exact ih (j + 1) _ hd.2 k hz

theorem mem_zoneNamesOf (zones : List ZoneConfig) (n : String) (h : n ∈ zoneNamesOf zones) :
    n ≠ "" ∧ ∃ (m : Nat) (z : ZoneConfig), zones[m]? = some z ∧ z.Name = n := by
  simp only [zoneNamesOf, List.mem_filter, List.mem_map, decide_eq_true_eq] at h
  obtain ⟨⟨z, hz, rfl⟩, hne⟩ := h
  obtain ⟨m, hm⟩ := List.mem_iff_getElem?.1 hz
  exact ⟨hne, m, z, hm, rfl⟩

theorem zoneNamesOf_mem (zones : List ZoneConfig) (m : Nat) (z : ZoneConfig)
    (hz : zones[m]? = some z) (hn : z.Name ≠ "") : z.Name ∈ zoneNamesOf zones := by
  simp only [zoneNamesOf, List.mem_filter, List.mem_map, decide_eq_true_eq]
  exact ⟨⟨z, List.mem_iff_getElem?.2 ⟨m, hz⟩, rfl⟩, hn⟩

/-- A name that no zone of the strips carries keeps its entry. -/
theorem stripsCache_of_not_mem (strips : List StripConfig) (i : Nat)
    (cache : String → Option ZoneIndex) (n : String) (h : n ∉ stripNamesOf strips) :
    stripsCache i strips cache n = cache n := by
  induction strips generalizing i cache with
  | nil => rfl
  | cons strip rest ih =>
    simp only [stripNamesOf, List.mem_append, not_or] at h
    simp only [stripsCache]
    rw [ih (i + 1) _ h.2, zonesCache_of_not_mem i _ 0 _ _ h.1]

/-- A named zone of a configuration with pairwise distinct names ends up at
its position. -/
theorem stripsCache_at (strips : List StripConfig) (i : Nat)
    (cache : String → Option ZoneIndex) (hd : (stripNamesOf strips).Nodup)
    (k m : Nat) (strip : StripConfig) (z : ZoneConfig)
    (hs : strips[k]? = some strip) (hz : strip.Zones[m]? = some z) (hn : z.Name ≠ "") :
    stripsCache i strips cache z.Name = some { Strip := (i + k) % 256, Zone := m % 256 } := by
  induction strips generalizing i k cache with
  | nil => simp at hs
  | cons s0 rest ih =>
    simp only [stripNamesOf] at hd
    rw [List.nodup_append] at hd
    obtain ⟨hd0, hdr, hdis⟩ := hd
    cases k with
    | zero =>
      simp only [List.getElem?_cons_zero, Option.some.injEq] at hs
      subst hs
      have hmem := zoneNamesOf_mem _ m z hz hn
      have hnot : z.Name ∉ stripNamesOf rest := fun h => hdis hmem h
      simp only [stripsCache]
      rw [stripsCache_of_not_mem rest (i + 1) _ _ hnot, zonesCache_at i _ 0 cache hd0 m z hz hn]
      simp
    | succ k =>
      simp only [List.getElem?_cons_succ] at hs
      have e : i + (k + 1) = i + 1 + k := by omega
      rw [e]
      simp only [stripsCache]
      exact ih (i + 1) _ hdr k hs

theorem mem_stripNamesOf (strips : List StripConfig) (n : String)
    (h : n ∈ stripNamesOf strips) :
    n ≠ "" ∧ ∃ (k m : Nat) (strip : StripConfig) (z : ZoneConfig),
      strips[k]? = some strip ∧ strip.Zones[m]? = some z ∧ z.Name = n := by
  induction strips with
  | nil => simp [stripNamesOf] at h
  | cons s0 rest ih =>
    simp only [stripNamesOf, List.mem_append] at h
    rcases h with h | h
    · obtain ⟨hne, m, z, hz, hzn⟩ := mem_zoneNamesOf _ n h
      exact ⟨hne, 0, m, s0, z, List.getElem?_cons_zero, hz, hzn⟩
    · obtain ⟨hne, k, m, strip, z, hs, hz, hzn⟩ := ih h
      exact ⟨hne, k + 1, m, strip, z, by rw [List.getElem?_cons_succ]; exact hs, hz, hzn⟩

theorem zoneAt_eq_some (config : Config) (i j : Nat) (z : ZoneConfig) :
    zoneAt config i j = some z ↔
      ∃ strip, config.Strips[i]? = some strip ∧ strip.Zones[j]? = some z := by
  unfold zoneAt
  cases h : config.Strips[i]? with
  | none => simp
  | some strip => simp

/-! ## The `Configure` contract -/

/-- C9: for a configuration with at most 256 strips, at most 256 zones per
strip and pairwise distinct non-empty zone names, whatever the registry held
before, on a port that fails none of the writes of the call (one for the
Reset frame and one for every frame of a zone), `Configure` returns no error
and leaves a registry that maps a name `n` to `(i, j)` exactly when `n` is not
empty and the zone at position `j` of strip `i` is named `n`.  The empty name
maps to nothing, and zones without a name keep their position: they do not
shift the addresses of the zones after them. -/
theorem Configure_registry (c : LEDController) (config : Config)
    (hf : c.port.accepts (1 + (specStripFrames 0 config.Strips).length))
    (hs : config.Strips.length ≤ 256)
    (hz : ∀ strip ∈ config.Strips, strip.Zones.length ≤ 256)
    (hd : (zoneNames config).Nodup) :
    (c.Configure config).2 = false ∧
    (∀ (n : String) (i j : Nat),
      (c.Configure config).1.zoneCache n = some { Strip := i, Zone := j } ↔
        n ≠ "" ∧ ∃ z, zoneAt config i j = some z ∧ z.Name = n) ∧
    (c.Configure config).1.zoneCache "" = none := by
  have hpos : ∀ (k m : Nat) (strip : StripConfig) (z : ZoneConfig),
      config.Strips[k]? = some strip → strip.Zones[m]? = some z → z.Name ≠ "" →
      stripsCache 0 config.Strips emptyCache z.Name = some { Strip := k, Zone := m } := by
    intro k m strip z hk hm hn
    have h := stripsCache_at config.Strips 0 emptyCache hd k m strip z hk hm hn
    have hk' : k < config.Strips.length := (List.getElem?_eq_some.1 hk).1
    have hm' : m < strip.Zones.length := (List.getElem?_eq_some.1 hm).1
    have hmem : strip ∈ config.Strips := List.mem_iff_getElem?.2 ⟨k, hk⟩
    have := hz strip hmem
    rw [h, Nat.zero_add, Nat.mod_eq_of_lt (by omega), Nat.mod_eq_of_lt (by omega)]
  rw [Configure_ok c config hf]
  refine ⟨rfl, ?_, ?_⟩
  · intro n i j
    show stripsCache 0 config.Strips emptyCache n = some { Strip := i, Zone := j } ↔ _
    constructor
    · intro h
      by_cases hmem : n ∈ stripNamesOf config.Strips
      · obtain ⟨hne, k, m, strip, z, hk, hm, rfl⟩ := mem_stripNamesOf _ n hmem
        rw [hpos k m strip z hk hm hne] at h
        simp only [Option.some.injEq, ZoneIndex.mk.injEq] at h
        obtain ⟨rfl, rfl⟩ := h
        exact ⟨hne, z, (zoneAt_eq_some config k m z).2 ⟨strip, hk, hm⟩, rfl⟩
      · rw [stripsCache_of_not_mem _ 0 _ n hmem] at h
        simp [emptyCache] at h
    · rintro ⟨hne, z, hz', rfl⟩
      obtain ⟨strip, hk, hm⟩ := (zoneAt_eq_some config i j z).1 hz'
      exact hpos i j strip z hk hm hne
  · show stripsCache 0 config.Strips emptyCache "" = none
    have hmem : "" ∉ stripNamesOf config.Strips := fun h => (mem_stripNamesOf _ "" h).1 rfl
    rw [stripsCache_of_not_mem _ 0 _ "" hmem]
    rfl

/-- C9 on `gapConfig`, whose zones at positions 0 and 2 have no name: the
named zone at position 1 gets the address `(0, 1)`, the empty name and the
stale name `"old"` of the previous registry map to nothing. -/
theorem Configure_registry_witness :
    idleController.zoneCache "old" = some { Strip := 9, Zone := 9 } ∧
    (idleController.Configure gapConfig).2 = false ∧
    (idleController.Configure gapConfig).1.zoneCache "mid" = some { Strip := 0, Zone := 1 } ∧
    (idleController.Configure gapConfig).1.zoneCache "" = none ∧
    (idleController.Configure gapConfig).1.zoneCache "old" = none := by
  have h := (Configure_registry idleController gapConfig (fun _ _ _ => rfl) (by decide)
    (by decide) (by decide)).2
  refine ⟨by decide, by decide, (h.1 "mid" 0 1).2 ⟨by decide, _, rfl, rfl⟩, h.2, ?_⟩
  cases hold : (idleController.Configure gapConfig).1.zoneCache "old" with
  | none => rfl
  | some a =>
    obtain ⟨i, j⟩ := a
    obtain ⟨_, z, hz, hn⟩ := (h.1 "old" i j).1 hold
    exfalso
    revert hz hn
    unfold zoneAt gapConfig
    match i, j with
    | 0, 0 => simp only [List.getElem?_cons_zero, Option.some.injEq]; rintro rfl; decide
    | 0, 1 =>
      simp only [List.getElem?_cons_zero, List.getElem?_cons_succ, Option.some.injEq]
      rintro rfl
      decide
    | 0, 2 =>
      simp only [List.getElem?_cons_zero, List.getElem?_cons_succ, Option.some.injEq]
      rintro rfl
      decide
    | 0, _ + 3 => simp
    | _ + 1, _ => simp

/-- C10, as stated, fails: on `pairConfig` the `'D'` frame of the second zone
is written after the `'L'` frame of the first one, not before it. -/
theorem Configure_off_frames_first_counterexample :
    (idleController.Configure pairConfig).2 = false ∧
    (idleController.Configure pairConfig).1.port.calls =
      [[82], [68, 0, 0, 0, 1], [76, 0, 0, 0, 9], [68, 0, 1, 0, 1], [76, 0, 1, 0, 9]] ∧
    (idleController.Configure pairConfig).1.port.calls ≠
      [[82], [68, 0, 0, 0, 1], [68, 0, 1, 0, 1], [76, 0, 0, 0, 9], [76, 0, 1, 0, 9]] ∧
    offFramesFirst (idleController.Configure pairConfig).1.port.calls = false := by
  decide

/-- C10, amended: on a port that fails none of the writes of the call (one
for the Reset frame and one for every frame of a zone), `Configure` returns no
error and writes first the Reset frame `'R'`, then, zone by zone in strip order
and zone order, for each named zone its `'D'` frame when its off level is not
zero immediately followed by its `'L'` frame.  A zone's `'D'` frame thus comes
before that zone's own `'L'` frame and after the frames of every earlier
zone. -/
theorem Configure_frames_zone_by_zone (c : LEDController) (config : Config)
    (hf : c.port.accepts (1 + (specStripFrames 0 config.Strips).length)) :
    (c.Configure config).2 = false ∧
    (c.Configure config).1.port.calls =
      c.port.calls ++ ['R'.toNat] :: specStripFrames 0 config.Strips := by
  rw [Configure_ok c config hf]
  exact ⟨rfl, rfl⟩

/-- C10 amended, on `pairConfig` and a port that accepts the five writes of
the call and refuses every later one: no error; Reset, then `'D'` and `'L'` of
zone 0, then `'D'` and `'L'` of zone 1. -/
theorem Configure_frames_zone_by_zone_witness :
    lateController.port.fails 5 = true ∧
    (lateController.Configure pairConfig).2 = false ∧
    (lateController.Configure pairConfig).1.port.calls =
      [[82], [68, 0, 0, 0, 1], [76, 0, 0, 0, 9], [68, 0, 1, 0, 1], [76, 0, 1, 0, 9]] := by
  have hlen : (specStripFrames 0 pairConfig.Strips).length = 4 := by decide
  have h := Configure_frames_zone_by_zone lateController pairConfig (by
    intro k _ hk
    rw [hlen] at hk
    show decide (5 ≤ k) = false
    simp only [decide_eq_false_iff_not, Nat.not_le]
    exact hk)
  refine ⟨by decide, h.1, ?_⟩
  rw [h.2]
  decide

/-! ## Note names -/

set_option maxRecDepth 100000

theorem keyOfNoteName_noteName :
    ∀ k, k < 256 → 21 ≤ k → keyOfNoteName (noteName k) = k := by
  decide

theorem Itoa_natCast (n : Nat) : Itoa (n : Int) = Nat.repr n := by
  unfold Itoa
  rw [if_neg (by omega)]
  simp

/-- C20: `noteName` returns the empty string below key 21; from key 21 on it
returns one of the twelve pitch classes followed by the decimal octave
`(key - 12) / 12`, with `A0`, `C1`, `C4` and `A4` for the keys 21, 24, 60 and
69; and two different keys between 21 and 255 never get the same name. -/
theorem noteName_pitch_naming :
    (∀ key, key < 21 → noteName key = "") ∧
    (∀ key, 21 ≤ key →
      ∃ pc ∈ ["A", "A#", "B", "C", "C#", "D", "D#", "E", "F", "F#", "G", "G#"],
        noteName key = pc ++ Nat.repr ((key - 12) / 12)) ∧
    noteName 21 = "A0" ∧ noteName 24 = "C1" ∧ noteName 60 = "C4" ∧ noteName 69 = "A4" ∧
    (∀ k1 k2, 21 ≤ k1 → k1 ≤ 255 → 21 ≤ k2 → k2 ≤ 255 → k1 ≠ k2 →
      noteName k1 ≠ noteName k2) := by
  refine ⟨?_, ?_, by decide, by decide, by decide, by decide, ?_⟩
  · intro key h
    simp [noteName, h]
  · intro key h
    have hlt : (key - 21) % 12 < noteNames.length := Nat.mod_lt _ (by decide)
    refine ⟨noteNames[(key - 21) % 12], List.getElem_mem _, ?_⟩
    have hk : ¬ key < 21 := by omega
    simp only [noteName, hk, if_false]
    rw [List.getD_eq_getElem _ _ hlt]
    have : (((key - 12) / 12 : Nat) : Int) = ((key - 12) / 12 : Nat) := rfl
    rw [show ((↑((key - 12) / 12) : Int)) = (((key - 12) / 12 : Nat) : Int) from rfl,
      Itoa_natCast]
  · intro k1 k2 h1 h1' h2 h2' hne heq
    have e1 := keyOfNoteName_noteName k1 (by omega) h1
    have e2 := keyOfNoteName_noteName k2 (by omega) h2
    rw [heq, e2] at e1
    exact hne e1.symm

/-- C20 at the keys 60 and 72, the notes `C4` and `C5`. -/
theorem noteName_pitch_naming_witness :
    noteName 60 ≠ noteName 72 ∧ noteName 20 = "" :=
  ⟨noteName_pitch_naming.2.2.2.2.2.2 60 72 (by decide) (by decide) (by decide) (by decide)
      (by decide),
    noteName_pitch_naming.1 20 (by decide)⟩

/-! ## Key isolation -/

/-- C19: for a key below 128, `Play` and `Release` return (no index leaves the
128-entry table or the key's list, neither the read of position `i + 1` in the
shifting loop nor the write of the last position) and leave the list of every
other key exactly as it was. -/
theorem Play_Release_key_isolation (n : noteStacker) (key channel effect : Nat)
    (hk : key < 128) :
    (∃ (r : Nat) (n' : noteStacker), n.Play key channel effect = some (r, n') ∧
      ∀ k' : Fin 128, k' ≠ ⟨key, hk⟩ → n' k' = n k') ∧
    (∃ (r : Nat) (n' : noteStacker), n.Release key channel = some (r, n') ∧
      ∀ k' : Fin 128, k' ≠ ⟨key, hk⟩ → n' k' = n k') ∧
    (∃ found s, shiftLoop channel (n ⟨key, hk⟩).length 0 false (n ⟨key, hk⟩) =
      some (found, s)) := by
  refine ⟨⟨_, _, Play_closed n key channel effect hk, ?_⟩,
    ⟨_, _, Release_closed n key channel hk, ?_⟩, ⟨_, _, shiftLoop_run channel _⟩⟩
  · intro k' hne
    exact Function.update_noteq hne _ _
  · intro k' hne
    exact Function.update_noteq hne _ _

/-- C19 on the table `heldChord`: playing and releasing on key 60 leave key
61 empty. -/
theorem Play_Release_key_isolation_witness :
    (∃ (r : Nat) (n' : noteStacker), heldChord.Play 60 3 8 = some (r, n') ∧
      n' ⟨61, by decide⟩ = []) ∧
    (∃ (r : Nat) (n' : noteStacker), heldChord.Release 60 1 = some (r, n') ∧
      n' ⟨61, by decide⟩ = []) := by
  obtain ⟨⟨r, n', h, hiso⟩, ⟨r2, n2, h2, hiso2⟩, _⟩ :=
    Play_Release_key_isolation heldChord 60 3 8 (by decide)
  have := Play_Release_key_isolation heldChord 60 1 8 (by decide)
  obtain ⟨_, ⟨r3, n3, h3, hiso3⟩, _⟩ := this
  exact ⟨⟨r, n', h, by rw [hiso ⟨61, by decide⟩ (by decide)]; rfl⟩,
    ⟨r3, n3, h3, by rw [hiso3 ⟨61, by decide⟩ (by decide)]; rfl⟩⟩

/-! ## `send` in closed form -/

theorem scaleColor_lt (color velocity : Nat) : scaleColor color velocity < 2 ^ 24 := by
  unfold scaleColor
  exact Nat.or_lt_two_pow
    (Nat.or_lt_two_pow (Nat.and_lt_two_pow _ (by norm_num)) (Nat.and_lt_two_pow _ (by norm_num)))
    (Nat.and_lt_two_pow _ (by norm_num))

/-- The effect of a template always exists and fits in the three colour bytes. -/
theorem stringToEffect_lt (s : String) (velocity : Nat) :
    ∃ e, stringToEffect s velocity = some e ∧ e < 2 ^ 24 := by
  cases h : specTemplateInt s with
  | none => exact ⟨0, stringToEffect_of_other s velocity h, by norm_num⟩
  | some z => exact ⟨_, stringToEffect_of_template s velocity z h, scaleColor_lt _ _⟩

theorem SetZoneEffect_known (c : LEDController) (name : String) (effect : Nat) (a : ZoneIndex)
    (h : c.zoneCache name = some a) :
    c.SetZoneEffect name effect =
      ({ c with port := { c.port with calls := c.port.calls ++ [specEffectFrame a effect] } },
        c.port.fails c.port.calls.length) := by
  have e3 : (effect >>> 24) % 256 = effect / 2 ^ 24 % 256 := by
    rw [Nat.shiftRight_eq_div_pow]
  have e2 : ((effect >>> 16) &&& 0xFF) % 256 = effect / 2 ^ 16 % 256 := by
    rw [and_byte0, Nat.shiftRight_eq_div_pow, Nat.mod_mod]
  have e1 : ((effect >>> 8) &&& 0xFF) % 256 = effect / 2 ^ 8 % 256 := by
    rw [and_byte0, Nat.shiftRight_eq_div_pow, Nat.mod_mod]
  have e0 : (effect &&& 0xFF) % 256 = effect % 256 := by
    rw [and_byte0, Nat.mod_mod]
  simp only [LEDController.SetZoneEffect, h, LEDController.SetZoneEffectRaw, Port.Write, e3, e2,
    e1, e0, specEffectFrame]
  cases c.port.fails c.port.calls.length <;> rfl

theorem forward_known (l : LightPlayer) (c : LEDController) (name : String) (effect : Nat)
    (a : ZoneIndex) (hc : l.controller = some c) (h : c.zoneCache name = some a) :
    LightPlayer.forward l (some name) effect =
      ({ l with controller := some { c with port :=
          { c.port with calls := c.port.calls ++ [specEffectFrame a effect] } } },
        c.port.fails c.port.calls.length) := by
  simp only [LightPlayer.forward, hc, SetZoneEffect_known c name effect a h]
  cases c.port.fails c.port.calls.length <;> rfl

theorem send_noteOn (l : LightPlayer) (channel key velocity effect : Nat) (t : String)
    (hk : key < 128) (hch : l.mapping.Channels channel = some t)
    (he : stringToEffect t velocity = some effect) :
    l.send (Message.noteOn channel key velocity) =
      some (LightPlayer.forward
        { l with
          noteStatuses :=
            Function.update l.noteStatuses ⟨key, hk⟩
              (dropFirst channel (l.noteStatuses ⟨key, hk⟩) ++
                [{ channel := channel, effect := effect }]) }
        (l.mapping.Keys (noteName key)) effect) := by
  simp only [LightPlayer.send, hch, he, Play_closed l.noteStatuses key channel effect hk]

theorem send_noteOff (l : LightPlayer) (channel key velocity : Nat) (hk : key < 128) :
    l.send (Message.noteOff channel key velocity) =
      some (LightPlayer.forward
        { l with
          noteStatuses :=
            Function.update l.noteStatuses ⟨key, hk⟩
              (dropFirst channel (l.noteStatuses ⟨key, hk⟩)) }
        (l.mapping.Keys (noteName key))
        (((dropFirst channel (l.noteStatuses ⟨key, hk⟩)).getLast?.map noteStatus.effect).getD 0))
      := by
  simp only [LightPlayer.send, Release_closed l.noteStatuses key channel hk]

/-- One note-on on a mapped channel and a key whose zone is in the registry. -/
theorem noteOn_step (l : LightPlayer) (c : LEDController) (channel key velocity effect : Nat)
    (t zoneName : String) (a : ZoneIndex) (hk : key < 128) (hc : l.controller = some c)
    (hkey : l.mapping.Keys (noteName key) = some zoneName)
    (hzone : c.zoneCache zoneName = some a)
    (hch : l.mapping.Channels channel = some t)
    (he : stringToEffect t velocity = some effect) :
    ∃ (l' : LightPlayer) (r : Bool) (c' : LEDController),
      l.send (Message.noteOn channel key velocity) = some (l', r) ∧
      l'.mapping = l.mapping ∧ l'.controller = some c' ∧ c'.zoneCache = c.zoneCache ∧
      c'.port.calls = c.port.calls ++ [specEffectFrame a effect] ∧
      l'.noteStatuses ⟨key, hk⟩ =
        dropFirst channel (l.noteStatuses ⟨key, hk⟩) ++
          [{ channel := channel, effect := effect }] := by
  rw [send_noteOn l channel key velocity effect t hk hch he, hkey,
    forward_known _ c zoneName effect a]
  · exact ⟨_, _, _, rfl, rfl, rfl, rfl, rfl, Function.update_same _ _ _⟩
  · exact hc
  · exact hzone

/-- One note-off on a key whose zone is in the registry. -/
theorem noteOff_step (l : LightPlayer) (c : LEDController) (channel key velocity : Nat)
    (zoneName : String) (a : ZoneIndex) (hk : key < 128) (hc : l.controller = some c)
    (hkey : l.mapping.Keys (noteName key) = some zoneName)
    (hzone : c.zoneCache zoneName = some a) :
    ∃ (l' : LightPlayer) (r : Bool) (c' : LEDController),
      l.send (Message.noteOff channel key velocity) = some (l', r) ∧
      l'.mapping = l.mapping ∧ l'.controller = some c' ∧ c'.zoneCache = c.zoneCache ∧
      c'.port.calls = c.port.calls ++
        [specEffectFrame a
          (((dropFirst channel (l.noteStatuses ⟨key, hk⟩)).getLast?.map
            noteStatus.effect).getD 0)] ∧
      l'.noteStatuses ⟨key, hk⟩ = dropFirst channel (l.noteStatuses ⟨key, hk⟩) := by
  rw [send_noteOff l channel key velocity hk, hkey, forward_known _ c zoneName _ a]
  · exact ⟨_, _, _, rfl, rfl, rfl, rfl, rfl, Function.update_same _ _ _⟩
  · exact hc
  · exact hzone

/-! ## The dispatch contract -/

/-- C11: with nothing held on key `k < 128`, whose note name is mapped to a
zone of the registry at address `a`, and two distinct mapped channels `A` and
`B`: note-on `A`, note-on `B`, note-off `A`, note-off `B` on `k` all return,
and together they hand the port exactly four Set-effect frames for `a`,
carrying the effect computed for `A`, the effect computed for `B`, again the
effect of `B`, and 0. -/
theorem send_chord_four_frames (l : LightPlayer) (c : LEDController)
    (k A B vA vB wA wB : Nat) (tA tB zoneName : String) (a : ZoneIndex)
    (hk : k < 128) (hAB : A ≠ B) (hc : l.controller = some c)
    (hempty : l.noteStatuses = noteStacker.empty)
    (hkey : l.mapping.Keys (noteName k) = some zoneName)
    (hzone : c.zoneCache zoneName = some a)
    (hA : l.mapping.Channels A = some tA) (hB : l.mapping.Channels B = some tB) :
    ∃ (eA eB : Nat) (l1 l2 l3 l4 : LightPlayer) (r1 r2 r3 r4 : Bool) (c4 : LEDController),
      stringToEffect tA vA = some eA ∧ stringToEffect tB vB = some eB ∧
      eA < 2 ^ 32 ∧ eB < 2 ^ 32 ∧
      l.send (Message.noteOn A k vA) = some (l1, r1) ∧
      l1.send (Message.noteOn B k vB) = some (l2, r2) ∧
      l2.send (Message.noteOff A k wA) = some (l3, r3) ∧
      l3.send (Message.noteOff B k wB) = some (l4, r4) ∧
      l4.controller = some c4 ∧
      c4.port.calls = c.port.calls ++
        [specEffectFrame a eA, specEffectFrame a eB, specEffectFrame a eB,
          specEffectFrame a 0] ∧
      l4.noteStatuses ⟨k, hk⟩ = [] := by
  obtain ⟨eA, heA, hltA⟩ := stringToEffect_lt tA vA
  obtain ⟨eB, heB, hltB⟩ := stringToEffect_lt tB vB
  have h0 : l.noteStatuses ⟨k, hk⟩ = [] := by rw [hempty]; rfl
  obtain ⟨l1, r1, c1, s1, m1, hc1, z1, p1, n1⟩ :=
    noteOn_step l c A k vA eA tA zoneName a hk hc hkey hzone hA heA
  obtain ⟨l2, r2, c2, s2, m2, hc2, z2, p2, n2⟩ :=
    noteOn_step l1 c1 B k vB eB tB zoneName a hk hc1 (by rw [m1]; exact hkey)
      (by rw [z1]; exact hzone) (by rw [m1]; exact hB) heB
  obtain ⟨l3, r3, c3, s3, m3, hc3, z3, p3, n3⟩ :=
    noteOff_step l2 c2 A k wA zoneName a hk hc2 (by rw [m2, m1]; exact hkey)
      (by rw [z2, z1]; exact hzone)
  obtain ⟨l4, r4, c4, s4, m4, hc4, z4, p4, n4⟩ :=
    noteOff_step l3 c3 B k wB zoneName a hk hc3 (by rw [m3, m2, m1]; exact hkey)
      (by rw [z3, z2, z1]; exact hzone)
  have hne : ¬ A = B := hAB
  have hne' : ¬ B = A := fun e => hAB e.symm
  have e1 : l1.noteStatuses ⟨k, hk⟩ = [{ channel := A, effect := eA }] := by
    rw [n1, h0]; rfl
  have e2 : l2.noteStatuses ⟨k, hk⟩ =
      [{ channel := A, effect := eA }, { channel := B, effect := eB }] := by
    rw [n2, e1]; simp [dropFirst, hne]
  have e3 : l3.noteStatuses ⟨k, hk⟩ = [{ channel := B, effect := eB }] := by
    rw [n3, e2]; simp [dropFirst]
  have e4 : l4.noteStatuses ⟨k, hk⟩ = [] := by
    rw [n4, e3]; simp [dropFirst]
  refine ⟨eA, eB, l1, l2, l3, l4, r1, r2, r3, r4, c4, heA, heB, ?_, ?_, s1, s2, s3, s4, hc4,
    ?_, e4⟩
  · exact lt_trans hltA (by norm_num)
  · exact lt_trans hltB (by norm_num)
  · rw [p4, p3, p2, p1, e3, e2]
    simp [dropFirst]

/-- C11 on `chordPlayer`: key 60 (`C4`, zone `"mid"` at `(0, 1)`), channel 0
with red at velocity 64 and channel 1 with green at velocity 127. -/
theorem send_chord_four_frames_witness :
    ∃ (l1 l2 l3 l4 : LightPlayer) (r1 r2 r3 r4 : Bool) (c4 : LEDController),
      chordPlayer.send (Message.noteOn 0 60 64) = some (l1, r1) ∧
      l1.send (Message.noteOn 1 60 127) = some (l2, r2) ∧
      l2.send (Message.noteOff 0 60 0) = some (l3, r3) ∧
      l3.send (Message.noteOff 1 60 0) = some (l4, r4) ∧
      l4.controller = some c4 ∧
      c4.port.calls = (idleController.Configure gapConfig).1.port.calls ++
        [[69, 0, 1, 0, 0x7F, 0, 0], [69, 0, 1, 0, 0, 0xFD, 0], [69, 0, 1, 0, 0, 0xFD, 0],
          [69, 0, 1, 0, 0, 0, 0]] := by
  obtain ⟨eA, eB, l1, l2, l3, l4, r1, r2, r3, r4, c4, hA, hB, _, _, s1, s2, s3, s4, hc4, hp, _⟩ :=
    send_chord_four_frames chordPlayer (idleController.Configure gapConfig).1 60 0 1 64 127 0 0
      "0xFF0000" "0x00FF00" "mid" { Strip := 0, Zone := 1 } (by decide) (by decide) rfl rfl
      (by decide) (by decide) (by decide) (by decide)
  have hA' : eA = 0x7F0000 := by
    have : stringToEffect "0xFF0000" 64 = some 0x7F0000 := by decide
    rw [this] at hA
    exact (Option.some.inj hA).symm
  have hB' : eB = 0x00FD00 := by
    have : stringToEffect "0x00FF00" 127 = some 0x00FD00 := by decide
    rw [this] at hB
    exact (Option.some.inj hB).symm
  subst hA' hB'
  exact ⟨l1, l2, l3, l4, r1, r2, r3, r4, c4, s1, s2, s3, s4, hc4, by rw [hp]; decide⟩

/-- C12: a note-on whose channel is absent from the channels map returns
without an error and leaves the whole player as it was: nothing is handed to
the port and the note stack is unchanged. -/
theorem send_noteOn_unmapped_channel (l : LightPlayer) (channel key velocity : Nat)
    (h : l.mapping.Channels channel = none) :
    l.send (Message.noteOn channel key velocity) = some (l, false) := by
  simp only [LightPlayer.send, h]

/-- C12 on `strayPlayer`, whose channels map is empty. -/
theorem send_noteOn_unmapped_channel_witness :
    strayPlayer.send (Message.noteOn 5 60 100) = some (strayPlayer, false) :=
  send_noteOn_unmapped_channel strayPlayer 5 60 100 rfl

/-- C13 fails on the note-off branch: on `strayPlayer` channel 5 is absent from
the channels map, yet the note-off of channel 5 on key 60 hands the port the
frame `'E', 0, 1, 0, 0, 0, 0`. -/
theorem send_noteOff_unmapped_channel_writes :
    strayPlayer.mapping.Channels 5 = none ∧
    (strayPlayer.send (Message.noteOff 5 60 0)).map
        (fun r => (r.1.controller.map (fun c => c.port.calls), r.2)) =
      some (some ((idleController.Configure gapConfig).1.port.calls ++ [[69, 0, 1, 0, 0, 0, 0]]),
        false) := by
  decide

/-! ## The frames of `Configure`, position by position -/

theorem specZoneFrames_enum (i : Nat) (hi : i < 256) (zones : List ZoneConfig) (j : Nat)
    (hj : j + zones.length ≤ 256)
    (hl : ∀ zone ∈ zones, zone.On < 65536 ∧ zone.Off < 65536) :
    specZoneFrames i j zones =
      (zones.enumFrom j).flatMap (fun q => specFramesOfZone i q.1 q.2) := by
  induction zones generalizing j with
  | nil => rfl
  | cons zone rest ih =>
    have hz := hl zone (List.mem_cons_self _ _)
    have hj' : j < 256 := by simp only [List.length_cons] at hj; omega
    have e1 : zone.Off >>> 8 = zone.Off / 256 % 256 := by
      rw [Nat.shiftRight_eq_div_pow]; omega
    have e2 : zone.Off &&& 0xFF = zone.Off % 256 := and_byte0 _
    have e3 : zone.On >>> 8 = zone.On / 256 % 256 := by
      rw [Nat.shiftRight_eq_div_pow]; omega
    have e4 : zone.On &&& 0xFF = zone.On % 256 := and_byte0 _
    have ih' := ih (j + 1) (by simp only [List.length_cons] at hj; omega)
      (fun z hz' => hl z (List.mem_cons_of_mem _ hz'))
    have hhead : specFramesOfZone i j zone =
        (if zone.Name = "" then []
         else
          (if zone.Off > 0 then
            [[68, i % 256, j % 256, zone.Off / 256 % 256, zone.Off % 256]]
           else []) ++
          [[76, i % 256, j % 256, zone.On / 256 % 256, zone.On % 256]]) := by
      simp only [specFramesOfZone, Nat.mod_eq_of_lt hi, Nat.mod_eq_of_lt hj', e1, e2, e3, e4]
      rfl
    rw [List.enumFrom_cons, List.flatMap_cons, ← ih', hhead]
    rfl

theorem specStripFrames_enum (strips : List StripConfig) (i : Nat)
    (hi : i + strips.length ≤ 256)
    (hz : ∀ strip ∈ strips, strip.Zones.length ≤ 256)
    (hl : ∀ strip ∈ strips, ∀ zone ∈ strip.Zones, zone.On < 65536 ∧ zone.Off < 65536) :
    specStripFrames i strips =
      (strips.enumFrom i).flatMap
        (fun p => p.2.Zones.enum.flatMap (fun q => specFramesOfZone p.1 q.1 q.2)) := by
  induction strips generalizing i with
  | nil => rfl
  | cons strip rest ih =>
    have hi' : i < 256 := by simp only [List.length_cons] at hi; omega
    have ih' := ih (i + 1) (by simp only [List.length_cons] at hi; omega)
      (fun s hs => hz s (List.mem_cons_of_mem _ hs))
      (fun s hs => hl s (List.mem_cons_of_mem _ hs))
    have h0 := specZoneFrames_enum i hi' strip.Zones 0
      (by have := hz strip (List.mem_cons_self _ _); omega)
      (hl strip (List.mem_cons_self _ _))
    simp only [specStripFrames, List.enumFrom_cons, List.flatMap_cons, ih', h0, List.enum]

theorem specFramesOfZone_bytes (i j : Nat) (zone : ZoneConfig) (hi : i < 256) (hj : j < 256)
    (hl : zone.On < 65536 ∧ zone.Off < 65536) :
    ∀ f ∈ specFramesOfZone i j zone, f.length = 5 ∧ ∀ b ∈ f, b < 256 := by
  have e1 : zone.Off >>> 8 < 256 := by rw [Nat.shiftRight_eq_div_pow]; omega
  have e2 : zone.Off &&& 0xFF < 256 := by rw [and_byte0]; omega
  have e3 : zone.On >>> 8 < 256 := by rw [Nat.shiftRight_eq_div_pow]; omega
  have e4 : zone.On &&& 0xFF < 256 := by rw [and_byte0]; omega
  intro f hf
  unfold specFramesOfZone at hf
  by_cases hn : zone.Name = ""
  · simp [hn] at hf
  · by_cases ho : zone.Off > 0
    · simp only [hn, ho, if_false, if_true, List.singleton_append, List.mem_cons,
        List.mem_singleton, List.not_mem_nil, or_false] at hf
      rcases hf with rfl | rfl
      · refine ⟨rfl, ?_⟩
        intro b hb
        simp only [List.mem_cons, List.mem_singleton, List.not_mem_nil, or_false] at hb
        rcases hb with rfl | rfl | rfl | rfl | rfl
        · decide
        · exact hi
        · exact hj
        · exact e1
        · exact e2
      · refine ⟨rfl, ?_⟩
        intro b hb
        simp only [List.mem_cons, List.mem_singleton, List.not_mem_nil, or_false] at hb
        rcases hb with rfl | rfl | rfl | rfl | rfl
        · decide
        · exact hi
        · exact hj
        · exact e3
        · exact e4
    · simp only [hn, ho, if_false, List.nil_append, List.mem_singleton] at hf
      subst hf
      refine ⟨rfl, ?_⟩
      intro b hb
      simp only [List.mem_cons, List.mem_singleton, List.not_mem_nil, or_false] at hb
      rcases hb with rfl | rfl | rfl | rfl | rfl
      · decide
      · exact hi
      · exact hj
      · exact e3
      · exact e4

/-- C18: for a configuration with at most 256 strips and at most 256 zones per
strip (and 16-bit levels), on a port that fails none of the writes of the call
(as many as there are frames to write), `Configure` returns no error and writes
exactly: the one-byte Reset frame `'R'`; then, strip after strip and zone after
zone, for each zone with a name the frame `'D', i, j, off >> 8, off & 0xFF` if
and only if `off > 0`, immediately followed by the frame
`'L', i, j, on >> 8, on & 0xFF`, with `(i, j)` the position of the zone.  Zones
without a name give no frame, nothing else is written, and every frame of a
zone consists of five bytes. -/
theorem Configure_writes_exactly (c : LEDController) (config : Config)
    (hf : c.port.accepts (specConfigureFrames config).length)
    (hs : config.Strips.length ≤ 256)
    (hz : ∀ strip ∈ config.Strips, strip.Zones.length ≤ 256)
    (hl : ∀ strip ∈ config.Strips, ∀ zone ∈ strip.Zones, zone.On < 65536 ∧ zone.Off < 65536) :
    (c.Configure config).2 = false ∧
    (c.Configure config).1.port.calls = c.port.calls ++ specConfigureFrames config ∧
    (∀ (i j : Nat) (zone : ZoneConfig), zoneAt config i j = some zone →
      ∀ f ∈ specFramesOfZone i j zone, f.length = 5 ∧ ∀ b ∈ f, b < 256) := by
  have heq : [82] :: specStripFrames 0 config.Strips = specConfigureFrames config := by
    rw [specStripFrames_enum config.Strips 0 (by omega) hz hl]
    rfl
  have hf' : c.port.accepts (1 + (specStripFrames 0 config.Strips).length) := by
    rw [← heq, List.length_cons, Nat.add_comm] at hf
    exact hf
  refine ⟨?_, ?_, ?_⟩
  · rw [Configure_ok c config hf']
  · rw [Configure_ok c config hf']
    show c.port.calls ++ [82] :: specStripFrames 0 config.Strips = _
    rw [heq]
  · intro i j zone hzone
    obtain ⟨strip, hi, hj⟩ := (zoneAt_eq_some config i j zone).1 hzone
    have hi' : i < config.Strips.length := (List.getElem?_eq_some.1 hi).1
    have hj' : j < strip.Zones.length := (List.getElem?_eq_some.1 hj).1
    have hmem : strip ∈ config.Strips := List.mem_iff_getElem?.2 ⟨i, hi⟩
    have hzm : zone ∈ strip.Zones := List.mem_iff_getElem?.2 ⟨j, hj⟩
    have := hz strip hmem
    exact specFramesOfZone_bytes i j zone (by omega) (by omega) (hl strip hmem zone hzm)

/-- C18 on `twoStripConfig`: Reset; `'D'` and `'L'` of zone `(0, 0)`; `'L'`
alone of zone `(0, 2)`, whose off level is 0; `'D'` and `'L'` of zone `(1, 1)`;
nothing for the two zones without a name. -/
theorem Configure_writes_exactly_witness :
    (idleController.Configure twoStripConfig).2 = false ∧
    (idleController.Configure twoStripConfig).1.port.calls =
      [[82], [68, 0, 0, 3, 4], [76, 0, 0, 1, 2], [76, 0, 2, 255, 255],
        [68, 1, 1, 8, 0], [76, 1, 1, 0, 7]] := by
  have h := Configure_writes_exactly idleController twoStripConfig (fun _ _ _ => rfl)
    (by decide) (by decide) (by decide)
  refine ⟨h.1, ?_⟩
  rw [h.2.1]
  decide

/-! ## `slices.SortFunc` permutes -/

section SortingPerm

variable {α : Type}

theorem set_head_perm (d y : α) (ds : List α) (j : Nat) (h : ds[j]? = some y) :
    (y :: ds.set j d).Perm (d :: ds) := by
  induction ds generalizing j with
  | nil => simp at h
  | cons e es ih =>
    cases j with
    | zero =>
      simp only [List.getElem?_cons_zero, Option.some.injEq] at h
      subst h
      exact List.Perm.swap _ _ _
    | succ j =>
      simp only [List.getElem?_cons_succ] at h
      simp only [List.set_cons_succ]
      exact ((List.Perm.swap e y _).trans ((ih j h).cons e)).trans (List.Perm.swap d e es)

/-- A swap of two positions permutes the slice. -/
theorem swapAt_perm (data : List α) (i j : Nat) : (swapAt data i j).Perm data := by
  induction data generalizing i j with
  | nil => simp [swapAt]
  | cons d ds ih =>
    cases i with
    | zero =>
      cases j with
      | zero => simp [swapAt]
      | succ j =>
        cases h : ds[j]? with
        | none => simp [swapAt, h]
        | some y =>
          simp only [swapAt, List.getElem?_cons_zero, List.getElem?_cons_succ, h,
            List.set_cons_zero, List.set_cons_succ]
          exact set_head_perm d y ds j h
    | succ i =>
      cases j with
      | zero =>
        cases h : ds[i]? with
        | none => simp [swapAt, h]
        | some x =>
          simp only [swapAt, List.getElem?_cons_zero, List.getElem?_cons_succ, h,
            List.set_cons_zero, List.set_cons_succ]
          exact set_head_perm d x ds i h
      | succ j =>
        have hrec := ih i j
        unfold swapAt at hrec ⊢
        simp only [List.getElem?_cons_succ]
        cases hi : ds[i]? with
        | none => simp
        | some x =>
          cases hj : ds[j]? with
          | none => simp
          | some y =>
            simp only [hi, hj, List.set_cons_succ] at hrec ⊢
            exact hrec.cons d

theorem insertDown_perm (cmp : α → α → Int) (a j : Nat) (data : List α) :
    (insertDown cmp a j data).Perm data := by
  induction j generalizing data with
  | zero => exact List.Perm.refl _
  | succ j ih =>
    unfold insertDown
    try simp only []
    split_ifs <;>
    (repeat first
      | exact List.Perm.refl _
      | refine (swapAt_perm _ _ _).trans ?_
      | refine (ih _).trans ?_)

theorem insertionLoop_perm (cmp : α → α → Int) (a b todo i : Nat) (data : List α) :
    (insertionLoop cmp a b todo i data).Perm data := by
  induction todo generalizing i data with
  | zero => exact List.Perm.refl _
  | succ todo ih =>
    unfold insertionLoop
    try simp only []
    split_ifs <;>
    (repeat first
      | exact List.Perm.refl _
      | refine (swapAt_perm _ _ _).trans ?_
      | refine (ih _ _).trans ?_
      | refine (insertDown_perm _ _ _ _).trans ?_)

theorem insertionSortCmpFunc_perm (cmp : α → α → Int) (data : List α) (a b : Nat) :
    (insertionSortCmpFunc cmp data a b).Perm data := by
  unfold insertionSortCmpFunc
  (repeat first
    | exact List.Perm.refl _
    | refine (swapAt_perm _ _ _).trans ?_
    | refine (insertionLoop_perm _ _ _ _ _ _).trans ?_)

theorem siftDownCmpFunc_perm (cmp : α → α → Int) (hi first todo root : Nat) (data : List α) :
    (siftDownCmpFunc cmp hi first todo root data).Perm data := by
  induction todo generalizing root data with
  | zero => exact List.Perm.refl _
  | succ todo ih =>
    unfold siftDownCmpFunc
    try simp only []
    split_ifs <;>
    (repeat first
      | exact List.Perm.refl _
      | refine (swapAt_perm _ _ _).trans ?_
      | refine (ih _ _).trans ?_)

theorem heapBuild_perm (cmp : α → α → Int) (hi first i : Nat) (data : List α) :
    (heapBuild cmp hi first i data).Perm data := by
  induction i generalizing data with
  | zero => exact siftDownCmpFunc_perm _ _ _ _ _ _
  | succ i ih =>
    unfold heapBuild
    exact (ih _).trans (siftDownCmpFunc_perm _ _ _ _ _ _)

theorem heapPop_perm (cmp : α → α → Int) (first i : Nat) (data : List α) :
    (heapPop cmp first i data).Perm data := by
  induction i generalizing data with
  | zero => exact List.Perm.refl _
  | succ i ih =>
    unfold heapPop
    exact ((ih _).trans (siftDownCmpFunc_perm _ _ _ _ _ _)).trans (swapAt_perm _ _ _)

theorem heapSortCmpFunc_perm (cmp : α → α → Int) (data : List α) (a b : Nat) :
    (heapSortCmpFunc cmp data a b).Perm data :=
  (heapPop_perm _ _ _ _).trans (heapBuild_perm _ _ _ _ _)

theorem breakLoop_perm (a length modulus idx todo random : Nat) (data : List α) :
    (breakLoop a length modulus idx todo random data).Perm data := by
  induction todo generalizing random data with
  | zero => exact List.Perm.refl _
  | succ todo ih =>
    unfold breakLoop
    exact (ih _ _).trans (swapAt_perm _ _ _)

theorem breakPatternsCmpFunc_perm (data : List α) (a b : Nat) :
    (breakPatternsCmpFunc data a b).Perm data := by
  unfold breakPatternsCmpFunc
  try simp only []
  split_ifs <;>
  (repeat first
    | exact List.Perm.refl _
    | refine (swapAt_perm _ _ _).trans ?_
    | refine (breakLoop_perm _ _ _ _ _ _ _).trans ?_)

theorem reverseLoop_perm (todo i j : Nat) (data : List α) :
    (reverseLoop todo i j data).Perm data := by
  induction todo generalizing i j data with
  | zero => exact List.Perm.refl _
  | succ todo ih =>
    unfold reverseLoop
    try simp only []
    split_ifs <;>
    (repeat first
      | exact List.Perm.refl _
      | refine (swapAt_perm _ _ _).trans ?_
      | refine (ih _ _ _).trans ?_)

theorem reverseRangeCmpFunc_perm (data : List α) (a b : Nat) :
    (reverseRangeCmpFunc data a b).Perm data := by
  unfold reverseRangeCmpFunc
  (repeat first
    | exact List.Perm.refl _
    | refine (swapAt_perm _ _ _).trans ?_
    | refine (reverseLoop_perm _ _ _ _).trans ?_)

theorem shiftSmaller_perm (cmp : α → α → Int) (j : Nat) (data : List α) :
    (shiftSmaller cmp j data).Perm data := by
  induction j generalizing data with
  | zero => exact List.Perm.refl _
  | succ j ih =>
    unfold shiftSmaller
    try simp only []
    split_ifs <;>
    (repeat first
      | exact List.Perm.refl _
      | refine (swapAt_perm _ _ _).trans ?_
      | refine (ih _).trans ?_)

theorem shiftGreater_perm (cmp : α → α → Int) (b todo j : Nat) (data : List α) :
    (shiftGreater cmp b todo j data).Perm data := by
  induction todo generalizing j data with
  | zero => exact List.Perm.refl _
  | succ todo ih =>
    unfold shiftGreater
    try simp only []
    split_ifs <;>
    (repeat first
      | exact List.Perm.refl _
      | refine (swapAt_perm _ _ _).trans ?_
      | refine (ih _ _).trans ?_)

theorem partialInsertionLoop_perm (cmp : α → α → Int) (a b steps i : Nat) (data : List α) :
    (partialInsertionLoop cmp a b steps i data).1.Perm data := by
  induction steps generalizing i data with
  | zero => exact List.Perm.refl _
  | succ steps ih =>
    unfold partialInsertionLoop
    try simp only []
    split_ifs <;>
    (repeat first
      | exact List.Perm.refl _
      | refine (swapAt_perm _ _ _).trans ?_
      | refine (ih _ _).trans ?_
      | refine (shiftGreater_perm _ _ _ _ _).trans ?_
      | refine (shiftSmaller_perm _ _ _).trans ?_)

theorem partialInsertionSortCmpFunc_perm (cmp : α → α → Int) (data : List α) (a b : Nat) :
    (partialInsertionSortCmpFunc cmp data a b).1.Perm data := by
  unfold partialInsertionSortCmpFunc
  (repeat first
    | exact List.Perm.refl _
    | refine (swapAt_perm _ _ _).trans ?_
    | refine (partialInsertionLoop_perm _ _ _ _ _ _).trans ?_)

theorem partitionLoop_perm (cmp : α → α → Int) (a todo i jn : Nat) (data : List α) :
    (partitionLoop cmp a todo i jn data).1.Perm data := by
  induction todo generalizing i jn data with
  | zero => exact List.Perm.refl _
  | succ todo ih =>
    unfold partitionLoop
    try simp only []
    split_ifs <;>
    (repeat first
      | exact List.Perm.refl _
      | refine (swapAt_perm _ _ _).trans ?_
      | refine (ih _ _ _).trans ?_)

theorem partitionCmpFunc_perm (cmp : α → α → Int) (data : List α) (a b pivot : Nat) :
    (partitionCmpFunc cmp data a b pivot).1.Perm data := by
  unfold partitionCmpFunc
  try simp only []
  split_ifs <;>
  (repeat first
    | exact List.Perm.refl _
    | refine (swapAt_perm _ _ _).trans ?_
    | refine (partitionLoop_perm _ _ _ _ _ _).trans ?_)

theorem partitionEqualLoop_perm (cmp : α → α → Int) (a todo i jn : Nat) (data : List α) :
    (partitionEqualLoop cmp a todo i jn data).1.Perm data := by
  induction todo generalizing i jn data with
  | zero => exact List.Perm.refl _
  | succ todo ih =>
    unfold partitionEqualLoop
    try simp only []
    split_ifs <;>
    (repeat first
      | exact List.Perm.refl _
      | refine (swapAt_perm _ _ _).trans ?_
      | refine (ih _ _ _).trans ?_)

theorem partitionEqualCmpFunc_perm (cmp : α → α → Int) (data : List α) (a b pivot : Nat) :
    (partitionEqualCmpFunc cmp data a b pivot).1.Perm data := by
  unfold partitionEqualCmpFunc
  (repeat first
    | exact List.Perm.refl _
    | refine (swapAt_perm _ _ _).trans ?_
    | refine (partitionEqualLoop_perm _ _ _ _ _ _).trans ?_)

theorem pdqsortCmpFunc_perm (cmp : α → α → Int) (todo : Nat) (data : List α)
    (a b limit : Nat) (wasBalanced wasPartitioned : Bool) :
    (pdqsortCmpFunc cmp todo data a b limit wasBalanced wasPartitioned).Perm data := by
  induction todo generalizing data a b limit wasBalanced wasPartitioned with
  | zero => exact List.Perm.refl _
  | succ todo ih =>
    unfold pdqsortCmpFunc
    lift_lets
    extract_lets length d1 limit1 ph d2 pivot hint tryPartial pr d3 pe pt mid leftLen rightLen
      balanceThreshold
    have hd1 : d1.Perm data := by
      simp only [d1]
      split
      · exact breakPatternsCmpFunc_perm _ _ _
      · exact List.Perm.refl _
    have hd2 : d2.Perm data := by
      simp only [d2]
      split
      · exact (reverseRangeCmpFunc_perm _ _ _).trans hd1
      · exact hd1
    have hpr : pr.1.Perm data := by
      simp only [pr]
      split
      · exact (partialInsertionSortCmpFunc_perm _ _ _ _).trans hd2
      · exact hd2
    have hd3 : d3.Perm data := hpr
    have hpe : pe.1.Perm data := (partitionEqualCmpFunc_perm _ _ _ _ _).trans hd3
    have hpt : pt.1.Perm data := (partitionCmpFunc_perm _ _ _ _ _).trans hd3
    split
    · exact insertionSortCmpFunc_perm _ _ _ _
    · split
      · exact heapSortCmpFunc_perm _ _ _ _
      · split
        · exact hpr
        · split
          · exact (ih _ _ _ _ _ _).trans hpe
          · split
            · exact ((ih _ _ _ _ _ _).trans (ih _ _ _ _ _ _)).trans hpt
            · exact ((ih _ _ _ _ _ _).trans (ih _ _ _ _ _ _)).trans hpt

/-- `slices.SortFunc` returns a permutation of the slice. -/
theorem SortFunc_perm (x : List α) (cmp : α → α → Int) : (SortFunc x cmp).Perm x :=
  pdqsortCmpFunc_perm _ _ _ _ _ _ _ _

end SortingPerm

/-! ## `slices.SortFunc` sorts

The comparison function is taken to order the elements by an integer key:
`cmp x y < 0` exactly when `key x < key y`. -/

section SortingOrder

variable {α : Type} (key : α → Int) (cmp : α → α → Int)

theorem keyAt_of_lt (d : List α) (i : Nat) (h : i < d.length) :
    keyAt key d i = key (d.get ⟨i, h⟩) := by
  unfold keyAt
  rw [List.getElem?_eq_getElem h]
  rfl

theorem lessAt_eq (hcmp : ∀ x y, cmp x y < 0 ↔ key x < key y) (d : List α) (i j : Nat)
    (hi : i < d.length) (hj : j < d.length) :
    lessAt cmp d i j = decide (keyAt key d i < keyAt key d j) := by
  unfold lessAt keyAt
  rw [List.getElem?_eq_getElem hi, List.getElem?_eq_getElem hj]
  simp only [hcmp]

theorem lessAt_true_iff (hcmp : ∀ x y, cmp x y < 0 ↔ key x < key y) (d : List α) (i j : Nat)
    (hi : i < d.length) (hj : j < d.length) :
    lessAt cmp d i j = true ↔ keyAt key d i < keyAt key d j := by
  rw [lessAt_eq key cmp hcmp d i j hi hj]
  simp

theorem lessAt_false_iff (hcmp : ∀ x y, cmp x y < 0 ↔ key x < key y) (d : List α) (i j : Nat)
    (hi : i < d.length) (hj : j < d.length) :
    lessAt cmp d i j = false ↔ keyAt key d j ≤ keyAt key d i := by
  rw [lessAt_eq key cmp hcmp d i j hi hj]
  simp

theorem swapAt_length (d : List α) (i j : Nat) : (swapAt d i j).length = d.length := by
  unfold swapAt
  split <;> simp

theorem keyAt_swapAt (d : List α) (i j k : Nat) (hi : i < d.length) (hj : j < d.length) :
    keyAt key (swapAt d i j) k =
      if k = j then keyAt key d i else if k = i then keyAt key d j else keyAt key d k := by
  unfold swapAt keyAt
  rw [List.getElem?_eq_getElem hi, List.getElem?_eq_getElem hj]
  simp only [List.getElem?_set, List.length_set]
  by_cases h1 : k = j
  · subst h1
    simp [hj]
  · by_cases h2 : k = i
    · subst h2
      simp [hi, Ne.symm h1, h1]
    · simp [h1, h2, Ne.symm h1, Ne.symm h2]

theorem keyAt_swapAt_right (d : List α) (i j : Nat) (hi : i < d.length) (hj : j < d.length) :
    keyAt key (swapAt d i j) j = keyAt key d i := by
  rw [keyAt_swapAt key d i j j hi hj, if_pos rfl]

theorem keyAt_swapAt_left (d : List α) (i j : Nat) (hi : i < d.length) (hj : j < d.length) :
    keyAt key (swapAt d i j) i = keyAt key d j := by
  rw [keyAt_swapAt key d i j i hi hj]
  by_cases h : i = j
  · rw [if_pos h, h]
  · rw [if_neg h, if_pos rfl]

theorem keyAt_swapAt_other (d : List α) (i j k : Nat) (hi : i < d.length) (hj : j < d.length)
    (h1 : k ≠ i) (h2 : k ≠ j) : keyAt key (swapAt d i j) k = keyAt key d k := by
  rw [keyAt_swapAt key d i j k hi hj, if_neg h2, if_neg h1]

theorem within_refl (a b : Nat) (d : List α) : Within key a b d d :=
  ⟨rfl, fun _ _ => rfl, fun i h1 h2 => ⟨i, h1, h2, rfl⟩⟩

theorem within_trans {a b : Nat} {d d' d'' : List α} (h1 : Within key a b d d')
    (h2 : Within key a b d' d'') : Within key a b d d'' := by
  refine ⟨h2.1.trans h1.1, fun i hi => (h2.2.1 i hi).trans (h1.2.1 i hi), ?_⟩
  intro i hi1 hi2
  obtain ⟨j, hj1, hj2, hj⟩ := h2.2.2 i hi1 hi2
  obtain ⟨k, hk1, hk2, hk⟩ := h1.2.2 j hj1 hj2
  exact ⟨k, hk1, hk2, hj.trans hk⟩

theorem within_mono {a b a' b' : Nat} {d d' : List α} (h : Within key a b d d')
    (ha : a' ≤ a) (hb : b ≤ b') : Within key a' b' d d' := by
  refine ⟨h.1, fun i hi => h.2.1 i (by omega), ?_⟩
  intro i hi1 hi2
  by_cases hin : a ≤ i ∧ i < b
  · obtain ⟨j, hj1, hj2, hj⟩ := h.2.2 i hin.1 hin.2
    exact ⟨j, by omega, by omega, hj⟩
  · exact ⟨i, hi1, hi2, h.2.1 i (by omega)⟩

theorem within_swapAt (a b : Nat) (d : List α) (i j : Nat) (hb : b ≤ d.length)
    (hi1 : a ≤ i) (hi2 : i < b) (hj1 : a ≤ j) (hj2 : j < b) :
    Within key a b d (swapAt d i j) := by
  have hi : i < d.length := by omega
  have hj : j < d.length := by omega
  refine ⟨swapAt_length d i j, ?_, ?_⟩
  · intro k hk
    exact keyAt_swapAt_other key d i j k hi hj (by omega) (by omega)
  · intro k hk1 hk2
    rw [keyAt_swapAt key d i j k hi hj]
    by_cases h1 : k = j
    · exact ⟨i, hi1, hi2, by rw [if_pos h1]⟩
    · by_cases h2 : k = i
      · exact ⟨j, hj1, hj2, by rw [if_neg h1, if_pos h2]⟩
      · exact ⟨k, hk1, hk2, by rw [if_neg h1, if_neg h2]⟩

/-- A bound that holds for every key of `d` inside `[a, b)` holds for every key
of `d'` inside `[a, b)`. -/
theorem within_forall {a b : Nat} {d d' : List α} (h : Within key a b d d') (P : Int → Prop)
    (hP : ∀ x, a ≤ x → x < b → P (keyAt key d x)) :
    ∀ x, a ≤ x → x < b → P (keyAt key d' x) := by
  intro x hx1 hx2
  obtain ⟨j, hj1, hj2, hj⟩ := h.2.2 x hx1 hx2
  rw [hj]
  exact hP j hj1 hj2

theorem lowerBound_within {a b : Nat} {d d' : List α} (h : Within key a b d d')
    (hl : LowerBound key a b d) : LowerBound key a b d' := by
  intro ha x hx1 hx2
  rw [h.2.1 (a - 1) (by omega)]
  exact within_forall key h (fun v => keyAt key d (a - 1) ≤ v) (hl ha) x hx1 hx2

theorem sortedOn_mono {a b a' b' : Nat} {d : List α} (h : SortedOn key a b d)
    (ha : a ≤ a') (hb : b' ≤ b) : SortedOn key a' b' d :=
  fun i j h1 h2 h3 => h i j (by omega) h2 (by omega)

/-! ### Insertion sort -/

theorem insertInv_done (a i j : Nat) (d : List α) (h : InsertInv key a i j d)
    (hj : j ≤ i) (hstop : j ≤ a ∨ keyAt key d (j - 1) ≤ keyAt key d j) :
    SortedOn key a (i + 1) d := by
  intro p q hp hpq hq
  rcases Nat.eq_or_lt_of_le hpq with rfl | hlt
  · exact le_refl _
  · by_cases hpj : p = j
    · subst hpj
      exact h.2 q hlt (by omega)
    · by_cases hqj : q = j
      · subst hqj
        rcases hstop with hs | hs
        · omega
        · by_cases hp1 : p = q - 1
          · rw [hp1]
            exact hs
          · exact le_trans (h.1 p (q - 1) hp (by omega) (by omega) hpj (by omega)) hs
      · exact h.1 p q hp hlt (by omega) hpj hqj

theorem insertInv_step (a i j : Nat) (d : List α) (h : InsertInv key a i (j + 1) d)
    (ha : a ≤ j) (hj : j + 1 ≤ i) (hi : i < d.length)
    (hlt : keyAt key d (j + 1) < keyAt key d j) :
    InsertInv key a i j (swapAt d (j + 1) j) := by
  have e1 : keyAt key (swapAt d (j + 1) j) j = keyAt key d (j + 1) :=
    keyAt_swapAt_right key d (j + 1) j (by omega) (by omega)
  have e2 : keyAt key (swapAt d (j + 1) j) (j + 1) = keyAt key d j :=
    keyAt_swapAt_left key d (j + 1) j (by omega) (by omega)
  have e3 : ∀ k, k ≠ j + 1 → k ≠ j → keyAt key (swapAt d (j + 1) j) k = keyAt key d k :=
    fun k h1 h2 => keyAt_swapAt_other key d (j + 1) j k (by omega) (by omega) h1 h2
  constructor
  · intro p q hp hpq hq hpj hqj
    by_cases hq1 : q = j + 1
    · subst hq1
      rw [e2, e3 p (by omega) hpj]
      exact h.1 p j hp (by omega) (by omega) (by omega) (by omega)
    · by_cases hp1 : p = j + 1
      · subst hp1
        rw [e2, e3 q hq1 hqj]
        exact h.1 j q ha (by omega) hq (by omega) (by omega)
      · rw [e3 p hp1 hpj, e3 q hq1 hqj]
        exact h.1 p q hp hpq hq hp1 hq1
  · intro q hjq hq
    rw [e1]
    by_cases hq1 : q = j + 1
    · subst hq1
      rw [e2]
      exact le_of_lt hlt
    · rw [e3 q hq1 (by omega)]
      exact h.2 q (by omega) hq

theorem insertDown_sorted (hcmp : ∀ x y, cmp x y < 0 ↔ key x < key y) (lo a i : Nat)
    (hlo : lo ≤ a) :
    ∀ (j : Nat) (d : List α), a ≤ j → j ≤ i → i < d.length → InsertInv key a i j d →
      (lo = a ∨ LowerBound key a (i + 1) d) →
      Within key a (i + 1) d (insertDown cmp lo j d) ∧
        SortedOn key a (i + 1) (insertDown cmp lo j d) := by
  intro j
  induction j with
  | zero =>
    intro d ha hj hi hinv _
    rw [insertDown]
    exact ⟨within_refl key _ _ d, insertInv_done key a i 0 d hinv hj (Or.inl (by omega))⟩
  | succ j ih =>
    intro d ha hj hi hinv hbar
    rw [insertDown]
    by_cases hc : lo < j + 1 ∧ lessAt cmp d (j + 1) j = true
    · rw [if_pos hc]
      have hlt := (lessAt_true_iff key cmp hcmp d (j + 1) j (by omega) (by omega)).1 hc.2
      by_cases haj : a ≤ j
      · have hw : Within key a (i + 1) d (swapAt d (j + 1) j) :=
          within_swapAt key a (i + 1) d (j + 1) j (by omega) (by omega) (by omega) haj
            (by omega)
        have hstep := insertInv_step key a i j d hinv haj hj hi hlt
        have hbar' : lo = a ∨ LowerBound key a (i + 1) (swapAt d (j + 1) j) := by
          rcases hbar with h | h
          · exact Or.inl h
          · exact Or.inr (lowerBound_within key hw h)
        have hlen : i < (swapAt d (j + 1) j).length := by rw [swapAt_length]; exact hi
        obtain ⟨h1, h2⟩ := ih (swapAt d (j + 1) j) haj (by omega) hlen hstep hbar'
        exact ⟨within_trans key hw h1, h2⟩
      · exfalso
        have haj' : a = j + 1 := by omega
        rcases hbar with h | h
        · omega
        · have := h (by omega) (j + 1) (by omega) (by omega)
          rw [haj'] at this
          simp only [Nat.add_sub_cancel] at this
          omega
    · rw [if_neg hc]
      refine ⟨within_refl key _ _ d, insertInv_done key a i (j + 1) d hinv hj ?_⟩
      by_cases h1 : lo < j + 1
      · right
        have h2 : lessAt cmp d (j + 1) j = false := by
          cases h : lessAt cmp d (j + 1) j
          · rfl
          · exact absurd ⟨h1, h⟩ hc
        simpa using (lessAt_false_iff key cmp hcmp d (j + 1) j (by omega) (by omega)).1 h2
      · left
        omega

theorem insertInv_start (a i : Nat) (d : List α) (h : SortedOn key a i d) :
    InsertInv key a i i d :=
  ⟨fun p q hp hpq hq _ hqi => h p q hp (by omega) (by omega), fun q h1 h2 => by omega⟩

theorem insertionLoop_sorted (hcmp : ∀ x y, cmp x y < 0 ↔ key x < key y) (a b : Nat) :
    ∀ (todo i : Nat) (d : List α), a ≤ i → b ≤ d.length → b ≤ i + todo → SortedOn key a i d →
      Within key a b d (insertionLoop cmp a b todo i d) ∧
        SortedOn key a b (insertionLoop cmp a b todo i d) := by
  intro todo
  induction todo with
  | zero =>
    intro i d _ _ hfuel hs
    rw [insertionLoop]
    exact ⟨within_refl key _ _ d, sortedOn_mono key hs (Nat.le_refl _) (by omega)⟩
  | succ todo ih =>
    intro i d ha hb hfuel hs
    rw [insertionLoop]
    by_cases hi : i < b
    · rw [if_pos hi]
      obtain ⟨h1, h2⟩ := insertDown_sorted key cmp hcmp a a i (Nat.le_refl _) i d ha
        (Nat.le_refl _) (by omega) (insertInv_start key a i d hs) (Or.inl rfl)
      obtain ⟨h3, h4⟩ := ih (i + 1) (insertDown cmp a i d) (by omega) (by rw [h1.1]; exact hb)
        (by omega) h2
      exact ⟨within_trans key (within_mono key h1 (Nat.le_refl _) (by omega)) h3, h4⟩
    · rw [if_neg hi]
      exact ⟨within_refl key _ _ d, sortedOn_mono key hs (Nat.le_refl _) (by omega)⟩

theorem insertionSortCmpFunc_sorted (hcmp : ∀ x y, cmp x y < 0 ↔ key x < key y)
    (d : List α) (a b : Nat) (hb : b ≤ d.length) :
    Within key a b d (insertionSortCmpFunc cmp d a b) ∧
      SortedOn key a b (insertionSortCmpFunc cmp d a b) := by
  unfold insertionSortCmpFunc
  apply insertionLoop_sorted key cmp hcmp a b (b - a) (a + 1) d (by omega) hb (by omega)
  intro i j h1 h2 h3
  have : i = j := by omega
  rw [this]

theorem shiftSmaller_eq (j : Nat) (d : List α) :
    shiftSmaller cmp j d = insertDown cmp 0 j d := by
  induction j generalizing d with
  | zero => rw [shiftSmaller, insertDown]
  | succ j ih =>
    rw [shiftSmaller, insertDown]
    cases h : lessAt cmp d (j + 1) j
    · simp
    · simp [ih]

/-! ### Heap sort -/

theorem swapAt_keys (d : List α) (i j : Nat) (hi : i < d.length) (hj : j < d.length) :
    keyAt key (swapAt d i j) i = keyAt key d j ∧ keyAt key (swapAt d i j) j = keyAt key d i ∧
      ∀ k, k ≠ i → k ≠ j → keyAt key (swapAt d i j) k = keyAt key d k :=
  ⟨keyAt_swapAt_left key d i j hi hj, keyAt_swapAt_right key d i j hi hj,
    fun k h1 h2 => keyAt_swapAt_other key d i j k hi hj h1 h2⟩

theorem heapFrom_of_except (first hi r0 r : Nat) (d : List α)
    (h : HeapExcept key first hi r0 r d)
    (hr : ∀ c, (c = 2 * r + 1 ∨ c = 2 * r + 2) → c < hi →
      keyAt key d (first + c) ≤ keyAt key d (first + r)) :
    HeapFrom key first hi r0 d := by
  intro p c hp hc hlt
  by_cases hpr : p = r
  · subst hpr
    exact hr c hc hlt
  · exact h.1 p c hp hpr hc hlt

theorem heapExcept_of_heapFrom (first hi r : Nat) (d : List α)
    (h : HeapFrom key first hi (r + 1) d) : HeapExcept key first hi r r d := by
  constructor
  · intro p c hp hpr hc hlt
    exact h p c (by omega) hc hlt
  · intro p c hp hpr
    omega

theorem siftDown_heap (hcmp : ∀ x y, cmp x y < 0 ↔ key x < key y) (hi first r0 : Nat) :
    ∀ (todo r : Nat) (d : List α), r0 ≤ r → first + hi ≤ d.length → hi ≤ r + todo →
      HeapExcept key first hi r0 r d →
      Within key (first + r) (first + hi) d (siftDownCmpFunc cmp hi first todo r d) ∧
        HeapFrom key first hi r0 (siftDownCmpFunc cmp hi first todo r d) := by
  intro todo
  induction todo with
  | zero =>
    intro r d _ _ hfuel hex
    rw [siftDownCmpFunc]
    refine ⟨within_refl key _ _ d, heapFrom_of_except key first hi r0 r d hex ?_⟩
    intro c hc hlt
    omega
  | succ todo ih =>
    intro r d hr hlen hfuel hex
    rw [siftDownCmpFunc]
    simp only []
    by_cases hch : 2 * r + 1 ≥ hi
    · rw [if_pos hch]
      refine ⟨within_refl key _ _ d, heapFrom_of_except key first hi r0 r d hex ?_⟩
      intro c hc hlt
      omega
    · rw [if_neg hch]
      -- the greater child
      obtain ⟨child, hchild, hc1, hc2, hmax⟩ : ∃ child,
          (if 2 * r + 1 + 1 < hi ∧
              lessAt cmp d (first + (2 * r + 1)) (first + (2 * r + 1) + 1) = true
            then 2 * r + 1 + 1 else 2 * r + 1) = child ∧
          (child = 2 * r + 1 ∨ child = 2 * r + 2) ∧ child < hi ∧
          ∀ c, (c = 2 * r + 1 ∨ c = 2 * r + 2) → c < hi →
            keyAt key d (first + c) ≤ keyAt key d (first + child) := by
        by_cases hcond : 2 * r + 1 + 1 < hi ∧
            lessAt cmp d (first + (2 * r + 1)) (first + (2 * r + 1) + 1) = true
        · refine ⟨2 * r + 2, by rw [if_pos hcond], Or.inr rfl, by omega, ?_⟩
          have hlt := (lessAt_true_iff key cmp hcmp d _ _ (by omega) (by omega)).1 hcond.2
          intro c hc _
          rcases hc with rfl | rfl
          · exact le_of_lt hlt
          · exact le_refl _
        · refine ⟨2 * r + 1, by rw [if_neg hcond], Or.inl rfl, by omega, ?_⟩
          intro c hc hlt
          rcases hc with rfl | rfl
          · exact le_refl _
          · have h2 : lessAt cmp d (first + (2 * r + 1)) (first + (2 * r + 1) + 1) = false := by
              cases h : lessAt cmp d (first + (2 * r + 1)) (first + (2 * r + 1) + 1)
              · rfl
              · exact absurd ⟨by omega, h⟩ hcond
            exact (lessAt_false_iff key cmp hcmp d _ _ (by omega) (by omega)).1 h2
      rw [hchild]
      cases hless : lessAt cmp d (first + r) (first + child)
      · simp only [Bool.not_false, if_true]
        have hle := (lessAt_false_iff key cmp hcmp d _ _ (by omega) (by omega)).1 hless
        refine ⟨within_refl key _ _ d, heapFrom_of_except key first hi r0 r d hex ?_⟩
        intro c hc hlt
        exact le_trans (hmax c hc hlt) hle
      · simp only [Bool.not_true, Bool.false_eq_true, if_false]
        have hlt := (lessAt_true_iff key cmp hcmp d _ _ (by omega) (by omega)).1 hless
        obtain ⟨e1, e2, e3⟩ := swapAt_keys key d (first + r) (first + child) (by omega)
          (by omega)
        have hw : Within key (first + r) (first + hi) d
            (swapAt d (first + r) (first + child)) :=
          within_swapAt key _ _ d _ _ hlen (by omega) (by omega) (by omega) (by omega)
        have hex' : HeapExcept key first hi r0 child
            (swapAt d (first + r) (first + child)) := by
          constructor
          · intro p c hp hpc hc hlt'
            by_cases hpr : p = r
            · subst hpr
              rw [e1]
              by_cases hcc : c = child
              · subst hcc
                rw [e2]
                exact le_of_lt hlt
              · rw [e3 (first + c) (by omega) (by omega)]
                exact hmax c hc hlt'
            · rw [e3 (first + p) (by omega) (by omega)]
              by_cases hcr : c = r
              · subst hcr
                rw [e1]
                exact hex.2 p child hp hc hc1 hc2
              · rw [e3 (first + c) (by omega) (by omega)]
                exact hex.1 p c hp hpr hc hlt'
          · intro p c hp hpc hc hlt'
            have hpr : p = r := by omega
            subst hpr
            rw [e1, e3 (first + c) (by omega) (by omega)]
            exact hex.1 child c (by omega) (by omega) hc hlt'
        obtain ⟨h1, h2⟩ := ih child (swapAt d (first + r) (first + child)) (by omega)
          (by rw [swapAt_length]; exact hlen) (by omega) hex'
        exact ⟨within_trans key hw (within_mono key h1 (by omega) (Nat.le_refl _)), h2⟩

theorem heapBuild_heap (hcmp : ∀ x y, cmp x y < 0 ↔ key x < key y) (hi first : Nat) :
    ∀ (i : Nat) (d : List α), first + hi ≤ d.length → HeapFrom key first hi (i + 1) d →
      Within key first (first + hi) d (heapBuild cmp hi first i d) ∧
        HeapFrom key first hi 0 (heapBuild cmp hi first i d) := by
  intro i
  induction i with
  | zero =>
    intro d hlen h
    rw [heapBuild]
    obtain ⟨h1, h2⟩ := siftDown_heap key cmp hcmp hi first 0 hi 0 d (Nat.le_refl _) hlen
      (by omega) (heapExcept_of_heapFrom key first hi 0 d h)
    exact ⟨within_mono key h1 (by omega) (Nat.le_refl _), h2⟩
  | succ i ih =>
    intro d hlen h
    rw [heapBuild]
    obtain ⟨h1, h2⟩ := siftDown_heap key cmp hcmp hi first (i + 1) hi (i + 1) d (Nat.le_refl _)
      hlen (by omega) (heapExcept_of_heapFrom key first hi (i + 1) d h)
    obtain ⟨h3, h4⟩ := ih (siftDownCmpFunc cmp hi first hi (i + 1) d)
      (by rw [h1.1]; exact hlen) h2
    exact ⟨within_trans key (within_mono key h1 (by omega) (Nat.le_refl _)) h3, h4⟩

theorem heap_root_max (first n : Nat) (d : List α) (h : HeapFrom key first n 0 d) :
    ∀ x, x < n → keyAt key d (first + x) ≤ keyAt key d (first + 0) := by
  intro x
  induction x using Nat.strong_induction_on with
  | _ x ih =>
    intro hx
    rcases Nat.eq_zero_or_pos x with rfl | hpos
    · exact le_refl _
    · have hp : x = 2 * ((x - 1) / 2) + 1 ∨ x = 2 * ((x - 1) / 2) + 2 := by omega
      exact le_trans (h ((x - 1) / 2) x (Nat.zero_le _) hp hx)
        (ih ((x - 1) / 2) (by omega) (by omega))

theorem heapPop_sorted (hcmp : ∀ x y, cmp x y < 0 ↔ key x < key y) (hi first : Nat) :
    ∀ (n : Nat) (d : List α), n ≤ hi → first + hi ≤ d.length → HeapFrom key first n 0 d →
      SortedOn key (first + n) (first + hi) d →
      (∀ x y, x < n → n ≤ y → y < hi → keyAt key d (first + x) ≤ keyAt key d (first + y)) →
      Within key first (first + hi) d (heapPop cmp first n d) ∧
        SortedOn key first (first + hi) (heapPop cmp first n d) := by
  intro n
  induction n with
  | zero =>
    intro d _ _ _ hs _
    rw [heapPop]
    exact ⟨within_refl key _ _ d, hs⟩
  | succ i ih =>
    intro d hn hlen hheap hs hsep
    rw [heapPop]
    obtain ⟨e1, e2, e3⟩ := swapAt_keys key d first (first + i) (by omega) (by omega)
    have hmax := heap_root_max key first (i + 1) d hheap
    have hw1 : Within key first (first + hi) d (swapAt d first (first + i)) :=
      within_swapAt key _ _ d _ _ hlen (Nat.le_refl _) (by omega) (by omega) (by omega)
    have hlen1 : first + hi ≤ (swapAt d first (first + i)).length := by
      rw [swapAt_length]; exact hlen
    -- every key of the shrunk heap is a key of the old heap
    have hold : ∀ x, x < i → ∃ x', x' < i + 1 ∧
        keyAt key (swapAt d first (first + i)) (first + x) = keyAt key d (first + x') := by
      intro x hx
      by_cases hx0 : x = 0
      · subst hx0
        exact ⟨i, by omega, e1⟩
      · exact ⟨x, by omega, e3 (first + x) (by omega) (by omega)⟩
    have hex : HeapExcept key first i 0 0 (swapAt d first (first + i)) := by
      constructor
      · intro p c _ hp hc hlt
        rw [e3 (first + c) (by omega) (by omega), e3 (first + p) (by omega) (by omega)]
        exact hheap p c (Nat.zero_le _) hc (by omega)
      · intro p c _ hp
        omega
    obtain ⟨h1, h2⟩ := siftDown_heap key cmp hcmp i first 0 i 0 (swapAt d first (first + i))
      (Nat.le_refl _) (by omega) (by omega) hex
    have hw2 : Within key first (first + hi) (swapAt d first (first + i))
        (siftDownCmpFunc cmp i first i 0 (swapAt d first (first + i))) :=
      within_mono key h1 (by omega) (by omega)
    have hsame : ∀ y, i ≤ y →
        keyAt key (siftDownCmpFunc cmp i first i 0 (swapAt d first (first + i))) (first + y) =
          keyAt key (swapAt d first (first + i)) (first + y) :=
      fun y hy => h1.2.1 (first + y) (by omega)
    have hlast : keyAt key (swapAt d first (first + i)) (first + i) = keyAt key d (first + 0) := by
      rw [Nat.add_zero]
      exact e2
    have hlater : ∀ y, i < y →
        keyAt key (swapAt d first (first + i)) (first + y) = keyAt key d (first + y) :=
      fun y hy => e3 (first + y) (by omega) (by omega)
    have hA : SortedOn key (first + i) (first + hi)
        (siftDownCmpFunc cmp i first i 0 (swapAt d first (first + i))) := by
      intro p q hp hpq hq
      obtain ⟨y, rfl⟩ : ∃ y, p = first + y := ⟨p - first, by omega⟩
      obtain ⟨z, rfl⟩ : ∃ z, q = first + z := ⟨q - first, by omega⟩
      rw [hsame y (by omega), hsame z (by omega)]
      rcases Nat.eq_or_lt_of_le (show y ≤ z by omega) with rfl | hyz
      · exact le_refl _
      · rw [hlater z (by omega)]
        by_cases hyi : y = i
        · subst hyi
          rw [hlast]
          exact hsep 0 z (by omega) (by omega) (by omega)
        · rw [hlater y (by omega)]
          exact hs (first + y) (first + z) (by omega) (by omega) (by omega)
    have hB : ∀ x y, x < i → i ≤ y → y < hi →
        keyAt key (siftDownCmpFunc cmp i first i 0 (swapAt d first (first + i))) (first + x) ≤
          keyAt key (siftDownCmpFunc cmp i first i 0 (swapAt d first (first + i)))
            (first + y) := by
      intro x y hx hy hyhi
      rw [hsame y hy]
      obtain ⟨j, hj1, hj2, hj⟩ := h1.2.2 (first + x) (by omega) (by omega)
      obtain ⟨x', rfl⟩ : ∃ x', j = first + x' := ⟨j - first, by omega⟩
      rw [hj]
      obtain ⟨x'', hx'', hx2⟩ := hold x' (by omega)
      rw [hx2]
      by_cases hyi : y = i
      · subst hyi
        rw [hlast]
        exact hmax x'' hx''
      · rw [hlater y (by omega)]
        exact hsep x'' y hx'' (by omega) hyhi
    obtain ⟨h3, h4⟩ := ih (siftDownCmpFunc cmp i first i 0 (swapAt d first (first + i)))
      (by omega) (by rw [h1.1]; exact hlen1) h2 hA hB
    exact ⟨within_trans key hw1 (within_trans key hw2 h3), h4⟩

theorem heapSortCmpFunc_sorted (hcmp : ∀ x y, cmp x y < 0 ↔ key x < key y)
    (d : List α) (a b : Nat) (hab : a ≤ b) (hb : b ≤ d.length) :
    Within key a b d (heapSortCmpFunc cmp d a b) ∧
      SortedOn key a b (heapSortCmpFunc cmp d a b) := by
  unfold heapSortCmpFunc
  have hlen : a + (b - a) ≤ d.length := by omega
  have e : a + (b - a) = b := by omega
  obtain ⟨h1, h2⟩ := heapBuild_heap key cmp hcmp (b - a) a ((b - a - 1) / 2) d hlen
    (by intro p c hp hc hlt; omega)
  obtain ⟨h3, h4⟩ := heapPop_sorted key cmp hcmp (b - a) a (b - a)
    (heapBuild cmp (b - a) a ((b - a - 1) / 2) d) (Nat.le_refl _) (by rw [h1.1]; exact hlen) h2
    (by intro i j h1 h2 h3; omega) (by intro x y h1 h2 h3; omega)
  rw [e] at h1 h3 h4
  exact ⟨within_trans key h1 h3, h4⟩

/-! ### The two partitions -/

theorem lessAt_false_of_not {d : List α} {i j : Nat} (h : ¬ lessAt cmp d i j = true) :
    lessAt cmp d i j = false := by
  cases h' : lessAt cmp d i j
  · rfl
  · exact absurd h' h

theorem scanLess_spec (hcmp : ∀ x y, cmp x y < 0 ↔ key x < key y) (d : List α) (a j : Nat)
    (ha : a < d.length) (hj : j < d.length) :
    ∀ (todo i : Nat), i ≤ j + 1 → j + 1 ≤ i + todo →
      i ≤ scanLess cmp d a j todo i ∧ scanLess cmp d a j todo i ≤ j + 1 ∧
      (∀ x, i ≤ x → x < scanLess cmp d a j todo i → keyAt key d x < keyAt key d a) ∧
      (scanLess cmp d a j todo i ≤ j →
        ¬ keyAt key d (scanLess cmp d a j todo i) < keyAt key d a) := by
  intro todo
  induction todo with
  | zero =>
    intro i h1 h2
    rw [scanLess]
    exact ⟨Nat.le_refl _, h1, fun x _ _ => by omega, fun h => by omega⟩
  | succ todo ih =>
    intro i h1 h2
    rw [scanLess]
    by_cases hc : i ≤ j ∧ lessAt cmp d i a = true
    · rw [if_pos hc]
      obtain ⟨k1, k2, k3, k4⟩ := ih (i + 1) (by omega) (by omega)
      refine ⟨by omega, k2, ?_, k4⟩
      intro x hx1 hx2
      by_cases hxi : x = i
      · subst hxi
        exact (lessAt_true_iff key cmp hcmp d x a (by omega) ha).1 hc.2
      · exact k3 x (by omega) hx2
    · rw [if_neg hc]
      refine ⟨Nat.le_refl _, h1, fun x _ _ => by omega, ?_⟩
      intro hij hlt
      exact hc ⟨hij, (lessAt_true_iff key cmp hcmp d i a (by omega) ha).2 hlt⟩

theorem scanNotLess_spec (hcmp : ∀ x y, cmp x y < 0 ↔ key x < key y) (d : List α) (a i : Nat)
    (ha : a < d.length) :
    ∀ (jn : Nat), i ≤ jn → jn ≤ d.length →
      i ≤ scanNotLess cmp d a i jn ∧ scanNotLess cmp d a i jn ≤ jn ∧
      (∀ x, scanNotLess cmp d a i jn ≤ x → x < jn → ¬ keyAt key d x < keyAt key d a) ∧
      (i < scanNotLess cmp d a i jn →
        keyAt key d (scanNotLess cmp d a i jn - 1) < keyAt key d a) := by
  intro jn
  induction jn with
  | zero =>
    intro h1 _
    rw [scanNotLess]
    exact ⟨h1, Nat.le_refl _, fun x _ _ => by omega, fun h => by omega⟩
  | succ j ih =>
    intro h1 h2
    rw [scanNotLess]
    by_cases hc : i ≤ j ∧ lessAt cmp d j a = false
    · rw [if_pos hc]
      obtain ⟨k1, k2, k3, k4⟩ := ih hc.1 (by omega)
      refine ⟨k1, by omega, ?_, k4⟩
      intro x hx1 hx2
      by_cases hxj : x = j
      · subst hxj
        have := (lessAt_false_iff key cmp hcmp d x a (by omega) ha).1 hc.2
        omega
      · exact k3 x hx1 (by omega)
    · rw [if_neg hc]
      refine ⟨h1, Nat.le_refl _, fun x _ _ => by omega, ?_⟩
      intro hij
      simp only [Nat.add_sub_cancel]
      by_contra hlt
      apply hc
      refine ⟨by omega, lessAt_false_of_not cmp ?_⟩
      intro h
      exact hlt ((lessAt_true_iff key cmp hcmp d j a (by omega) ha).1 h)

theorem scanNotGreater_spec (hcmp : ∀ x y, cmp x y < 0 ↔ key x < key y) (d : List α)
    (a j : Nat) (ha : a < d.length) (hj : j < d.length) :
    ∀ (todo i : Nat), i ≤ j + 1 → j + 1 ≤ i + todo →
      i ≤ scanNotGreater cmp d a j todo i ∧ scanNotGreater cmp d a j todo i ≤ j + 1 ∧
      (∀ x, i ≤ x → x < scanNotGreater cmp d a j todo i → keyAt key d x ≤ keyAt key d a) ∧
      (scanNotGreater cmp d a j todo i ≤ j →
        ¬ keyAt key d (scanNotGreater cmp d a j todo i) ≤ keyAt key d a) := by
  intro todo
  induction todo with
  | zero =>
    intro i h1 h2
    rw [scanNotGreater]
    exact ⟨Nat.le_refl _, h1, fun x _ _ => by omega, fun h => by omega⟩
  | succ todo ih =>
    intro i h1 h2
    rw [scanNotGreater]
    by_cases hc : i ≤ j ∧ lessAt cmp d a i = false
    · rw [if_pos hc]
      obtain ⟨k1, k2, k3, k4⟩ := ih (i + 1) (by omega) (by omega)
      refine ⟨by omega, k2, ?_, k4⟩
      intro x hx1 hx2
      by_cases hxi : x = i
      · subst hxi
        exact (lessAt_false_iff key cmp hcmp d a x ha (by omega)).1 hc.2
      · exact k3 x (by omega) hx2
    · rw [if_neg hc]
      refine ⟨Nat.le_refl _, h1, fun x _ _ => by omega, ?_⟩
      intro hij hle
      exact hc ⟨hij, (lessAt_false_iff key cmp hcmp d a i ha (by omega)).2 hle⟩

theorem scanGreater_spec (hcmp : ∀ x y, cmp x y < 0 ↔ key x < key y) (d : List α) (a i : Nat)
    (ha : a < d.length) :
    ∀ (jn : Nat), i ≤ jn → jn ≤ d.length →
      i ≤ scanGreater cmp d a i jn ∧ scanGreater cmp d a i jn ≤ jn ∧
      (∀ x, scanGreater cmp d a i jn ≤ x → x < jn → ¬ keyAt key d x ≤ keyAt key d a) ∧
      (i < scanGreater cmp d a i jn →
        keyAt key d (scanGreater cmp d a i jn - 1) ≤ keyAt key d a) := by
  intro jn
  induction jn with
  | zero =>
    intro h1 _
    rw [scanGreater]
    exact ⟨h1, Nat.le_refl _, fun x _ _ => by omega, fun h => by omega⟩
  | succ j ih =>
    intro h1 h2
    rw [scanGreater]
    by_cases hc : i ≤ j ∧ lessAt cmp d a j = true
    · rw [if_pos hc]
      obtain ⟨k1, k2, k3, k4⟩ := ih hc.1 (by omega)
      refine ⟨k1, by omega, ?_, k4⟩
      intro x hx1 hx2
      by_cases hxj : x = j
      · subst hxj
        have := (lessAt_true_iff key cmp hcmp d a x ha (by omega)).1 hc.2
        omega
      · exact k3 x hx1 (by omega)
    · rw [if_neg hc]
      refine ⟨h1, Nat.le_refl _, fun x _ _ => by omega, ?_⟩
      intro hij
      simp only [Nat.add_sub_cancel]
      by_contra hlt
      apply hc
      refine ⟨by omega, ?_⟩
      rw [lessAt_true_iff key cmp hcmp d a j ha (by omega)]
      omega

/-- One round of a partition loop, the two scans having stopped at `i'` and
`jn'`. -/
theorem parted_step (L : Int → Prop) (a b i jn i' jn' : Nat) (d : List α)
    (hlen : b ≤ d.length) (ha : a + 1 ≤ i) (hjb : jn ≤ b)
    (hp : Parted key L a b i jn d)
    (h1 : i ≤ i') (h2 : i' ≤ jn)
    (h3 : ∀ x, i ≤ x → x < i' → L (keyAt key d x))
    (h4 : i' < jn → ¬ L (keyAt key d i'))
    (k1 : i' ≤ jn') (k2 : jn' ≤ jn)
    (k3 : ∀ x, jn' ≤ x → x < jn → ¬ L (keyAt key d x))
    (k4 : i' < jn' → L (keyAt key d (jn' - 1))) :
    (jn' ≤ i' → Parted key L a b i' i' d) ∧
    (i' < jn' → i' + 1 ≤ jn' - 1 ∧
      Within key (a + 1) b d (swapAt d i' (jn' - 1)) ∧
      Parted key L a b (i' + 1) (jn' - 1) (swapAt d i' (jn' - 1))) := by
  constructor
  · intro h
    have e : jn' = i' := by omega
    subst e
    constructor
    · intro x hx1 hx2
      by_cases hxi : x < i
      · exact hp.1 x hx1 hxi
      · exact h3 x (by omega) hx2
    · intro x hx1 hx2
      by_cases hxj : x < jn
      · exact k3 x hx1 hxj
      · exact hp.2 x (by omega) hx2
  · intro h
    have hne : i' ≠ jn' - 1 := by
      intro e
      have q1 := h4 (by omega)
      have q2 := k4 h
      rw [← e] at q2
      exact q1 q2
    obtain ⟨e1, e2, e3⟩ := swapAt_keys key d i' (jn' - 1) (by omega) (by omega)
    refine ⟨by omega, within_swapAt key _ _ d _ _ hlen (by omega) (by omega) (by omega)
      (by omega), ?_, ?_⟩
    · intro x hx1 hx2
      by_cases hxi : x = i'
      · subst hxi
        rw [e1]
        exact k4 h
      · rw [e3 x hxi (by omega)]
        by_cases hxi2 : x < i
        · exact hp.1 x hx1 hxi2
        · exact h3 x (by omega) (by omega)
    · intro x hx1 hx2
      by_cases hxj : x = jn' - 1
      · subst hxj
        rw [e2]
        exact h4 (by omega)
      · rw [e3 x (by omega) hxj]
        by_cases hxj2 : x < jn
        · exact k3 x (by omega) hxj2
        · exact hp.2 x (by omega) hx2

theorem partitionLoop_spec (hcmp : ∀ x y, cmp x y < 0 ↔ key x < key y) (a b : Nat) (P : Int) :
    ∀ (todo i jn : Nat) (d : List α), a + 1 ≤ i → i ≤ jn → jn ≤ b → b ≤ d.length →
      jn ≤ i + todo → keyAt key d a = P → Parted key (fun v => v < P) a b i jn d →
      Within key (a + 1) b d (partitionLoop cmp a todo i jn d).1 ∧
        a + 1 ≤ (partitionLoop cmp a todo i jn d).2 ∧ (partitionLoop cmp a todo i jn d).2 ≤ b ∧
        Parted key (fun v => v < P) a b (partitionLoop cmp a todo i jn d).2
          (partitionLoop cmp a todo i jn d).2 (partitionLoop cmp a todo i jn d).1 := by
  intro todo
  induction todo with
  | zero =>
    intro i jn d h1 h2 h3 _ h5 _ hp
    rw [partitionLoop]
    have e : jn = i := by omega
    subst e
    exact ⟨within_refl key _ _ d, h1, h3, hp⟩
  | succ todo ih =>
    intro i jn d h1 h2 h3 h4 h5 hP hp
    rw [partitionLoop]
    have hjn : jn - 1 + 1 = jn := by omega
    obtain ⟨s1, s2, s3, s4⟩ := scanLess_spec key cmp hcmp d a (jn - 1) (by omega) (by omega)
      (jn - i) i (by omega) (by omega)
    generalize scanLess cmp d a (jn - 1) (jn - i) i = i' at s1 s2 s3 s4 ⊢
    rw [hjn] at s2
    rw [hP] at s3 s4
    obtain ⟨jn', hjn', t1, t2, t3, t4⟩ : ∃ jn',
        (if i' < jn then scanNotLess cmp d a i' jn else jn) = jn' ∧ i' ≤ jn' ∧ jn' ≤ jn ∧
        (∀ x, jn' ≤ x → x < jn → ¬ keyAt key d x < P) ∧
        (i' < jn' → keyAt key d (jn' - 1) < P) := by
      by_cases hc : i' < jn
      · obtain ⟨t1, t2, t3, t4⟩ := scanNotLess_spec key cmp hcmp d a i' (by omega) jn
          (by omega) (by omega)
        rw [hP] at t3 t4
        exact ⟨_, by rw [if_pos hc], t1, t2, t3, t4⟩
      · exact ⟨jn, by rw [if_neg hc], by omega, Nat.le_refl _, fun x _ _ => by omega,
          fun h => by omega⟩
    rw [hjn']
    obtain ⟨q1, q2⟩ := parted_step key (fun v => v < P) a b i jn i' jn' d h4 h1 h3 hp s1 s2 s3
      (fun h => s4 (by omega)) t1 t2 t3 t4
    by_cases hc : i' ≥ jn'
    · rw [if_pos hc]
      have e : jn' = i' := by omega
      subst e
      exact ⟨within_refl key _ _ d, by omega, by omega, q1 hc⟩
    · rw [if_neg hc]
      obtain ⟨r1, r2, r3⟩ := q2 (by omega)
      obtain ⟨u1, u2, u3, u4⟩ := ih (i' + 1) (jn' - 1) (swapAt d i' (jn' - 1)) (by omega) r1
        (by omega) (by rw [swapAt_length]; exact h4) (by omega)
        (by rw [r2.2.1 a (by omega)]; exact hP) r3
      exact ⟨within_trans key r2 u1, u2, u3, u4⟩

/-- The end of `partitionCmpFunc`: the pivot goes from `data[a]` to its place. -/
theorem parted_finish (a b m : Nat) (P : Int) (d : List α) (hm1 : a + 1 ≤ m) (hm2 : m ≤ b)
    (hlen : b ≤ d.length) (hP : keyAt key d a = P)
    (hp : Parted key (fun v => v < P) a b m m d) :
    Within key a b d (swapAt d (m - 1) a) ∧
      (∀ x, a ≤ x → x < m - 1 →
        keyAt key (swapAt d (m - 1) a) x < keyAt key (swapAt d (m - 1) a) (m - 1)) ∧
      (∀ x, m - 1 < x → x < b →
        keyAt key (swapAt d (m - 1) a) (m - 1) ≤ keyAt key (swapAt d (m - 1) a) x) := by
  obtain ⟨e1, e2, e3⟩ := swapAt_keys key d (m - 1) a (by omega) (by omega)
  refine ⟨within_swapAt key _ _ d _ _ hlen (by omega) (by omega) (Nat.le_refl _) (by omega),
    ?_, ?_⟩
  · intro x hx1 hx2
    rw [e1, hP]
    by_cases hxa : x = a
    · subst hxa
      rw [e2]
      exact hp.1 (m - 1) (by omega) (by omega)
    · rw [e3 x (by omega) hxa]
      exact hp.1 x (by omega) (by omega)
  · intro x hx1 hx2
    rw [e1, hP, e3 x (by omega) (by omega)]
    exact not_lt.1 (hp.2 x (by omega) hx2)

theorem partitionCmpFunc_spec (hcmp : ∀ x y, cmp x y < 0 ↔ key x < key y) (d : List α)
    (a b pivot : Nat) (ha : a ≤ pivot) (hp : pivot < b) (hb : b ≤ d.length) :
    Within key a b d (partitionCmpFunc cmp d a b pivot).1 ∧
      a ≤ (partitionCmpFunc cmp d a b pivot).2.1 ∧ (partitionCmpFunc cmp d a b pivot).2.1 < b ∧
      (∀ x, a ≤ x → x < (partitionCmpFunc cmp d a b pivot).2.1 →
        keyAt key (partitionCmpFunc cmp d a b pivot).1 x <
          keyAt key (partitionCmpFunc cmp d a b pivot).1 (partitionCmpFunc cmp d a b pivot).2.1) ∧
      (∀ x, (partitionCmpFunc cmp d a b pivot).2.1 < x → x < b →
        keyAt key (partitionCmpFunc cmp d a b pivot).1 (partitionCmpFunc cmp d a b pivot).2.1 ≤
          keyAt key (partitionCmpFunc cmp d a b pivot).1 x) := by
  unfold partitionCmpFunc
  simp only []
  have hw0 : Within key a b d (swapAt d a pivot) :=
    within_swapAt key _ _ d _ _ hb (Nat.le_refl _) (by omega) ha hp
  have hlen0 : b ≤ (swapAt d a pivot).length := by rw [swapAt_length]; exact hb
  generalize swapAt d a pivot = d0 at hw0 hlen0 ⊢
  have hb1 : b - 1 + 1 = b := by omega
  obtain ⟨s1, s2, s3, s4⟩ := scanLess_spec key cmp hcmp d0 a (b - 1) (by omega) (by omega)
    (b - a) (a + 1) (by omega) (by omega)
  generalize scanLess cmp d0 a (b - 1) (b - a) (a + 1) = i at s1 s2 s3 s4 ⊢
  rw [hb1] at s2
  obtain ⟨jn, hjn, t1, t2, t3, t4⟩ : ∃ jn,
      (if i < b then scanNotLess cmp d0 a i b else b) = jn ∧ i ≤ jn ∧ jn ≤ b ∧
      (∀ x, jn ≤ x → x < b → ¬ keyAt key d0 x < keyAt key d0 a) ∧
      (i < jn → keyAt key d0 (jn - 1) < keyAt key d0 a) := by
    by_cases hc : i < b
    · obtain ⟨t1, t2, t3, t4⟩ := scanNotLess_spec key cmp hcmp d0 a i (by omega) b
        (by omega) (by omega)
      exact ⟨_, by rw [if_pos hc], t1, t2, t3, t4⟩
    · exact ⟨b, by rw [if_neg hc], by omega, Nat.le_refl _, fun x _ _ => by omega,
        fun h => by omega⟩
  rw [hjn]
  have hp0 : Parted key (fun v => v < keyAt key d0 a) a b (a + 1) b d0 :=
    ⟨fun x _ _ => by omega, fun x _ _ => by omega⟩
  obtain ⟨q1, q2⟩ := parted_step key (fun v => v < keyAt key d0 a) a b (a + 1) b i jn d0 hlen0
    (Nat.le_refl _) (Nat.le_refl _) hp0 s1 s2 s3 (fun h => s4 (by omega)) t1 t2 t3 t4
  by_cases hc : i ≥ jn
  · rw [if_pos hc]
    dsimp only
    have e : jn = i := by omega
    subst e
    obtain ⟨f1, f2, f3⟩ := parted_finish key a b jn (keyAt key d0 a) d0 (by omega) (by omega)
      hlen0 rfl (q1 hc)
    exact ⟨within_trans key hw0 f1, by omega, by omega, f2, f3⟩
  · rw [if_neg hc]
    obtain ⟨r1, r2, r3⟩ := q2 (by omega)
    obtain ⟨u1, u2, u3, u4⟩ := partitionLoop_spec key cmp hcmp a b (keyAt key d0 a) (b - a)
      (i + 1) (jn - 1) (swapAt d0 i (jn - 1)) (by omega) r1 (by omega)
      (by rw [swapAt_length]; exact hlen0) (by omega) (r2.2.1 a (by omega)) r3
    generalize partitionLoop cmp a (b - a) (i + 1) (jn - 1) (swapAt d0 i (jn - 1)) = r
      at u1 u2 u3 u4 ⊢
    dsimp only
    have hPr : keyAt key r.1 a = keyAt key d0 a := by
      rw [u1.2.1 a (by omega), r2.2.1 a (by omega)]
    obtain ⟨f1, f2, f3⟩ := parted_finish key a b r.2 (keyAt key d0 a) r.1 u2 u3
      (by rw [u1.1, r2.1]; exact hlen0) hPr u4
    refine ⟨?_, by omega, by omega, f2, f3⟩
    exact within_trans key hw0 (within_trans key (within_mono key r2 (by omega) (Nat.le_refl _))
      (within_trans key (within_mono key u1 (by omega) (Nat.le_refl _)) f1))

theorem partitionEqualLoop_spec (hcmp : ∀ x y, cmp x y < 0 ↔ key x < key y) (a b : Nat)
    (P : Int) :
    ∀ (todo i jn : Nat) (d : List α), a + 1 ≤ i → i ≤ jn → jn ≤ b → b ≤ d.length →
      jn ≤ i + todo → keyAt key d a = P → Parted key (fun v => v ≤ P) a b i jn d →
      Within key (a + 1) b d (partitionEqualLoop cmp a todo i jn d).1 ∧
        a + 1 ≤ (partitionEqualLoop cmp a todo i jn d).2 ∧
        (partitionEqualLoop cmp a todo i jn d).2 ≤ b ∧
        Parted key (fun v => v ≤ P) a b (partitionEqualLoop cmp a todo i jn d).2
          (partitionEqualLoop cmp a todo i jn d).2 (partitionEqualLoop cmp a todo i jn d).1 := by
  intro todo
  induction todo with
  | zero =>
    intro i jn d h1 h2 h3 _ h5 _ hp
    rw [partitionEqualLoop]
    have e : jn = i := by omega
    subst e
    exact ⟨within_refl key _ _ d, h1, h3, hp⟩
  | succ todo ih =>
    intro i jn d h1 h2 h3 h4 h5 hP hp
    rw [partitionEqualLoop]
    have hjn : jn - 1 + 1 = jn := by omega
    obtain ⟨s1, s2, s3, s4⟩ := scanNotGreater_spec key cmp hcmp d a (jn - 1) (by omega)
      (by omega) (jn - i) i (by omega) (by omega)
    generalize scanNotGreater cmp d a (jn - 1) (jn - i) i = i' at s1 s2 s3 s4 ⊢
    rw [hjn] at s2
    rw [hP] at s3 s4
    obtain ⟨jn', hjn', t1, t2, t3, t4⟩ : ∃ jn',
        (if i' < jn then scanGreater cmp d a i' jn else jn) = jn' ∧ i' ≤ jn' ∧ jn' ≤ jn ∧
        (∀ x, jn' ≤ x → x < jn → ¬ keyAt key d x ≤ P) ∧
        (i' < jn' → keyAt key d (jn' - 1) ≤ P) := by
      by_cases hc : i' < jn
      · obtain ⟨t1, t2, t3, t4⟩ := scanGreater_spec key cmp hcmp d a i' (by omega) jn
          (by omega) (by omega)
        rw [hP] at t3 t4
        exact ⟨_, by rw [if_pos hc], t1, t2, t3, t4⟩
      · exact ⟨jn, by rw [if_neg hc], by omega, Nat.le_refl _, fun x _ _ => by omega,
          fun h => by omega⟩
    rw [hjn']
    obtain ⟨q1, q2⟩ := parted_step key (fun v => v ≤ P) a b i jn i' jn' d h4 h1 h3 hp s1 s2 s3
      (fun h => s4 (by omega)) t1 t2 t3 t4
    by_cases hc : i' ≥ jn'
    · rw [if_pos hc]
      exact ⟨within_refl key _ _ d, by omega, by omega, q1 hc⟩
    · rw [if_neg hc]
      obtain ⟨r1, r2, r3⟩ := q2 (by omega)
      obtain ⟨u1, u2, u3, u4⟩ := ih (i' + 1) (jn' - 1) (swapAt d i' (jn' - 1)) (by omega) r1
        (by omega) (by rw [swapAt_length]; exact h4) (by omega)
        (by rw [r2.2.1 a (by omega)]; exact hP) r3
      exact ⟨within_trans key r2 u1, u2, u3, u4⟩

theorem partitionEqualCmpFunc_spec (hcmp : ∀ x y, cmp x y < 0 ↔ key x < key y) (d : List α)
    (a b pivot : Nat) (ha : a ≤ pivot) (hp : pivot < b) (hb : b ≤ d.length) :
    Within key a b d (partitionEqualCmpFunc cmp d a b pivot).1 ∧
      a + 1 ≤ (partitionEqualCmpFunc cmp d a b pivot).2 ∧
      (partitionEqualCmpFunc cmp d a b pivot).2 ≤ b ∧
      (∀ x, a ≤ x → x < (partitionEqualCmpFunc cmp d a b pivot).2 →
        keyAt key (partitionEqualCmpFunc cmp d a b pivot).1 x ≤ keyAt key d pivot) ∧
      (∀ x, (partitionEqualCmpFunc cmp d a b pivot).2 ≤ x → x < b →
        keyAt key d pivot < keyAt key (partitionEqualCmpFunc cmp d a b pivot).1 x) := by
  unfold partitionEqualCmpFunc
  have hw0 : Within key a b d (swapAt d a pivot) :=
    within_swapAt key _ _ d _ _ hb (Nat.le_refl _) (by omega) ha hp
  have hlen0 : b ≤ (swapAt d a pivot).length := by rw [swapAt_length]; exact hb
  have hP : keyAt key (swapAt d a pivot) a = keyAt key d pivot :=
    keyAt_swapAt_left key d a pivot (by omega) (by omega)
  generalize swapAt d a pivot = d0 at hw0 hlen0 hP ⊢
  have hp0 : Parted key (fun v => v ≤ keyAt key d pivot) a b (a + 1) b d0 :=
    ⟨fun x _ _ => by omega, fun x _ _ => by omega⟩
  obtain ⟨u1, u2, u3, u4⟩ := partitionEqualLoop_spec key cmp hcmp a b (keyAt key d pivot)
    (b - a + 1) (a + 1) b d0 (Nat.le_refl _) (by omega) (Nat.le_refl _) hlen0 (by omega) hP hp0
  generalize partitionEqualLoop cmp a (b - a + 1) (a + 1) b d0 = r at u1 u2 u3 u4 ⊢
  refine ⟨within_trans key hw0 (within_mono key u1 (by omega) (Nat.le_refl _)), u2, u3, ?_, ?_⟩
  · intro x hx1 hx2
    by_cases hxa : x = a
    · subst hxa
      rw [u1.2.1 x (by omega), hP]
    · exact u4.1 x (by omega) hx2
  · intro x hx1 hx2
    exact not_le.1 (u4.2 x hx1 hx2)

/-! ### The other parts of the quicksort -/

theorem bitsLen_pow (todo x : Nat) (hx : 0 < x) : 2 ^ bitsLen todo x ≤ 2 * x := by
  induction todo generalizing x with
  | zero =>
    rw [bitsLen]
    simp only [Nat.pow_zero]
    omega
  | succ todo ih =>
    rw [bitsLen, if_neg (by omega)]
    rw [Nat.pow_add, Nat.pow_one]
    rcases Nat.eq_zero_or_pos (x / 2) with h0 | hpos
    · rw [h0]
      cases todo with
      | zero => simp only [bitsLen, Nat.pow_zero]; omega
      | succ t => simp only [bitsLen, if_true, Nat.pow_zero]; omega
    · have := ih (x / 2) hpos
      omega

theorem breakLoop_within (a length modulus idx : Nat) (hl : 0 < length)
    (hm : modulus ≤ 2 * length) (h1 : a ≤ idx) (h2 : idx + 2 < a + length) :
    ∀ (todo random : Nat) (d : List α), a + length ≤ d.length →
      Within key a (a + length) d (breakLoop a length modulus idx todo random d) := by
  intro todo
  induction todo with
  | zero =>
    intro random d _
    rw [breakLoop]
    exact within_refl key _ _ d
  | succ todo ih =>
    intro random d hlen
    rw [breakLoop]
    have hand : xorshiftNext random &&& (modulus - 1) ≤ modulus - 1 := Nat.and_le_right
    generalize xorshiftNext random &&& (modulus - 1) = other at hand
    have hother : (if other ≥ length then other - length else other) < length := by
      split <;> omega
    generalize (if other ≥ length then other - length else other) = other' at hother
    have hw := within_swapAt key a (a + length) d (idx + (2 - todo)) (a + other') hlen
      (by omega) (by omega) (by omega) (by omega)
    exact within_trans key hw (ih _ _ (by rw [swapAt_length]; exact hlen))

theorem breakPatternsCmpFunc_within (d : List α) (a b : Nat) (hab : a ≤ b)
    (hb : b ≤ d.length) : Within key a b d (breakPatternsCmpFunc d a b) := by
  unfold breakPatternsCmpFunc
  simp only []
  split
  · rename_i h
    have e : a + (b - a) = b := by omega
    have := breakLoop_within key a (b - a) (2 ^ bitsLen 64 (b - a)) (a + (b - a) / 4 * 2 - 1)
      (by omega) (bitsLen_pow 64 (b - a) (by omega)) (by omega) (by omega) 3 (b - a) d
      (by omega)
    rw [e] at this
    exact this
  · exact within_refl key _ _ d

theorem reverseLoop_within (a b : Nat) :
    ∀ (todo i j : Nat) (d : List α), a ≤ i → j < b → b ≤ d.length →
      Within key a b d (reverseLoop todo i j d) := by
  intro todo
  induction todo with
  | zero =>
    intro i j d _ _ _
    rw [reverseLoop]
    exact within_refl key _ _ d
  | succ todo ih =>
    intro i j d hi hj hb
    rw [reverseLoop]
    split
    · have hw := within_swapAt key a b d i j hb hi (by omega) (by omega) hj
      exact within_trans key hw (ih _ _ _ (by omega) (by omega)
        (by rw [swapAt_length]; exact hb))
    · exact within_refl key _ _ d

theorem reverseRangeCmpFunc_within (d : List α) (a b : Nat) (hab : a < b) (hb : b ≤ d.length) :
    Within key a b d (reverseRangeCmpFunc d a b) := by
  unfold reverseRangeCmpFunc
  exact reverseLoop_within key a b _ _ _ d (Nat.le_refl _) (by omega) hb

theorem order2CmpFunc_mem (d : List α) (a b swaps : Nat) :
    ((order2CmpFunc cmp d a b swaps).1 = a ∧ (order2CmpFunc cmp d a b swaps).2.1 = b) ∨
      ((order2CmpFunc cmp d a b swaps).1 = b ∧ (order2CmpFunc cmp d a b swaps).2.1 = a) := by
  unfold order2CmpFunc
  split
  · exact Or.inr ⟨rfl, rfl⟩
  · exact Or.inl ⟨rfl, rfl⟩

theorem medianCmpFunc_mem (d : List α) (a b c swaps : Nat) :
    (medianCmpFunc cmp d a b c swaps).1 = a ∨ (medianCmpFunc cmp d a b c swaps).1 = b ∨
      (medianCmpFunc cmp d a b c swaps).1 = c := by
  unfold medianCmpFunc
  simp only []
  have h1 := order2CmpFunc_mem cmp d a b swaps
  generalize order2CmpFunc cmp d a b swaps = r1 at h1 ⊢
  have h2 := order2CmpFunc_mem cmp d r1.2.1 c r1.2.2
  generalize order2CmpFunc cmp d r1.2.1 c r1.2.2 = r2 at h2 ⊢
  have h3 := order2CmpFunc_mem cmp d r1.1 r2.1 r2.2.2
  generalize order2CmpFunc cmp d r1.1 r2.1 r2.2.2 = r3 at h3 ⊢
  omega

theorem medianAdjacentCmpFunc_mem (d : List α) (a swaps : Nat) :
    a - 1 ≤ (medianAdjacentCmpFunc cmp d a swaps).1 ∧
      (medianAdjacentCmpFunc cmp d a swaps).1 ≤ a + 1 := by
  unfold medianAdjacentCmpFunc
  rcases medianCmpFunc_mem cmp d (a - 1) a (a + 1) swaps with h | h | h <;>
  · rw [h]
    omega

theorem choosePivotCmpFunc_range (d : List α) (a b : Nat) (hl : 12 < b - a) :
    a ≤ (choosePivotCmpFunc cmp d a b).1 ∧ (choosePivotCmpFunc cmp d a b).1 < b := by
  unfold choosePivotCmpFunc
  lift_lets
  extract_lets l i j k ri rj rk r
  have hr : a ≤ r.1 ∧ r.1 < b := by
    simp only [r]
    rw [if_pos (by simp only [l]; omega)]
    split
    · rename_i h50
      simp only [l] at h50
      have hi := medianAdjacentCmpFunc_mem cmp d i 0
      have hj := medianAdjacentCmpFunc_mem cmp d j ri.2
      have hk := medianAdjacentCmpFunc_mem cmp d k rj.2
      rcases medianCmpFunc_mem cmp d ri.1 rj.1 rk.1 rk.2 with h | h | h <;>
      · rw [h]
        simp only [ri, rj, rk, i, j, k, l] at hi hj hk ⊢
        omega
    · rcases medianCmpFunc_mem cmp d i j k 0 with h | h | h <;>
      · rw [h]
        simp only [i, j, k, l]
        omega
  split
  · exact hr
  · split
    · exact hr
    · exact hr

theorem lowerBound_mono {a b b' : Nat} {d : List α} (h : LowerBound key a b d) (hb : b' ≤ b) :
    LowerBound key a b' d :=
  fun ha x h1 h2 => h ha x h1 (by omega)

theorem scanOrdered_spec (hcmp : ∀ x y, cmp x y < 0 ↔ key x < key y) (d : List α) (a b : Nat)
    (hb : b ≤ d.length) :
    ∀ (todo i : Nat), a + 1 ≤ i → i ≤ b → b ≤ i + todo → SortedOn key a i d →
      i ≤ scanOrdered cmp d b todo i ∧ scanOrdered cmp d b todo i ≤ b ∧
        SortedOn key a (scanOrdered cmp d b todo i) d ∧
        (scanOrdered cmp d b todo i < b →
          keyAt key d (scanOrdered cmp d b todo i) <
            keyAt key d (scanOrdered cmp d b todo i - 1)) := by
  intro todo
  induction todo with
  | zero =>
    intro i _ h2 h3 hs
    rw [scanOrdered]
    exact ⟨Nat.le_refl _, h2, hs, fun h => by omega⟩
  | succ todo ih =>
    intro i h1 h2 h3 hs
    rw [scanOrdered]
    by_cases hc : i < b ∧ lessAt cmp d i (i - 1) = false
    · rw [if_pos hc]
      have hle := (lessAt_false_iff key cmp hcmp d i (i - 1) (by omega) (by omega)).1 hc.2
      have hs' : SortedOn key a (i + 1) d := by
        intro p q hp hpq hq
        by_cases hqi : q = i
        · subst hqi
          rcases Nat.eq_or_lt_of_le hpq with rfl | hlt
          · exact le_refl _
          · exact le_trans (hs p (q - 1) hp (by omega) (by omega)) hle
        · exact hs p q hp hpq (by omega)
      obtain ⟨k1, k2, k3, k4⟩ := ih (i + 1) (by omega) (by omega) (by omega) hs'
      exact ⟨by omega, k2, k3, k4⟩
    · rw [if_neg hc]
      refine ⟨Nat.le_refl _, h2, hs, ?_⟩
      intro hib
      by_contra hlt
      apply hc
      refine ⟨hib, lessAt_false_of_not cmp ?_⟩
      intro h
      exact hlt ((lessAt_true_iff key cmp hcmp d i (i - 1) (by omega) (by omega)).1 h)

theorem shiftGreater_within (lo b : Nat) :
    ∀ (todo j : Nat) (d : List α), lo + 1 ≤ j → b ≤ d.length →
      Within key lo b d (shiftGreater cmp b todo j d) := by
  intro todo
  induction todo with
  | zero =>
    intro j d _ _
    rw [shiftGreater]
    exact within_refl key _ _ d
  | succ todo ih =>
    intro j d hj hb
    rw [shiftGreater]
    split
    · split
      · exact within_refl key _ _ d
      · have hw := within_swapAt key lo b d j (j - 1) hb (by omega) (by omega) (by omega)
          (by omega)
        exact within_trans key hw (ih _ _ (by omega) (by rw [swapAt_length]; exact hb))
    · exact within_refl key _ _ d

theorem sortedOn_within_left {a i b : Nat} {d d' : List α} (h : Within key i b d d')
    (hs : SortedOn key a i d) : SortedOn key a i d' := by
  intro p q hp hpq hq
  rw [h.2.1 p (by omega), h.2.1 q (by omega)]
  exact hs p q hp hpq hq

theorem partialInsertionLoop_spec (hcmp : ∀ x y, cmp x y < 0 ↔ key x < key y) (a b : Nat) :
    ∀ (steps i : Nat) (d : List α), a + 1 ≤ i → i ≤ b → b ≤ d.length → SortedOn key a i d →
      LowerBound key a b d →
      Within key a b d (partialInsertionLoop cmp a b steps i d).1 ∧
        ((partialInsertionLoop cmp a b steps i d).2 = true →
          SortedOn key a b (partialInsertionLoop cmp a b steps i d).1) := by
  intro steps
  induction steps with
  | zero =>
    intro i d _ _ _ _ _
    rw [partialInsertionLoop]
    exact ⟨within_refl key _ _ d, fun h => by simp at h⟩
  | succ steps ih =>
    intro i d h1 h2 hb hs hlb
    rw [partialInsertionLoop]
    obtain ⟨s1, s2, s3, s4⟩ := scanOrdered_spec key cmp hcmp d a b hb (b - i) i h1 h2
      (by omega) hs
    generalize scanOrdered cmp d b (b - i) i = i' at s1 s2 s3 s4 ⊢
    by_cases he : i' = b
    · rw [if_pos he]
      rw [he] at s3
      exact ⟨within_refl key _ _ d, fun _ => s3⟩
    · rw [if_neg he]
      by_cases h50 : b - a < 50
      · rw [if_pos h50]
        exact ⟨within_refl key _ _ d, fun h => by simp at h⟩
      · rw [if_neg h50]
        dsimp only
        have hw1 : Within key a b d (swapAt d i' (i' - 1)) :=
          within_swapAt key a b d i' (i' - 1) hb (by omega) (by omega) (by omega) (by omega)
        have hlen1 : b ≤ (swapAt d i' (i' - 1)).length := by rw [swapAt_length]; exact hb
        have hlb1 : LowerBound key a b (swapAt d i' (i' - 1)) := lowerBound_within key hw1 hlb
        have hs1 : SortedOn key a (i' - 1) (swapAt d i' (i' - 1)) := by
          intro p q hp hpq hq
          rw [keyAt_swapAt_other key d i' (i' - 1) p (by omega) (by omega) (by omega) (by omega),
            keyAt_swapAt_other key d i' (i' - 1) q (by omega) (by omega) (by omega) (by omega)]
          exact s3 p q hp hpq (by omega)
        generalize swapAt d i' (i' - 1) = d1 at hw1 hlen1 hlb1 hs1 ⊢
        obtain ⟨d2, hd2, hw2, hs2⟩ : ∃ d2,
            (if i' - a ≥ 2 then shiftSmaller cmp (i' - 1) d1 else d1) = d2 ∧
            Within key a b d1 d2 ∧ SortedOn key a i' d2 := by
          by_cases hc : i' - a ≥ 2
          · have hi : i' - 1 + 1 = i' := by omega
            obtain ⟨k1, k2⟩ := insertDown_sorted key cmp hcmp 0 a (i' - 1) (Nat.zero_le _)
              (i' - 1) d1 (by omega) (Nat.le_refl _) (by omega)
              (insertInv_start key a (i' - 1) d1 hs1)
              (Or.inr (lowerBound_mono key hlb1 (by omega)))
            rw [hi] at k1 k2
            exact ⟨_, by rw [if_pos hc, shiftSmaller_eq], within_mono key k1 (Nat.le_refl _) s2,
              k2⟩
          · refine ⟨d1, by rw [if_neg hc], within_refl key _ _ d1, ?_⟩
            intro p q hp hpq hq
            have : p = q := by omega
            rw [this]
        rw [hd2]
        obtain ⟨d3, hd3, hw3, hs3⟩ : ∃ d3,
            (if b - i' ≥ 2 then shiftGreater cmp b (b - i') (i' + 1) d2 else d2) = d3 ∧
            Within key a b d2 d3 ∧ SortedOn key a i' d3 := by
          by_cases hc : b - i' ≥ 2
          · have hw := shiftGreater_within key cmp i' b (b - i') (i' + 1) d2 (Nat.le_refl _)
              (by rw [hw2.1]; exact hlen1)
            exact ⟨_, by rw [if_pos hc], within_mono key hw (by omega) (Nat.le_refl _),
              sortedOn_within_left key hw hs2⟩
          · exact ⟨d2, by rw [if_neg hc], within_refl key _ _ d2, hs2⟩
        rw [hd3]
        have hw13 : Within key a b d1 d3 := within_trans key hw2 hw3
        obtain ⟨k1, k2⟩ := ih i' d3 (by omega) s2 (by rw [hw13.1]; exact hlen1) hs3
          (lowerBound_within key hw13 hlb1)
        exact ⟨within_trans key hw1 (within_trans key hw13 k1), k2⟩

theorem partialInsertionSortCmpFunc_spec (hcmp : ∀ x y, cmp x y < 0 ↔ key x < key y)
    (d : List α) (a b : Nat) (hab : a < b) (hb : b ≤ d.length) (hlb : LowerBound key a b d) :
    Within key a b d (partialInsertionSortCmpFunc cmp d a b).1 ∧
      ((partialInsertionSortCmpFunc cmp d a b).2 = true →
        SortedOn key a b (partialInsertionSortCmpFunc cmp d a b).1) := by
  unfold partialInsertionSortCmpFunc
  apply partialInsertionLoop_spec key cmp hcmp a b 5 (a + 1) d (Nat.le_refl _) (by omega) hb
    _ hlb
  intro p q hp hpq hq
  have : p = q := by omega
  rw [this]

/-! ### The quicksort -/

theorem sortedOn_of_same {a b : Nat} {d d' : List α}
    (h : ∀ x, a ≤ x → x < b → keyAt key d' x = keyAt key d x) (hs : SortedOn key a b d) :
    SortedOn key a b d' := by
  intro p q hp hpq hq
  rw [h p hp (by omega), h q (by omega) hq]
  exact hs p q hp hpq hq

theorem sortedOn_split (a m b : Nat) (d : List α) (h1 : SortedOn key a m d)
    (h2 : SortedOn key m b d)
    (h3 : ∀ p q, a ≤ p → p < m → m ≤ q → q < b → keyAt key d p ≤ keyAt key d q) :
    SortedOn key a b d := by
  intro p q hp hpq hq
  by_cases hqm : q < m
  · exact h1 p q hp hpq hqm
  · by_cases hpm : p < m
    · exact h3 p q hp hpm (by omega) hq
    · exact h2 p q (by omega) hpq hq

theorem sortedOn_pivot (a m b : Nat) (d : List α) (h1 : SortedOn key a m d)
    (h2 : SortedOn key (m + 1) b d)
    (hl : ∀ p, a ≤ p → p < m → keyAt key d p ≤ keyAt key d m)
    (hr : ∀ q, m < q → q < b → keyAt key d m ≤ keyAt key d q) :
    SortedOn key a b d := by
  apply sortedOn_split key a m b d h1
  · apply sortedOn_split key m (m + 1) b d _ h2
    · intro p q hp hpm hq hqb
      have : p = m := by omega
      rw [this]
      exact hr q (by omega) hqb
    · intro p q hp hpq hq
      have e1 : p = m := by omega
      have e2 : q = m := by omega
      rw [e1, e2]
  · intro p q hp hpm hq hqb
    rcases Nat.eq_or_lt_of_le hq with rfl | hlt
    · exact hl p hp hpm
    · exact le_trans (hl p hp hpm) (hr q hlt hqb)

theorem pdqsortCmpFunc_sorted (hcmp : ∀ x y, cmp x y < 0 ↔ key x < key y) :
    ∀ (todo : Nat) (d : List α) (a b limit : Nat) (wasBalanced wasPartitioned : Bool),
      a ≤ b → b ≤ d.length → b - a < todo → LowerBound key a b d →
      Within key a b d (pdqsortCmpFunc cmp todo d a b limit wasBalanced wasPartitioned) ∧
        SortedOn key a b (pdqsortCmpFunc cmp todo d a b limit wasBalanced wasPartitioned) := by
  intro todo
  induction todo with
  | zero =>
    intro d a b limit wasBalanced wasPartitioned _ _ h _
    omega
  | succ todo ih =>
    intro d a b limit wasBalanced wasPartitioned hab hb hfuel hlb
    unfold pdqsortCmpFunc
    lift_lets
    extract_lets length d1 limit1 ph d2 pivot hint tryPartial pr d3 pe pt mid leftLen rightLen
      balanceThreshold
    have hlength : length = b - a := rfl
    by_cases h12 : length ≤ 12
    · rw [if_pos h12]
      exact insertionSortCmpFunc_sorted key cmp hcmp d a b hb
    · rw [if_neg h12]
      by_cases hlim : limit = 0
      · rw [if_pos hlim]
        exact heapSortCmpFunc_sorted key cmp hcmp d a b hab hb
      · rw [if_neg hlim]
        have hw1 : Within key a b d d1 := by
          simp only [d1]
          split
          · exact breakPatternsCmpFunc_within key d a b hab hb
          · exact within_refl key _ _ d
        have hb1 : b ≤ d1.length := by rw [hw1.1]; exact hb
        have hw2 : Within key a b d1 d2 := by
          simp only [d2]
          split
          · exact reverseRangeCmpFunc_within key d1 a b (by omega) hb1
          · exact within_refl key _ _ d1
        have hb2 : b ≤ d2.length := by rw [hw2.1]; exact hb1
        have hph : a ≤ ph.1 ∧ ph.1 < b := choosePivotCmpFunc_range cmp d1 a b (by omega)
        have hpiv : a ≤ pivot ∧ pivot < b := by
          simp only [pivot]
          split <;> omega
        have hlb2 : LowerBound key a b d2 := lowerBound_within key (within_trans key hw1 hw2) hlb
        have hpr : Within key a b d2 pr.1 ∧ (pr.2 = true → SortedOn key a b pr.1) := by
          simp only [pr]
          split
          · exact partialInsertionSortCmpFunc_spec key cmp hcmp d2 a b (by omega) hb2 hlb2
          · exact ⟨within_refl key _ _ d2, fun h => by simp at h⟩
        have hw3 : Within key a b d pr.1 := within_trans key hw1 (within_trans key hw2 hpr.1)
        by_cases hsorted : pr.2 = true
        · rw [if_pos hsorted]
          exact ⟨hw3, hpr.2 hsorted⟩
        · rw [if_neg hsorted]
          have hd3 : d3 = pr.1 := rfl
          rw [← hd3] at hw3
          have hb3 : b ≤ d3.length := by rw [hw3.1]; exact hb
          have hlb3 : LowerBound key a b d3 := lowerBound_within key hw3 hlb
          by_cases hpe : 0 < a ∧ lessAt cmp d3 (a - 1) pivot = false
          · rw [if_pos hpe]
            have hE : Within key a b d3 pe.1 ∧ a + 1 ≤ pe.2 ∧ pe.2 ≤ b ∧
                (∀ x, a ≤ x → x < pe.2 → keyAt key pe.1 x ≤ keyAt key d3 pivot) ∧
                (∀ x, pe.2 ≤ x → x < b → keyAt key d3 pivot < keyAt key pe.1 x) :=
              partitionEqualCmpFunc_spec key cmp hcmp d3 a b pivot hpiv.1 hpiv.2 hb3
            obtain ⟨e1, e2, e3, e4, e5⟩ := hE
            have hmin : ∀ x, a ≤ x → x < b → keyAt key d3 pivot ≤ keyAt key d3 x := by
              intro x hx1 hx2
              exact le_trans
                ((lessAt_false_iff key cmp hcmp d3 (a - 1) pivot (by omega) (by omega)).1 hpe.2)
                (hlb3 hpe.1 x hx1 hx2)
            have hmin' := within_forall key e1 (fun v => keyAt key d3 pivot ≤ v) hmin
            have hlbE : LowerBound key pe.2 b pe.1 := by
              intro _ x hx1 hx2
              exact le_trans (e4 (pe.2 - 1) (by omega) (by omega)) (le_of_lt (e5 x hx1 hx2))
            obtain ⟨r1, r2⟩ := ih pe.1 pe.2 b limit1 wasBalanced wasPartitioned e3
              (by rw [e1.1]; exact hb3) (by omega) hlbE
            refine ⟨within_trans key hw3 (within_trans key e1
              (within_mono key r1 (by omega) (Nat.le_refl _))), ?_⟩
            have hgt := within_forall key r1 (fun v => keyAt key d3 pivot < v) e5
            apply sortedOn_split key a pe.2 b _ _ r2
            · intro p q hp hpm hq hqb
              rw [r1.2.1 p (by omega)]
              exact le_trans (e4 p hp hpm) (le_of_lt (hgt q hq hqb))
            · intro p q hp hpq hq
              rw [r1.2.1 p (by omega), r1.2.1 q (by omega)]
              exact le_trans (e4 p hp (by omega)) (hmin' q (by omega) (by omega))
          · rw [if_neg hpe]
            have hT : Within key a b d3 pt.1 ∧ a ≤ mid ∧ mid < b ∧
                (∀ x, a ≤ x → x < mid → keyAt key pt.1 x < keyAt key pt.1 mid) ∧
                (∀ x, mid < x → x < b → keyAt key pt.1 mid ≤ keyAt key pt.1 x) :=
              partitionCmpFunc_spec key cmp hcmp d3 a b pivot hpiv.1 hpiv.2 hb3
            obtain ⟨t1, t2, t3, t4, t5⟩ := hT
            have hbt : b ≤ pt.1.length := by rw [t1.1]; exact hb3
            have hlbt : LowerBound key a b pt.1 := lowerBound_within key t1 hlb3
            by_cases hlr : leftLen < rightLen
            · rw [if_pos hlr]
              obtain ⟨r1, r2⟩ := ih pt.1 a mid limit1 true true t2 (by omega) (by omega)
                (lowerBound_mono key hlbt (by omega))
              generalize pdqsortCmpFunc cmp todo pt.1 a mid limit1 true true = R1 at r1 r2 ⊢
              have hlbR : LowerBound key (mid + 1) b R1 := by
                intro _ x hx1 hx2
                simp only [Nat.add_sub_cancel]
                rw [r1.2.1 mid (by omega), r1.2.1 x (by omega)]
                exact t5 x (by omega) hx2
              obtain ⟨r3, r4⟩ := ih R1 (mid + 1) b limit1 (decide (leftLen ≥ balanceThreshold))
                pt.2.2 (by omega) (by rw [r1.1]; exact hbt) (by omega) hlbR
              generalize pdqsortCmpFunc cmp todo R1 (mid + 1) b limit1
                (decide (leftLen ≥ balanceThreshold)) pt.2.2 = R2 at r3 r4 ⊢
              refine ⟨within_trans key hw3 (within_trans key t1 (within_trans key
                (within_mono key r1 (Nat.le_refl _) (by omega))
                (within_mono key r3 (by omega) (Nat.le_refl _)))), ?_⟩
              have hmid : keyAt key R2 mid = keyAt key pt.1 mid := by
                rw [r3.2.1 mid (by omega), r1.2.1 mid (by omega)]
              have hleft := within_forall key r1 (fun v => v < keyAt key pt.1 mid) t4
              have hright := within_forall key r3 (fun v => keyAt key pt.1 mid ≤ v)
                (fun x hx1 hx2 => by rw [r1.2.1 x (by omega)]; exact t5 x (by omega) hx2)
              apply sortedOn_pivot key a mid b R2
              · exact sortedOn_of_same key (fun x _ hx2 => r3.2.1 x (by omega)) r2
              · exact r4
              · intro p hp hpm
                rw [hmid, r3.2.1 p (by omega)]
                exact le_of_lt (hleft p hp hpm)
              · intro q hq hqb
                rw [hmid]
                exact hright q (by omega) hqb
            · rw [if_neg hlr]
              have hlbR0 : LowerBound key (mid + 1) b pt.1 := by
                intro _ x hx1 hx2
                simp only [Nat.add_sub_cancel]
                exact t5 x (by omega) hx2
              obtain ⟨r1, r2⟩ := ih pt.1 (mid + 1) b limit1 true true (by omega) hbt (by omega)
                hlbR0
              generalize pdqsortCmpFunc cmp todo pt.1 (mid + 1) b limit1 true true = R1
                at r1 r2 ⊢
              have hlbR : LowerBound key a mid R1 := by
                intro ha x hx1 hx2
                rw [r1.2.1 (a - 1) (by omega), r1.2.1 x (by omega)]
                exact hlbt ha x hx1 (by omega)
              obtain ⟨r3, r4⟩ := ih R1 a mid limit1 (decide (rightLen ≥ balanceThreshold))
                pt.2.2 t2 (by rw [r1.1]; omega) (by omega) hlbR
              generalize pdqsortCmpFunc cmp todo R1 a mid limit1
                (decide (rightLen ≥ balanceThreshold)) pt.2.2 = R2 at r3 r4 ⊢
              refine ⟨within_trans key hw3 (within_trans key t1 (within_trans key
                (within_mono key r1 (by omega) (Nat.le_refl _))
                (within_mono key r3 (Nat.le_refl _) (by omega)))), ?_⟩
              have hmid : keyAt key R2 mid = keyAt key pt.1 mid := by
                rw [r3.2.1 mid (by omega), r1.2.1 mid (by omega)]
              have hleft := within_forall key r3 (fun v => v < keyAt key pt.1 mid)
                (fun x hx1 hx2 => by rw [r1.2.1 x (by omega)]; exact t4 x hx1 hx2)
              have hright := within_forall key r1 (fun v => keyAt key pt.1 mid ≤ v)
                (fun x hx1 hx2 => t5 x (by omega) hx2)
              apply sortedOn_pivot key a mid b R2
              · exact r4
              · exact sortedOn_of_same key (fun x hx1 _ => r3.2.1 x (by omega)) r2
              · intro p hp hpm
                rw [hmid]
                exact le_of_lt (hleft p hp hpm)
              · intro q hq hqb
                rw [hmid, r3.2.1 q (by omega)]
                exact hright q (by omega) hqb

/-- `slices.SortFunc` leaves the keys of the slice in non-decreasing order. -/
theorem SortFunc_sortedOn (hcmp : ∀ x y, cmp x y < 0 ↔ key x < key y) (x : List α) :
    (SortFunc x cmp).length = x.length ∧ SortedOn key 0 x.length (SortFunc x cmp) := by
  unfold SortFunc
  obtain ⟨h1, h2⟩ := pdqsortCmpFunc_sorted key cmp hcmp (x.length + 1) x 0 x.length
    (bitsLen 64 x.length) true true (Nat.zero_le _) (Nat.le_refl _) (by omega)
    (fun h => by omega)
  exact ⟨h1.1, h2⟩

/-- `slices.SortFunc` sorts: in the result no element is followed by one with
a smaller key. -/
theorem SortFunc_sorted (hcmp : ∀ x y, cmp x y < 0 ↔ key x < key y) (x : List α) :
    (SortFunc x cmp).Chain' (fun p q => key p ≤ key q) := by
  obtain ⟨h1, h2⟩ := SortFunc_sortedOn key cmp hcmp x
  rw [List.chain'_iff_get]
  intro i hi
  have hi1 : i < (SortFunc x cmp).length := by omega
  have hi2 : i + 1 < (SortFunc x cmp).length := by omega
  have := h2 i (i + 1) (Nat.zero_le _) (by omega) (by omega)
  rw [keyAt_of_lt key _ i hi1, keyAt_of_lt key _ (i + 1) hi2] at this
  exact this

end SortingOrder

/-! ## Playback -/

theorem forward_onPort (l : LightPlayer) (fails : Nat → Bool) (zone : Option String)
    (effect : Nat) :
    (LightPlayer.forward (l.onPort fails) zone effect).1 =
      (LightPlayer.forward l zone effect).1.onPort fails := by
  rcases l with ⟨ctrl, mapping, file, stack⟩
  cases zone with
  | none => cases ctrl <;> rfl
  | some zoneName =>
    cases ctrl with
    | none => rfl
    | some c =>
      simp only [LightPlayer.forward, LightPlayer.onPort, Option.map_some',
        LEDController.SetZoneEffect]
      cases hz : c.zoneCache zoneName with
      | none => rfl
      | some a =>
        simp only [LEDController.SetZoneEffectRaw, Port.Write]
        cases fails c.port.calls.length <;> cases c.port.fails c.port.calls.length <;> rfl

/-- What `send` leaves behind does not depend on the answers of the port. -/
theorem send_onPort (l : LightPlayer) (fails : Nat → Bool) (message : Message) :
    ((l.onPort fails).send message).map (fun r => r.1) =
      (l.send message).map (fun r => r.1.onPort fails) := by
  have hm : (l.onPort fails).mapping = l.mapping := rfl
  have hn : (l.onPort fails).noteStatuses = l.noteStatuses := rfl
  cases message with
  | noteOn channel key velocity =>
    simp only [LightPlayer.send, hm, hn]
    cases l.mapping.Channels channel with
    | none => rfl
    | some effectString =>
      simp only
      cases stringToEffect effectString velocity with
      | none => rfl
      | some effect =>
        simp only
        cases l.noteStatuses.Play key channel effect with
        | none => rfl
        | some r =>
          simp only [Option.map_some', Option.some.injEq]
          exact forward_onPort { l with noteStatuses := r.2 } fails _ _
  | noteOff channel key velocity =>
    simp only [LightPlayer.send, hm, hn]
    cases l.noteStatuses.Release key channel with
    | none => rfl
    | some r =>
      simp only [Option.map_some', Option.some.injEq]
      exact forward_onPort { l with noteStatuses := r.2 } fails _ _
  | other => rfl

theorem dispatch_onPort (timeline : List TrackEvent) (l : LightPlayer) (fails : Nat → Bool) :
    LightPlayer.dispatch timeline (l.onPort fails) =
      (LightPlayer.dispatch timeline l).map (fun r => r.onPort fails) := by
  induction timeline generalizing l with
  | nil => rfl
  | cons noteEvent rest ih =>
    have h := send_onPort l fails noteEvent.Event.Message
    unfold LightPlayer.dispatch
    cases h1 : l.send noteEvent.Event.Message with
    | none =>
      rw [h1] at h
      cases h2 : (l.onPort fails).send noteEvent.Event.Message with
      | none => rfl
      | some r => rw [h2] at h; simp at h
    | some r0 =>
      rw [h1] at h
      cases h2 : (l.onPort fails).send noteEvent.Event.Message with
      | none => rw [h2] at h; simp at h
      | some r =>
        rw [h2] at h
        simp only [Option.map_some', Option.some.injEq] at h
        simp only [h, ih]

theorem frames_onPort (l : LightPlayer) (fails : Nat → Bool) :
    (l.onPort fails).frames = l.frames := by
  unfold LightPlayer.frames LightPlayer.onPort
  cases l.controller <;> rfl

/-- C14 fails on `refusedPlayer`, whose port refuses every write after the
configuration: `send` returns the write error of the first event, and `Play`,
which drops the result of `send`, still dispatches the second event and hands
its frame `'E', 0, 1, 0, 0, 0, 0` to the port.  On a port that refuses every
write the loop of `Configure` stops at the first refused frame, the Reset
frame, and returns the error. -/
theorem Play_goes_on_after_write_error :
    refusedPlayer.timeline.map (fun e => e.Event.Message) =
      [Message.noteOn 0 60 64, Message.noteOff 0 60 0] ∧
    (refusedPlayer.send (Message.noteOn 0 60 64)).map (fun r => (r.2, r.1.frames)) =
      some (true, [[82], [76, 0, 1, 1, 2], [69, 0, 1, 0, 127, 0, 0]]) ∧
    refusedPlayer.Play.map LightPlayer.frames =
      some [[82], [76, 0, 1, 1, 2], [69, 0, 1, 0, 127, 0, 0], [69, 0, 1, 0, 0, 0, 0]] ∧
    (refusingController.Configure gapConfig).2 = true ∧
    (refusingController.Configure gapConfig).1.port.calls = [[82]] := by
  decide

/-- The answers of the port have no part in what `Play` does: whatever the
port answers, `Play` dispatches the same timeline and ends, if it ends, in the
same player apart from the port's answers, having handed the same frames to
the port and holding the same note stack. -/
theorem Play_ignores_write_errors (l : LightPlayer) (fails : Nat → Bool) :
    (∀ timeline : List TrackEvent,
      LightPlayer.dispatch timeline (l.onPort fails) =
        (LightPlayer.dispatch timeline l).map (fun r => r.onPort fails)) ∧
    (l.onPort fails).Play = l.Play.map (fun r => r.onPort fails) ∧
    (l.onPort fails).Play.map LightPlayer.frames = l.Play.map LightPlayer.frames ∧
    (l.onPort fails).Play.map LightPlayer.noteStatuses =
      l.Play.map LightPlayer.noteStatuses := by
  have hp : (l.onPort fails).Play = l.Play.map (fun r => r.onPort fails) :=
    dispatch_onPort l.timeline l fails
  refine ⟨fun timeline => dispatch_onPort timeline l fails, hp, ?_, ?_⟩
  · rw [hp]
    cases l.Play with
    | none => rfl
    | some r => simp [frames_onPort]
  · rw [hp]
    cases l.Play with
    | none => rfl
    | some r => rfl

/-! ## The timeline -/

/-- C15 fails on `tiePlayer`: the twelve events of track 0 are appended in the
order of the keys 60 to 71, all on tick 1, and `slices.SortFunc` returns them
in the order 66, 62, 63, 64, 65, 60, 67, 68, 69, 70, 71, 61. -/
theorem timeline_reorders_equal_ticks :
    tiePlayer.noteEvents.map (fun e => (e.AbsTicks, e.Event.Message)) =
      [(1, Message.noteOn 0 60 100), (1, Message.noteOn 0 61 100),
       (1, Message.noteOn 0 62 100), (1, Message.noteOn 0 63 100),
       (1, Message.noteOn 0 64 100), (1, Message.noteOn 0 65 100),
       (1, Message.noteOn 0 66 100), (1, Message.noteOn 0 67 100),
       (1, Message.noteOn 0 68 100), (1, Message.noteOn 0 69 100),
       (1, Message.noteOn 0 70 100), (1, Message.noteOn 0 71 100),
       (0, Message.noteOn 0 72 100)] ∧
    tiePlayer.timeline.map (fun e => (e.AbsTicks, e.Event.Message)) =
      [(0, Message.noteOn 0 72 100), (1, Message.noteOn 0 66 100),
       (1, Message.noteOn 0 62 100), (1, Message.noteOn 0 63 100),
       (1, Message.noteOn 0 64 100), (1, Message.noteOn 0 65 100),
       (1, Message.noteOn 0 60 100), (1, Message.noteOn 0 67 100),
       (1, Message.noteOn 0 68 100), (1, Message.noteOn 0 69 100),
       (1, Message.noteOn 0 70 100), (1, Message.noteOn 0 71 100),
       (1, Message.noteOn 0 61 100)] := by
  decide

theorem flattenTrack_time (timeAt : Int → Int) (trackNum : Nat) (track : List Event)
    (absTicks : Int) :
    ∀ e ∈ flattenTrack timeAt trackNum absTicks track, e.AbsMicroSeconds = timeAt e.AbsTicks := by
  induction track generalizing absTicks with
  | nil => simp [flattenTrack]
  | cons event rest ih =>
    intro e he
    unfold flattenTrack at he
    simp only at he
    split at he
    · exact ih _ e he
    · rcases List.mem_cons.1 he with rfl | he'
      · rfl
      · exact ih _ e he'

theorem flattenTracks_time (timeAt : Int → Int) (tracks : List (List Event)) (trackNum : Nat) :
    ∀ e ∈ flattenTracks timeAt trackNum tracks, e.AbsMicroSeconds = timeAt e.AbsTicks := by
  induction tracks generalizing trackNum with
  | nil => simp [flattenTracks]
  | cons track rest ih =>
    intro e he
    unfold flattenTracks at he
    rcases List.mem_append.1 he with h | h
    · exact flattenTrack_time _ _ _ _ e h
    · exact ih _ e h

theorem chain'_of_mem {β : Type} (P : β → Prop) (R S : β → β → Prop)
    (hRS : ∀ x y, P x → P y → R x y → S x y) (l : List β) (hP : ∀ x ∈ l, P x)
    (h : l.Chain' R) : l.Chain' S := by
  induction l with
  | nil => exact List.chain'_nil
  | cons x rest ih =>
    cases rest with
    | nil => exact List.chain'_singleton _
    | cons y rest =>
      rw [List.chain'_cons] at h ⊢
      exact ⟨hRS x y (hP x (by simp)) (hP y (by simp)) h.1,
        ih (fun z hz => hP z (List.mem_cons_of_mem _ hz)) h.2⟩

theorem compareTicks_lt (x y : TrackEvent) :
    compareTicks x y < 0 ↔ x.AbsTicks < y.AbsTicks := by
  unfold compareTicks
  split_ifs <;> omega

/-- The timeline is in the order of the ticks. -/
theorem timeline_ticks_nondecreasing (l : LightPlayer) :
    l.timeline.Chain' (fun x y => x.AbsTicks ≤ y.AbsTicks) :=
  SortFunc_sorted TrackEvent.AbsTicks compareTicks compareTicks_lt l.noteEvents

/-- C16: the timeline that `Play` walks, that is the slice `noteEvents` as
`slices.SortFunc` leaves it, is non-decreasing in `AbsTicks` for every adjacent
pair; every event of it carries the time `TimeAt` gives for its tick; and so,
with a `TimeAt` that never maps a later tick to an earlier time, the timeline
is non-decreasing in `AbsMicroSeconds` for every adjacent pair. -/
theorem timeline_times_nondecreasing (l : LightPlayer)
    (hmono : ∀ s t : Int, s ≤ t → l.midiFile.TimeAt s ≤ l.midiFile.TimeAt t) :
    l.timeline.Chain' (fun x y => x.AbsTicks ≤ y.AbsTicks) ∧
    (∀ e ∈ l.timeline, e.AbsMicroSeconds = l.midiFile.TimeAt e.AbsTicks) ∧
    l.timeline.Chain' (fun x y => x.AbsMicroSeconds ≤ y.AbsMicroSeconds) := by
  have hmem : ∀ e ∈ l.timeline, e.AbsMicroSeconds = l.midiFile.TimeAt e.AbsTicks := by
    intro e he
    have : e ∈ l.noteEvents := (SortFunc_perm l.noteEvents compareTicks).mem_iff.1 he
    exact flattenTracks_time _ _ _ e this
  refine ⟨timeline_ticks_nondecreasing l, hmem, ?_⟩
  refine chain'_of_mem (fun e => e.AbsMicroSeconds = l.midiFile.TimeAt e.AbsTicks) _ _ ?_
    l.timeline hmem (timeline_ticks_nondecreasing l)
  intro x y hx hy hxy
  rw [hx, hy]
  exact hmono _ _ hxy

/-- C16 on `duetPlayer`, whose two tracks interleave: the times of the
timeline are 5000, 7000, 12000, 16000; and on the thirteen events of
`tiePlayer`, which the sort partitions around a pivot. -/
theorem timeline_times_nondecreasing_witness :
    duetPlayer.timeline.map (fun e => e.AbsMicroSeconds) = [5000, 7000, 12000, 16000] ∧
    duetPlayer.timeline.Chain' (fun x y => x.AbsMicroSeconds ≤ y.AbsMicroSeconds) ∧
    tiePlayer.timeline.Chain' (fun x y => x.AbsMicroSeconds ≤ y.AbsMicroSeconds) :=
  ⟨by decide,
    (timeline_times_nondecreasing duetPlayer
      (fun s t h => by show 1000 * s ≤ 1000 * t; omega)).2.2,
    (timeline_times_nondecreasing tiePlayer
      (fun s t h => by show 1000 * s ≤ 1000 * t; omega)).2.2⟩

theorem sumDeltas_append (xs ys : List Event) :
    sumDeltas (xs ++ ys) = sumDeltas xs + sumDeltas ys := by
  simp [sumDeltas]

/-- The loop over one track, entered behind the messages `pre` with their
deltas summed up, appends the note events of the remaining positions. -/
theorem flattenTrack_spec (timeAt : Int → Int) (trackNum : Nat) (rest pre : List Event)
    (hfit : sumDeltas (pre ++ rest) < 2 ^ 63) :
    flattenTrack timeAt trackNum (sumDeltas pre : Int) rest =
      (List.range' pre.length rest.length).filterMap
        (specEventAt timeAt trackNum (pre ++ rest)) := by
  induction rest generalizing pre with
  | nil => simp [flattenTrack]
  | cons event rest ih =>
    have hsplit : pre ++ event :: rest = (pre ++ [event]) ++ rest := by simp
    have hsum : sumDeltas (pre ++ [event]) = sumDeltas pre + event.Delta := by
      simp [sumDeltas]
    have hle : sumDeltas (pre ++ [event]) ≤ sumDeltas (pre ++ event :: rest) := by
      have : sumDeltas (pre ++ event :: rest) = sumDeltas (pre ++ [event]) + sumDeltas rest := by
        rw [hsplit]
        exact sumDeltas_append (pre ++ [event]) rest
      omega
    have hwrap : wrapInt64 ((sumDeltas pre : Int) + (event.Delta : Int)) =
        ((sumDeltas (pre ++ [event]) : Nat) : Int) := by
      rw [hsum]
      push_cast
      apply wrapInt64_of_range
      · have : (0 : Int) ≤ (sumDeltas pre : Int) + (event.Delta : Int) := by positivity
        norm_num
        omega
      · have h1 : sumDeltas pre + event.Delta < 2 ^ 63 := by omega
        have h2 : ((sumDeltas pre + event.Delta : Nat) : Int) < (2 ^ 63 : Nat) := by
          exact_mod_cast h1
        push_cast at h2
        exact h2
    have ih' := ih (pre ++ [event]) (by rw [← hsplit]; exact hfit)
    have hlen : (pre ++ [event]).length = pre.length + 1 := by simp
    rw [hlen, ← hsplit] at ih'
    have hget : (pre ++ event :: rest)[pre.length]? = some event := by
      rw [List.getElem?_append_right (le_refl _), Nat.sub_self, List.getElem?_cons_zero]
    have htake : (pre ++ event :: rest).take (pre.length + 1) = pre ++ [event] := by
      rw [hsplit, ← hlen, List.take_left']
      rfl
    have hlist : List.range' pre.length (event :: rest).length =
        pre.length :: List.range' (pre.length + 1) rest.length := by
      simp [List.range'_succ]
    rw [hlist, List.filterMap_cons]
    unfold flattenTrack
    simp only [hwrap, specEventAt, hget, htake]
    by_cases hnote : isNoteMessage event.Message = true
    · simp only [hnote, Bool.not_true, Bool.false_eq_true, if_false, if_true]
      rw [ih']
    · simp only [hnote, Bool.not_eq_true] at *
      simp only [hnote, Bool.not_false, if_true, Bool.false_eq_true, if_false]
      rw [ih']

theorem flattenTracks_spec (timeAt : Int → Int) (tracks : List (List Event)) (trackNum : Nat)
    (hfit : ∀ track ∈ tracks, sumDeltas track < 2 ^ 63) :
    flattenTracks timeAt trackNum tracks =
      (tracks.enumFrom trackNum).flatMap (fun p => specTrackEvents timeAt p.1 p.2) := by
  induction tracks generalizing trackNum with
  | nil => rfl
  | cons track rest ih =>
    have h0 := flattenTrack_spec timeAt trackNum track [] (hfit track (List.mem_cons_self _ _))
    simp only [sumDeltas, List.map_nil, List.sum_nil, List.length_nil, List.nil_append,
      Nat.cast_zero] at h0
    rw [List.enumFrom_cons, List.flatMap_cons,
      ← ih (trackNum + 1) (fun t ht => hfit t (List.mem_cons_of_mem _ ht))]
    show flattenTrack timeAt trackNum 0 track ++ flattenTracks timeAt (trackNum + 1) rest =
      specTrackEvents timeAt trackNum track ++ flattenTracks timeAt (trackNum + 1) rest
    unfold specTrackEvents
    rw [List.range_eq_range', h0]

/-- C17: for a file whose tracks keep their running tick within `int64` (the
sum of the deltas of a track is below `2^63`), the slice `Play` hands to the
sort holds exactly the note-on and note-off messages of all tracks, track after
track: one event per such message, carrying the index of its track and the sum
of the deltas of all messages of that track up to and including itself, the
messages that are no notes counted; and the timeline is a permutation of these
events. -/
theorem timeline_flattens_tracks (l : LightPlayer)
    (hfit : ∀ track ∈ l.midiFile.Tracks, sumDeltas track < 2 ^ 63) :
    l.noteEvents = specNoteEvents l.midiFile ∧
    l.timeline.Perm (specNoteEvents l.midiFile) := by
  have h : l.noteEvents = specNoteEvents l.midiFile :=
    flattenTracks_spec l.midiFile.TimeAt l.midiFile.Tracks 0 hfit
  exact ⟨h, h ▸ SortFunc_perm l.noteEvents compareTicks⟩

/-- C17 on `duetPlayer`: the message of track 0 that is no note gives no event
but its delta 3 counts for the note-off behind it, which falls on tick
5 + 3 + 4 = 12. -/
theorem timeline_flattens_tracks_witness :
    (specNoteEvents duetPlayer.midiFile).map
        (fun e => (e.TrackNo, e.AbsTicks, e.Event.Message)) =
      [(0, 5, Message.noteOn 0 60 64), (0, 12, Message.noteOff 0 60 0),
       (1, 7, Message.noteOn 1 60 127), (1, 16, Message.noteOff 1 60 0)] ∧
    duetPlayer.timeline.Perm (specNoteEvents duetPlayer.midiFile) :=
  ⟨by decide, (timeline_flattens_tracks duetPlayer (by decide)).2⟩

end MusicalLeds
